import Mathlib

/-!
# protoc-gen-graphql: name resolution and type lowering

A shallow embedding of `generator.go` (the `Generator` of the protoc plugin that
translates protobuf descriptors into a GraphQL schema) together with the
properties of its two passes:

* the resolution pass `buildTypeMaps` / `buildTypesFromMessage` /
  `buildTypesFromEnum`, which fills the tables `typeNameMap`, `inputNameMap`
  and `emptyMessages`;
* the lowering pass `graphqlField`, `graphqlFields`, `graphqlUnionFromOneof`,
  `graphqlInputFromOneof`, `graphqlFieldFromMethod`, `graphqlFromService`.

Go maps are association lists read with first-match lookup, Go slices are
immutable lists, a nil dereference / index out of range / explicit `panic` is a
`Fault`, and the recursion of `buildTypesFromMessage` is bounded by a fuel
argument that counts nesting depth.

The file has three parts: the embedding of the code; the predicates used to
state its properties, followed by sample descriptors; the theorems.
-/

namespace ProtocGenGraphql

/-! ## Go maps -/

/-- A Go `map[string]α`: association list, the first binding of a key wins. -/
abbrev GoMap (α : Type) := List (String × α)

namespace GoMap

/-- The comma-ok read `v, ok := m[k]`. -/
def get? {α : Type} : GoMap α → String → Option α
  | [], _ => none
  | (k', v) :: rest, k => if k' = k then some v else get? rest k

/-- The write `m[k] = v`. -/
def set {α : Type} (m : GoMap α) (k : String) (v : α) : GoMap α := (k, v) :: m

/-- The read `m[k]` of a `map[string]string`: the zero value `""` when absent. -/
def getStr (m : GoMap String) (k : String) : String := (m.get? k).getD ""

/-- The read `m[k]` of a `map[string]bool`: the zero value `false` when absent. -/
def getBool (m : GoMap Bool) (k : String) : Bool := (m.get? k).getD false

end GoMap

/-! ## Library string functions used by `buildGraphqlTypeName` -/

/-- Go `strings.Split(s, sep)` for a one-character separator, on characters. -/
def splitChars (sep : Char) : List Char → List (List Char)
  | [] => [[]]
  | c :: cs =>
    if c = sep then [] :: splitChars sep cs
    else
      match splitChars sep cs with
      | [] => [[c]]
      | h :: t => (c :: h) :: t

/-- Go `strings.Split(s, ".")`. -/
def splitDot (s : String) : List String := (splitChars '.' s.data).map String.mk

/-- Go `strings.Join(elems, "_")`. -/
def joinUnderscore : List String → String
  | [] => ""
  | [a] => a
  | a :: rest => a ++ "_" ++ joinUnderscore rest

/-- Go `strings.TrimSuffix(s, suffix)`. -/
def trimSuffix (s suffix : String) : String :=
  if suffix.data.isSuffixOf s.data then
    String.mk (s.data.take (s.data.length - suffix.data.length))
  else s

/-- The test `'a' <= c && c <= 'z'` of the library. -/
def isASCIILower (c : Char) : Bool := decide (97 ≤ c.toNat ∧ c.toNat ≤ 122)

/-- The test `'0' <= c && c <= '9'` of the library. -/
def isASCIIDigit (c : Char) : Bool := decide (48 ≤ c.toNat ∧ c.toNat ≤ 57)

/-- The main loop of `generator.CamelCase` (golang/protobuf), character by
character. `inWord` is true while the inner loop that accepts the lower-case run
after a letter is active; otherwise the character is at the head of the outer
loop: an underscore followed by a lower-case letter is skipped, a digit is
copied, any other character is copied with a lower-case letter capitalised
(`c ^= ' '`) and opens a word. -/
def camelLoop : Bool → List Char → List Char
  | _, [] => []
  | inWord, c :: rest =>
    if inWord && isASCIILower c then c :: camelLoop true rest
    else if c = '_' && (match rest with | [] => false | d :: _ => isASCIILower d) then
      camelLoop false rest
    else if isASCIIDigit c then c :: camelLoop false rest
    else (if isASCIILower c then Char.ofNat (c.toNat - 32) else c) :: camelLoop true rest

/-- Library function `generator.CamelCase` of golang/protobuf, which
`buildGraphqlTypeName` calls, transcribed from the library: the empty string is
returned as is, a leading underscore becomes `X`, an interior underscore
followed by a lower-case letter is dropped and the letter capitalised, and the
first letter of every word is capitalised (`_my_field_name_2` becomes
`XMyFieldName_2`). -/
def CamelCase (s : String) : String :=
  match s.data with
  | [] => ""
  | c :: rest =>
    if c = '_' then String.mk ('X' :: camelLoop false rest)
    else String.mk (camelLoop false (c :: rest))

/-- Library function `generator.CamelCaseSlice`: `CamelCase(strings.Join(elem, "_"))`. -/
def CamelCaseSlice (elem : List String) : String := CamelCase (joinUnderscore elem)

/-! ## Descriptors (the wrapped protobuf descriptors the generator reads) -/

/-- The protobuf `FieldDescriptorProto_Type` enumeration. -/
inductive FieldType where
  | TYPE_DOUBLE | TYPE_FLOAT | TYPE_INT64 | TYPE_UINT64 | TYPE_INT32
  | TYPE_FIXED64 | TYPE_FIXED32 | TYPE_BOOL | TYPE_STRING | TYPE_GROUP
  | TYPE_MESSAGE | TYPE_BYTES | TYPE_UINT32 | TYPE_ENUM | TYPE_SFIXED32
  | TYPE_SFIXED64 | TYPE_SINT32 | TYPE_SINT64
  deriving DecidableEq, Repr

/-- The protobuf `FieldDescriptorProto_Label` enumeration. -/
inductive FieldLabel where
  | LABEL_OPTIONAL | LABEL_REQUIRED | LABEL_REPEATED
  deriving DecidableEq, Repr

/-- The fields of `pb.FieldDescriptorProto` the generator reads. `FType` is
`GetType()`, `OneofIndex` is the optional `int32` pointer. -/
structure FieldDescriptorProto where
  Name : String
  FType : FieldType
  Label : FieldLabel
  TypeName : String
  OneofIndex : Option Int
  deriving DecidableEq, Repr

/-- A `descriptor.MessageDescriptor`; `Field` and `OneofDecl` are
`Proto.GetField()` and the names of `Proto.GetOneofDecl()`. -/
structure MessageDescriptor where
  FullName : String
  Package : String
  TypeName : List String
  IsMap : Bool
  Field : List FieldDescriptorProto
  OneofDecl : List String
  deriving DecidableEq, Repr

/-- A `descriptor.EnumDescriptor`; `Value` holds the names of `Proto.GetValue()`. -/
structure EnumDescriptor where
  FullName : String
  Package : String
  TypeName : List String
  Value : List String
  deriving DecidableEq, Repr

/-- A `pb.MethodDescriptorProto`; `Operation` is the value of the
`graphqlpb.E_Operation` extension when the method options carry it. -/
structure MethodDescriptorProto where
  Name : String
  InputType : String
  OutputType : String
  Operation : Option String
  deriving DecidableEq, Repr

/-- A `descriptor.ServiceDescriptor`; `Method` is `Proto.GetMethod()`. -/
structure ServiceDescriptor where
  FullName : String
  TypeName : List String
  Method : List MethodDescriptorProto
  deriving DecidableEq, Repr

/-- A `descriptor.FileDescriptor`; `Name` and `Package` are `Proto.GetName()`
and `Proto.GetPackage()`. -/
structure FileDescriptor where
  Name : String
  Package : String
  Messages : List MessageDescriptor
  Enums : List EnumDescriptor
  Services : List ServiceDescriptor
  deriving DecidableEq, Repr

/-! ## The target schema model (package `graphql`) -/

namespace graphql

/-- Modelled from the spec: the type modifiers of package `graphql` (absent from
the sources at hand) are bit flags combined with bitwise or; "non-null" and
"list" are two distinct bits. -/
def TypeModifierNonNull : Nat := 1

/-- Modelled from the spec: the "list" modifier bit, see `TypeModifierNonNull`. -/
def TypeModifierList : Nat := 2

/-- Modelled from the spec: type names of the built-in scalars of the target
schema (`graphql.ScalarFloat.TypeName()` and so on). -/
def ScalarFloat : String := "Float"

def ScalarString : String := "String"

def ScalarInt : String := "Int"

def ScalarBoolean : String := "Boolean"

/-- A `graphql.Argument`. -/
structure Argument where
  Name : String
  TypeName : String
  Modifiers : Nat
  deriving DecidableEq, Repr

/-- A `graphql.Field`; the zero value has empty strings, no arguments and no
modifier. -/
structure Field where
  Name : String
  TypeName : String
  Arguments : List Argument
  Modifiers : Nat
  deriving DecidableEq, Repr

/-- The declarations `graphql.Type` the generator emits. -/
inductive GType where
  | Object (Name : String) (Fields : List Field)
  | Input (Name : String) (Fields : List Field)
  | Union (Name : String) (TypeNames : List String)
  | Enum (Name : String) (Values : List String)
  deriving DecidableEq, Repr

end graphql

/-! ## Generator state -/

/-- Modelled from the spec: the configuration record read by `generator.go`
(its declaration is not among the sources at hand); only the options the
generator reads are kept. -/
structure Parameters where
  ServiceTypesOnly : Bool
  TimestampTypeName : String
  DurationTypeName : String
  WrappersAsNull : Bool
  deriving DecidableEq, Repr

/-- The `Generator` struct. `req` is `g.req.GetProtoFile()`, every file proto
together with its wrapping by `descriptor.WrapFile`. -/
structure Generator where
  req : List FileDescriptor
  params : Parameters
  files : GoMap FileDescriptor
  messages : GoMap MessageDescriptor
  enums : GoMap EnumDescriptor
  emptyMessages : GoMap Bool
  typeNameMap : GoMap String
  inputNameMap : GoMap String
  deriving DecidableEq, Repr

/-- What stops a run: Go run-time panics, and the exhaustion of the recursion
fuel of the embedding. -/
inductive Fault where
  | nilDereference
  | indexOutOfRange
  | unexpectedType
  | outOfFuel
  deriving DecidableEq, Repr

/-- Result of a computation that may panic. -/
inductive Res (α : Type) where
  | ok : α → Res α
  | fault : Fault → Res α
  deriving DecidableEq, Repr

/-- The struct `graphqlTypeNameParts`. -/
structure graphqlTypeNameParts where
  Package : String
  TypeName : List String
  IsProtoMap : Bool
  Input : Bool
  deriving DecidableEq, Repr

/-- The loop of `buildGraphqlTypeName` over `parts.TypeName` from index `i` on;
`n` is `len(parts.TypeName)` and `b` the builder content. -/
def buildNameLoop (isProtoMap : Bool) (n : Nat) : Nat → List String → String → String
  | _, [], b => b
  | i, name :: rest, b =>
    let name1 := if isProtoMap && i = n - 1 then trimSuffix name "Entry" else name
    buildNameLoop isProtoMap n (i + 1) rest (b ++ "_" ++ CamelCase name1)

/-- The function `buildGraphqlTypeName`. -/
def buildGraphqlTypeName (parts : graphqlTypeNameParts) : String :=
  let b := CamelCaseSlice (splitDot parts.Package)
  let b1 := buildNameLoop parts.IsProtoMap parts.TypeName.length 0 parts.TypeName b
  if parts.Input then b1 ++ "_Input" else b1

/-! ## The resolution pass -/

/-- The table `nameMap` that `buildTypesFromMessage` selects with `input`. -/
def Generator.nameMap (g : Generator) (input : Bool) : GoMap String :=
  if input then g.inputNameMap else g.typeNameMap

/-- The write `nameMap[k] = v` on the table selected by `input`. -/
def Generator.setName (g : Generator) (input : Bool) (k v : String) : Generator :=
  if input then { g with inputNameMap := g.inputNameMap.set k v }
  else { g with typeNameMap := g.typeNameMap.set k v }

/-- The method `buildTypesFromEnum`. -/
def buildTypesFromEnum (g : Generator) (enum : EnumDescriptor) : Generator :=
  let name := buildGraphqlTypeName
    { Package := enum.Package, TypeName := enum.TypeName, IsProtoMap := false, Input := false }
  { g with typeNameMap := g.typeNameMap.set enum.FullName name }

/-- The call `g.buildTypesFromEnum(g.enums[name])`: a missing enum is a nil
pointer, dereferenced for its `FullName`. -/
def buildTypesFromEnumRef (g : Generator) (name : String) : Res Generator :=
  match g.enums.get? name with
  | none => Res.fault Fault.nilDereference
  | some enum => Res.ok (buildTypesFromEnum g enum)

/-- A `for _, x := range xs` loop whose body may panic, threading the generator. -/
def forEach {α : Type} (body : Generator → α → Res Generator) : List α → Generator → Res Generator
  | [], g => Res.ok g
  | x :: xs, g =>
    match body g x with
    | Res.ok g1 => forEach body xs g1
    | Res.fault e => Res.fault e

/-- The body of the field loop of `buildTypesFromMessage`; `visit` is the
recursive call `g.buildTypesFromMessage(g.messages[name], input)`. -/
def visitField (visit : Generator → String → Res Generator) (g : Generator)
    (field : FieldDescriptorProto) : Res Generator :=
  match (if field.FType = FieldType.TYPE_MESSAGE then visit g field.TypeName else Res.ok g) with
  | Res.fault e => Res.fault e
  | Res.ok g1 =>
    if field.FType = FieldType.TYPE_ENUM then buildTypesFromEnumRef g1 field.TypeName
    else Res.ok g1

/-- The method `buildTypesFromMessage`; `fuel` bounds the nesting depth of the
recursion. The recursive call `g.buildTypesFromMessage(g.messages[name], input)`
dereferences a nil pointer (for its `FullName`) when the name is missing. -/
def buildTypesFromMessage : Nat → Generator → MessageDescriptor → Bool → Res Generator
  | 0, _, _, _ => Res.fault Fault.outOfFuel
  | fuel + 1, g, message, input =>
    if (g.nameMap input).getStr message.FullName ≠ "" then Res.ok g
    else if message.Field.length = 0 then
      Res.ok { g with emptyMessages := g.emptyMessages.set message.FullName true }
    else
      forEach
        (visitField (fun h name =>
          match h.messages.get? name with
          | none => Res.fault Fault.nilDereference
          | some referenced => buildTypesFromMessage fuel h referenced input))
        message.Field
        (g.setName input message.FullName
          (buildGraphqlTypeName
            { Package := message.Package, TypeName := message.TypeName,
              IsProtoMap := message.IsMap, Input := input }))

/-- The call `g.buildTypesFromMessage(g.messages[name], input)`. -/
def buildTypesFromMessageRef (fuel : Nat) (input : Bool) (g : Generator) (name : String) :
    Res Generator :=
  match g.messages.get? name with
  | none => Res.fault Fault.nilDereference
  | some message => buildTypesFromMessage fuel g message input

/-- The body of the method loop of `buildTypeMaps`. -/
def buildTypesFromMethod (fuel : Nat) (g : Generator) (method : MethodDescriptorProto) :
    Res Generator :=
  match (if g.params.ServiceTypesOnly then buildTypesFromMessageRef fuel false g method.OutputType
         else Res.ok g) with
  | Res.fault e => Res.fault e
  | Res.ok g1 => buildTypesFromMessageRef fuel true g1 method.InputType

/-- The body of the service loop of `buildTypeMaps` for a service of a file
with package `pkg`. -/
def buildTypesFromService (fuel : Nat) (pkg : String) (g : Generator)
    (service : ServiceDescriptor) : Res Generator :=
  let name := buildGraphqlTypeName
    { Package := pkg, TypeName := service.TypeName, IsProtoMap := false, Input := false }
  forEach (buildTypesFromMethod fuel) service.Method
    { g with typeNameMap := g.typeNameMap.set service.FullName name }

/-- The two registration loops of `buildTypeMaps` for one file. -/
def registerFile (g : Generator) (file : FileDescriptor) : Generator :=
  let g1 := file.Messages.foldl
    (fun (h : Generator) message => { h with messages := h.messages.set message.FullName message }) g
  file.Enums.foldl
    (fun (h : Generator) enum => { h with enums := h.enums.set enum.FullName enum }) g1

/-- The body of the file loop of `buildTypeMaps`, after `file := g.files[name]`. -/
def buildTypesFromFile (fuel : Nat) (g : Generator) (file : FileDescriptor) : Res Generator :=
  let g1 := registerFile g file
  match (if ¬ g1.params.ServiceTypesOnly then
           match forEach (fun h message => buildTypesFromMessage fuel h message false)
                   file.Messages g1 with
           | Res.fault e => Res.fault e
           | Res.ok g2 => Res.ok (file.Enums.foldl buildTypesFromEnum g2)
         else Res.ok g1) with
  | Res.fault e => Res.fault e
  | Res.ok g3 => forEach (buildTypesFromService fuel file.Package) file.Services g3

/-- The body of the file loop of `buildTypeMaps`: a file name absent from
`g.files` yields a nil `file`, dereferenced for `file.Messages`. -/
def buildTypesFromFileRef (fuel : Nat) (g : Generator) (fileDescriptor : FileDescriptor) :
    Res Generator :=
  match g.files.get? fileDescriptor.Name with
  | none => Res.fault Fault.nilDereference
  | some file => buildTypesFromFile fuel g file

/-- The method `buildTypeMaps`: the five maps are made afresh, then the files of
the request are walked through in order. -/
def buildTypeMaps (fuel : Nat) (g : Generator) : Res Generator :=
  forEach (buildTypesFromFileRef fuel) g.req
    { g with messages := [], enums := [], emptyMessages := [], typeNameMap := [],
             inputNameMap := [] }

/-- The method `wrapFiles`, up to the call of `buildTypeMaps`. -/
def wrapFiles (g : Generator) : Generator :=
  { g with files := g.req.foldl (fun (m : GoMap FileDescriptor) file => m.set file.Name file) [] }

/-! ## The lowering pass -/

/-- The struct `fieldOptions`. -/
structure fieldOptions where
  Input : Bool
  NullableScalars : Bool
  deriving DecidableEq, Repr

/-- The method `graphqlSpecialTypes`. -/
def graphqlSpecialTypes (g : Generator) (field : graphql.Field) (protoTypeName : String) :
    graphql.Field :=
  let field1 :=
    if protoTypeName = ".google.protobuf.Timestamp" ∧ g.params.TimestampTypeName ≠ "" then
      { field with TypeName := g.params.TimestampTypeName }
    else field
  let field2 :=
    if protoTypeName = ".google.protobuf.Duration" ∧ g.params.DurationTypeName ≠ "" then
      { field1 with TypeName := g.params.DurationTypeName }
    else field1
  if g.params.WrappersAsNull then
    if protoTypeName = ".google.protobuf.FloatValue" ∨ protoTypeName = ".google.protobuf.DoubleValue"
        ∨ protoTypeName = ".google.protobuf.UInt32Value" then
      { field2 with TypeName := graphql.ScalarFloat }
    else if protoTypeName = ".google.protobuf.StringValue"
        ∨ protoTypeName = ".google.protobuf.BytesValue"
        ∨ protoTypeName = ".google.protobuf.Int64Value"
        ∨ protoTypeName = ".google.protobuf.UInt64Value" then
      { field2 with TypeName := graphql.ScalarString }
    else if protoTypeName = ".google.protobuf.Int32Value" then
      { field2 with TypeName := graphql.ScalarInt }
    else if protoTypeName = ".google.protobuf.BoolValue" then
      { field2 with TypeName := graphql.ScalarBoolean }
    else field2
  else field2

/-- The `switch proto.GetType()` of `graphqlField`, applied to the field
`&graphql.Field{Name: proto.GetName()}`. -/
def graphqlFieldSwitch (g : Generator) (proto : FieldDescriptorProto) (options : fieldOptions) :
    Res graphql.Field :=
  let field : graphql.Field :=
    { Name := proto.Name, TypeName := "", Arguments := [], Modifiers := 0 }
  let scalar (typeName : String) : Res graphql.Field :=
    Res.ok { field with
      TypeName := typeName,
      Modifiers := if ¬ options.NullableScalars then graphql.TypeModifierNonNull else 0 }
  let float : Res graphql.Field :=
    Res.ok { field with TypeName := graphql.ScalarFloat, Modifiers := graphql.TypeModifierNonNull }
  match proto.FType with
  | FieldType.TYPE_FLOAT => float
  | FieldType.TYPE_DOUBLE => float
  | FieldType.TYPE_UINT32 => float
  | FieldType.TYPE_SINT32 => float
  | FieldType.TYPE_FIXED32 => float
  | FieldType.TYPE_SFIXED32 => float
  | FieldType.TYPE_STRING => scalar graphql.ScalarString
  | FieldType.TYPE_BYTES => scalar graphql.ScalarString
  | FieldType.TYPE_INT64 => scalar graphql.ScalarString
  | FieldType.TYPE_UINT64 => scalar graphql.ScalarString
  | FieldType.TYPE_SINT64 => scalar graphql.ScalarString
  | FieldType.TYPE_FIXED64 => scalar graphql.ScalarString
  | FieldType.TYPE_SFIXED64 => scalar graphql.ScalarString
  | FieldType.TYPE_INT32 => scalar graphql.ScalarInt
  | FieldType.TYPE_BOOL => scalar graphql.ScalarBoolean
  | FieldType.TYPE_ENUM => scalar (g.typeNameMap.getStr proto.TypeName)
  | FieldType.TYPE_MESSAGE =>
    if g.emptyMessages.getBool proto.TypeName then
      Res.ok { field with TypeName := graphql.ScalarBoolean }
    else
      let field1 : graphql.Field :=
        if options.Input then { field with TypeName := g.inputNameMap.getStr proto.TypeName }
        else { field with TypeName := g.typeNameMap.getStr proto.TypeName }
      match g.messages.get? proto.TypeName with
      | none => Res.fault Fault.nilDereference
      | some message =>
        if message.IsMap then Res.ok { field1 with Modifiers := graphql.TypeModifierNonNull }
        else Res.ok field1
  | FieldType.TYPE_GROUP => Res.fault Fault.unexpectedType

/-- The method `graphqlField`. -/
def graphqlField (g : Generator) (proto : FieldDescriptorProto) (options : fieldOptions) :
    Res graphql.Field :=
  match graphqlFieldSwitch g proto options with
  | Res.fault e => Res.fault e
  | Res.ok field =>
    let field1 : graphql.Field :=
      if proto.Label = FieldLabel.LABEL_REPEATED then
        { field with Modifiers := field.Modifiers ||| graphql.TypeModifierList }
      else field
    Res.ok (graphqlSpecialTypes g field1 proto.TypeName)

/-- The indexing `message.Proto.GetOneofDecl()[index].GetName()` with an `int32`
index. -/
def oneofName (message : MessageDescriptor) (index : Int) : Res String :=
  if index < 0 then Res.fault Fault.indexOutOfRange
  else
    match message.OneofDecl.get? index.toNat with
    | none => Res.fault Fault.indexOutOfRange
    | some name => Res.ok name

/-- The loop of `graphqlFields`: `seenOneofs` holds the indices set to true,
`fields` the slice built so far. -/
def graphqlFieldsLoop (g : Generator) (message : MessageDescriptor) (input : Bool) :
    List FieldDescriptorProto → List Int → List graphql.Field → Res (List graphql.Field)
  | [], _, fields => Res.ok fields
  | fieldProto :: rest, seenOneofs, fields =>
    match fieldProto.OneofIndex with
    | none =>
      match graphqlField g fieldProto { Input := input, NullableScalars := false } with
      | Res.fault e => Res.fault e
      | Res.ok field => graphqlFieldsLoop g message input rest seenOneofs (fields ++ [field])
    | some index =>
      if index ∈ seenOneofs then graphqlFieldsLoop g message input rest seenOneofs fields
      else
        match oneofName message index with
        | Res.fault e => Res.fault e
        | Res.ok oneof =>
          graphqlFieldsLoop g message input rest (index :: seenOneofs)
            (fields ++ [{ Name := oneof,
                          TypeName := buildGraphqlTypeName
                            { Package := message.Package, TypeName := message.TypeName ++ [oneof],
                              IsProtoMap := false, Input := input },
                          Arguments := [], Modifiers := 0 }])

/-- The method `graphqlFields`. -/
def graphqlFields (g : Generator) (message : MessageDescriptor) (input : Bool) :
    Res (List graphql.Field) :=
  graphqlFieldsLoop g message input message.Field [] []

/-- The loop of `graphqlUnionFromOneof`: `typeNames` is `union.TypeNames`,
`objects` the declarations appended after the union. -/
def graphqlUnionLoop (g : Generator) (message : MessageDescriptor) (oneofIndex : Int)
    (oneof : String) :
    List FieldDescriptorProto → List String → List graphql.GType →
      Res (List String × List graphql.GType)
  | [], typeNames, objects => Res.ok (typeNames, objects)
  | fieldProto :: rest, typeNames, objects =>
    if fieldProto.OneofIndex = none ∨ fieldProto.OneofIndex ≠ some oneofIndex then
      graphqlUnionLoop g message oneofIndex oneof rest typeNames objects
    else
      let typeName := buildGraphqlTypeName
        { Package := message.Package, TypeName := message.TypeName ++ [oneof, fieldProto.Name],
          IsProtoMap := false, Input := false }
      match graphqlField g fieldProto { Input := false, NullableScalars := false } with
      | Res.fault e => Res.fault e
      | Res.ok field =>
        graphqlUnionLoop g message oneofIndex oneof rest (typeNames ++ [typeName])
          (objects ++ [graphql.GType.Object typeName [field]])

/-- The method `graphqlUnionFromOneof`. -/
def graphqlUnionFromOneof (g : Generator) (message : MessageDescriptor) (oneofIndex : Int) :
    Res (List graphql.GType) :=
  match oneofName message oneofIndex with
  | Res.fault e => Res.fault e
  | Res.ok oneof =>
    match graphqlUnionLoop g message oneofIndex oneof message.Field [] [] with
    | Res.fault e => Res.fault e
    | Res.ok (typeNames, objects) =>
      Res.ok (graphql.GType.Union
        (buildGraphqlTypeName
          { Package := message.Package, TypeName := message.TypeName ++ [oneof],
            IsProtoMap := false, Input := false })
        typeNames :: objects)

/-- The loop of `graphqlInputFromOneof`. -/
def graphqlInputLoop (g : Generator) (oneofIndex : Int) :
    List FieldDescriptorProto → List graphql.Field → Res (List graphql.Field)
  | [], fields => Res.ok fields
  | fieldProto :: rest, fields =>
    if fieldProto.OneofIndex = none ∨ fieldProto.OneofIndex ≠ some oneofIndex then
      graphqlInputLoop g oneofIndex rest fields
    else
      match graphqlField g fieldProto { Input := true, NullableScalars := true } with
      | Res.fault e => Res.fault e
      | Res.ok field => graphqlInputLoop g oneofIndex rest (fields ++ [field])

/-- The method `graphqlInputFromOneof`. -/
def graphqlInputFromOneof (g : Generator) (message : MessageDescriptor) (oneofIndex : Int) :
    Res graphql.GType :=
  match oneofName message oneofIndex with
  | Res.fault e => Res.fault e
  | Res.ok oneof =>
    match graphqlInputLoop g oneofIndex message.Field [] with
    | Res.fault e => Res.fault e
    | Res.ok fields =>
      Res.ok (graphql.GType.Input
        (buildGraphqlTypeName
          { Package := message.Package, TypeName := message.TypeName ++ [oneof],
            IsProtoMap := false, Input := true })
        fields)

/-- The method `graphqlFieldFromMethod`. -/
def graphqlFieldFromMethod (g : Generator) (method : MethodDescriptorProto) : Res graphql.Field :=
  match g.messages.get? method.InputType with
  | none => Res.fault Fault.nilDereference
  | some inputType =>
    let arguments : List graphql.Argument :=
      if inputType.Field.length ≠ 0 then
        [{ Name := "input", TypeName := g.inputNameMap.getStr method.InputType,
           Modifiers := graphql.TypeModifierNonNull }]
      else []
    match g.messages.get? method.OutputType with
    | none => Res.fault Fault.nilDereference
    | some outputType =>
      if outputType.Field.length = 0 then
        Res.ok { Name := method.Name, TypeName := graphql.ScalarBoolean, Arguments := arguments,
                 Modifiers := 0 }
      else
        Res.ok { Name := method.Name, TypeName := g.typeNameMap.getStr method.OutputType,
                 Arguments := arguments, Modifiers := graphql.TypeModifierNonNull }

/-- The method loop of `graphqlFromService`; `none` is the early `return nil`,
otherwise the three slices `queries`, `mutations`, `subscriptions`. -/
def graphqlServiceLoop (g : Generator) :
    List MethodDescriptorProto → List graphql.Field → List graphql.Field → List graphql.Field →
      Res (Option (List graphql.Field × List graphql.Field × List graphql.Field))
  | [], queries, mutations, subscriptions => Res.ok (some (queries, mutations, subscriptions))
  | method :: rest, queries, mutations, subscriptions =>
    let operation : String := method.Operation.getD ""
    if operation = "none" then Res.ok none
    else
      match graphqlFieldFromMethod g method with
      | Res.fault e => Res.fault e
      | Res.ok field =>
        if operation = "mutation" then
          graphqlServiceLoop g rest queries (mutations ++ [field]) subscriptions
        else if operation = "subscription" then
          graphqlServiceLoop g rest queries mutations (subscriptions ++ [field])
        else graphqlServiceLoop g rest (queries ++ [field]) mutations subscriptions

/-- The method `graphqlFromService`. -/
def graphqlFromService (g : Generator) (service : ServiceDescriptor) : Res (List graphql.GType) :=
  match graphqlServiceLoop g service.Method [] [] [] with
  | Res.fault e => Res.fault e
  | Res.ok none => Res.ok []
  | Res.ok (some (queries, mutations, subscriptions)) =>
    let t1 : List graphql.GType :=
      if queries.length > 0 then
        [graphql.GType.Object (g.typeNameMap.getStr service.FullName ++ "_Query") queries]
      else []
    let t2 : List graphql.GType :=
      if mutations.length > 0 then
        t1 ++ [graphql.GType.Object (g.typeNameMap.getStr service.FullName ++ "_Mutation") mutations]
      else t1
    let t3 : List graphql.GType :=
      if subscriptions.length > 0 then
        t2 ++ [graphql.GType.Object (g.typeNameMap.getStr service.FullName ++ "_Subscription")
                subscriptions]
      else t2
    Res.ok t3

/-! ## Declarations of a message and of an enum -/

/-- The loop `for i := 0; i < len(message.Proto.GetOneofDecl()); i++` of the
output side of `graphqlFromMessage`, over the indices still to visit. -/
def graphqlUnionsLoop (g : Generator) (message : MessageDescriptor) :
    List Nat → List graphql.GType → Res (List graphql.GType)
  | [], graphqlTypes => Res.ok graphqlTypes
  | i :: rest, graphqlTypes =>
    match graphqlUnionFromOneof g message (Int.ofNat i) with
    | Res.fault e => Res.fault e
    | Res.ok more => graphqlUnionsLoop g message rest (graphqlTypes ++ more)

/-- The same loop of the input side of `graphqlFromMessage`. -/
def graphqlInputsLoop (g : Generator) (message : MessageDescriptor) :
    List Nat → List graphql.GType → Res (List graphql.GType)
  | [], graphqlTypes => Res.ok graphqlTypes
  | i :: rest, graphqlTypes =>
    match graphqlInputFromOneof g message (Int.ofNat i) with
    | Res.fault e => Res.fault e
    | Res.ok more => graphqlInputsLoop g message rest (graphqlTypes ++ [more])

/-- The method `graphqlFromMessage`. -/
def graphqlFromMessage (g : Generator) (message : MessageDescriptor) :
    Res (List graphql.GType) :=
  let indices := List.range message.OneofDecl.length
  let outputSide : Res (List graphql.GType) :=
    match g.typeNameMap.get? message.FullName with
    | none => Res.ok []
    | some typeName =>
      match graphqlFields g message false with
      | Res.fault e => Res.fault e
      | Res.ok fields =>
        graphqlUnionsLoop g message indices [graphql.GType.Object typeName fields]
  match outputSide with
  | Res.fault e => Res.fault e
  | Res.ok graphqlTypes =>
    match g.inputNameMap.get? message.FullName with
    | none => Res.ok graphqlTypes
    | some inputName =>
      match graphqlFields g message true with
      | Res.fault e => Res.fault e
      | Res.ok fields =>
        graphqlInputsLoop g message indices
          (graphqlTypes ++ [graphql.GType.Input inputName fields])

/-- The method `graphqlFromEnum`. -/
def graphqlFromEnum (g : Generator) (enum : EnumDescriptor) : List graphql.GType :=
  if g.typeNameMap.getStr enum.FullName = "" then []
  else [graphql.GType.Enum (g.typeNameMap.getStr enum.FullName) enum.Value]

/-! ## Plugin parameters (package `parameters`) and the constructor `New` -/

namespace parameters

/-- The struct `Parameters` of package `parameters`; `RootTypePrefix` is a
pointer, `MapWellKnownTypes` a map. -/
structure Parameters where
  WrappersAsNull : Bool
  InputMode : String
  JS64BitType : String
  RootTypePrefix : Option String
  FieldName : String
  TrimPrefixes : List String
  NullableListTypes : Bool
  DisableAllPrefixes : Bool
  MapWellKnownTypes : GoMap String
  DetectRequestMessages : Bool
  deriving DecidableEq, Repr

/-- The outcome `(*Parameters, error)` of `NewParameters`: a value and a nil
error, or nil and an error with its message. -/
inductive Outcome where
  | ok (params : Parameters)
  | error (message : String)
  deriving DecidableEq, Repr

/-- Go `strings.Split(s, sep)` for a one-character separator. -/
def split (sep : Char) (s : String) : List String := (splitChars sep s.data).map String.mk

/-- Go `strings.SplitN(s, sep, 2)` for a one-character separator, on characters:
the part before the first separator and the unsplit remainder, or the whole
string when there is no separator. -/
def splitFirstChars (sep : Char) : List Char → List (List Char)
  | [] => [[]]
  | c :: cs =>
    if c = sep then [[], cs]
    else
      match splitFirstChars sep cs with
      | [] => [[c]]
      | h :: t => (c :: h) :: t

/-- Go `strings.SplitN(s, "=", 2)`. -/
def splitN2 (s : String) : List String := (splitFirstChars '=' s.data).map String.mk

/-- The `key := keyValue[0]` of a part. -/
def partKey (part : String) : String := (splitN2 part).headD ""

/-- The `value` of a part: `keyValue[1]` when `len(keyValue) == 2`, else the
zero string. -/
def partValue (part : String) : String :=
  if (splitN2 part).length = 2 then (splitN2 part).getD 1 "" else ""

/-- The `params` before the loop: `&Parameters{MapWellKnownTypes: make(...)}`. -/
def zeroParameters : Parameters :=
  { WrappersAsNull := false, InputMode := "", JS64BitType := "", RootTypePrefix := none,
    FieldName := "", TrimPrefixes := [], NullableListTypes := false,
    DisableAllPrefixes := false, MapWellKnownTypes := [], DetectRequestMessages := false }

/-- The body of the loop over the parts of `NewParameters`. -/
def applyPart (params : Parameters) (part : String) : Outcome :=
  if part = "" then Outcome.ok params
  else
    let key := partKey part
    let value := partValue part
    if key = "null_wrappers" then Outcome.ok { params with WrappersAsNull := true }
    else if key = "nullable_list_types" then Outcome.ok { params with NullableListTypes := true }
    else if key = "disable_all_prefixes" then
      Outcome.ok { params with DisableAllPrefixes := true }
    else if key = "detect_request_messages" then
      Outcome.ok { params with DetectRequestMessages := true }
    else if key = "input_mode" then Outcome.ok { params with InputMode := value }
    else if key = "js_64bit_type" then Outcome.ok { params with JS64BitType := value }
    else if key = "root_type_prefix" then Outcome.ok { params with RootTypePrefix := some value }
    else if key = "field_name" then
      Outcome.ok { params with
        FieldName := if value ≠ "preserve" then "lower_camel_case" else value }
    else if key = "trim_prefix" then
      Outcome.ok { params with TrimPrefixes := params.TrimPrefixes ++ [value] }
    else if key = "map_wellknown_type" then
      let pair := split '=' value
      if pair.length ≠ 2 then
        Outcome.error "maps of well-known type must be in the format of 'key=value'"
      else
        let name := pair.headD ""
        let name1 := if ¬ ['.'].isPrefixOf name.data then "." ++ name else name
        Outcome.ok { params with
          MapWellKnownTypes := params.MapWellKnownTypes.set name1 (pair.getD 1 "") }
    else Outcome.ok params

/-- The loop `for _, part := range parts` of `NewParameters`. -/
def parseParts : List String → Parameters → Outcome
  | [], params => Outcome.ok params
  | part :: rest, params =>
    match applyPart params part with
    | Outcome.error message => Outcome.error message
    | Outcome.ok params1 => parseParts rest params1

/-- The function `NewParameters` of package `parameters`. -/
def NewParameters (parameter : String) : Outcome :=
  match parseParts (split ',' parameter) zeroParameters with
  | Outcome.error message => Outcome.error message
  | Outcome.ok params =>
    Outcome.ok (if params.InputMode = "" then { params with InputMode := "service" } else params)

end parameters

/-- The function `New` of `generator.go`: the generator over the request, or the
error of the parameter parser. The parser it calls, `NewParameters` of package
`main`, is not among the sources at hand and is an argument here, with its
`(*Parameters, error)` result as a sum. -/
def New (newParameters : String → Except String Parameters) (req : List FileDescriptor)
    (parameter : String) : Except String Generator :=
  match newParameters parameter with
  | Except.error err => Except.error err
  | Except.ok params =>
    Except.ok { req := req, params := params, files := [], messages := [], enums := [],
                emptyMessages := [], typeNameMap := [], inputNameMap := [] }

/-! ## Predicates on the lowering pass -/

/-- The proto type names for which `graphqlSpecialTypes` may substitute the
type name. -/
def wellKnownTypeNames : List String :=
  [".google.protobuf.Timestamp", ".google.protobuf.Duration",
   ".google.protobuf.FloatValue", ".google.protobuf.DoubleValue",
   ".google.protobuf.UInt32Value", ".google.protobuf.StringValue",
   ".google.protobuf.BytesValue", ".google.protobuf.Int64Value",
   ".google.protobuf.UInt64Value", ".google.protobuf.Int32Value",
   ".google.protobuf.BoolValue"]

/-- The variant fields of the oneof group `oneofIndex` of a message, in
declaration order: the fields the loops of `graphqlUnionFromOneof` and
`graphqlInputFromOneof` do not skip. -/
def oneofVariants (message : MessageDescriptor) (oneofIndex : Int) : List FieldDescriptorProto :=
  message.Field.filter (fun fieldProto => fieldProto.OneofIndex = some oneofIndex)

/-- A field `graphqlField` lowers without panic in state `g`: its kind is not
`TYPE_GROUP`, and a message-typed field references an erased message or a
message of the lookup index. -/
def Lowerable (g : Generator) (proto : FieldDescriptorProto) : Prop :=
  proto.FType ≠ FieldType.TYPE_GROUP ∧
  (proto.FType = FieldType.TYPE_MESSAGE →
    g.emptyMessages.getBool proto.TypeName = true ∨ g.messages.get? proto.TypeName ≠ none)

instance (g : Generator) (proto : FieldDescriptorProto) : Decidable (Lowerable g proto) := by
  unfold Lowerable
  exact inferInstance

/-! ## Predicates on generator states -/

/-- Internal consistency of the lookup index: every message/enum type name used
by a field of an indexed message is present in the index, every indexed
message and enum has a non-empty nested-name path (the path produced by the
descriptor wrapper always ends with the type's own name), and no indexed enum
bears the full name of an indexed message. -/
def Consistent (g : Generator) : Prop :=
  (∀ p ∈ g.messages, ∀ f ∈ p.2.Field,
      (f.FType = FieldType.TYPE_MESSAGE → g.messages.get? f.TypeName ≠ none) ∧
      (f.FType = FieldType.TYPE_ENUM → g.enums.get? f.TypeName ≠ none)) ∧
  (∀ p ∈ g.messages, p.2.TypeName ≠ []) ∧
  (∀ p ∈ g.enums, p.2.TypeName ≠ []) ∧
  (∀ p ∈ g.enums, ∀ q ∈ g.messages, p.2.FullName ≠ q.2.FullName)

instance (g : Generator) : Decidable (Consistent g) := by
  unfold Consistent
  exact inferInstance

/-- The key `k` has a name in the table selected by `input`: the guard
`nameMap[k] != ""` of `buildTypesFromMessage` holds. -/
def Named (g : Generator) (input : Bool) (k : String) : Prop :=
  (g.nameMap input).getStr k ≠ ""

instance (g : Generator) (input : Bool) (k : String) : Decidable (Named g input k) := by
  unfold Named
  exact inferInstance

/-- The number of index entries whose message has no name yet in the table
selected by `input`: the measure that bounds the nesting of
`buildTypesFromMessage`. -/
def unnamedCount (g : Generator) (input : Bool) : Nat :=
  (g.messages.filter (fun p => decide ((g.nameMap input).getStr p.2.FullName = ""))).length

/-- The number of writes `m[k] = v` the map has received for the key `k`. -/
def GoMap.writeCount {α : Type} (m : GoMap α) (k : String) : Nat :=
  (m.filter (fun p => decide (p.1 = k))).length

/-- The key `k` has received at most one write in the table selected by
`input`, and if one, it has a name. -/
def WrittenOnce (g : Generator) (input : Bool) (k : String) : Prop :=
  (g.nameMap input).writeCount k = 0 ∨ ((g.nameMap input).writeCount k = 1 ∧ Named g input k)

/-- The state `h` has the index of `g` and every key named in `g` (table
selected by `input`) is named in `h`. -/
def Keeps (input : Bool) (g h : Generator) : Prop :=
  h.messages = g.messages ∧ h.enums = g.enums ∧ ∀ k, Named g input k → Named h input k

/-! ## The descriptor graph of a run -/

/-- Every message declared in the files `fs`, in declaration order. -/
def allMessages (fs : List FileDescriptor) : List MessageDescriptor :=
  (fs.map (fun f => f.Messages)).flatten

/-- Every enum declared in the files `fs`. -/
def allEnums (fs : List FileDescriptor) : List EnumDescriptor :=
  (fs.map (fun f => f.Enums)).flatten

/-- Every service of the files `fs`, with the package of its file. -/
def allServices (fs : List FileDescriptor) : List (String × ServiceDescriptor) :=
  (fs.map (fun f => f.Services.map (fun s => (f.Package, s)))).flatten

/-- Every method of every service of the files `fs`. -/
def allMethods (fs : List FileDescriptor) : List MethodDescriptorProto :=
  ((allServices fs).map (fun s => s.2.Method)).flatten

/-- The files `buildTypeMaps` walks through: `g.files[name]` for every file of
the request, in request order. -/
def Generator.reqFiles (g : Generator) : List FileDescriptor :=
  g.req.filterMap (fun fileDescriptor => g.files.get? fileDescriptor.Name)

/-- The state in which `buildTypeMaps` enters its file loop: fresh maps. -/
def Generator.reset (g : Generator) : Generator :=
  { g with messages := [], enums := [], emptyMessages := [], typeNameMap := [],
           inputNameMap := [] }

/-- The name `buildTypesFromMessage` assigns to a message. -/
def messageTypeName (message : MessageDescriptor) (input : Bool) : String :=
  buildGraphqlTypeName
    { Package := message.Package, TypeName := message.TypeName, IsProtoMap := message.IsMap,
      Input := input }

/-- The name `buildTypesFromEnum` assigns to an enum. -/
def enumTypeName (enum : EnumDescriptor) : String :=
  buildGraphqlTypeName
    { Package := enum.Package, TypeName := enum.TypeName, IsProtoMap := false, Input := false }

/-- The name `buildTypeMaps` assigns to a service of a file with package `pkg`. -/
def serviceTypeName (pkg : String) (service : ServiceDescriptor) : String :=
  buildGraphqlTypeName
    { Package := pkg, TypeName := service.TypeName, IsProtoMap := false, Input := false }

/-- Fully-qualified names are pairwise distinct: two declared messages (or two
enums) with the same full name are the same descriptor, and no message, enum
and service share a full name. -/
def NamesDistinct (fs : List FileDescriptor) : Prop :=
  (∀ m1 ∈ allMessages fs, ∀ m2 ∈ allMessages fs, m1.FullName = m2.FullName → m1 = m2) ∧
  (∀ e1 ∈ allEnums fs, ∀ e2 ∈ allEnums fs, e1.FullName = e2.FullName → e1 = e2) ∧
  (∀ m ∈ allMessages fs, ∀ e ∈ allEnums fs, m.FullName ≠ e.FullName) ∧
  (∀ m ∈ allMessages fs, ∀ s ∈ allServices fs, m.FullName ≠ s.2.FullName) ∧
  (∀ e ∈ allEnums fs, ∀ s ∈ allServices fs, e.FullName ≠ s.2.FullName)

instance (fs : List FileDescriptor) : Decidable (NamesDistinct fs) := by
  unfold NamesDistinct
  exact inferInstance

/-- Every declared message and enum has a non-empty nested-name path. -/
def PathsNonempty (fs : List FileDescriptor) : Prop :=
  (∀ m ∈ allMessages fs, m.TypeName ≠ []) ∧ (∀ e ∈ allEnums fs, e.TypeName ≠ [])

instance (fs : List FileDescriptor) : Decidable (PathsNonempty fs) := by
  unfold PathsNonempty
  exact inferInstance

/-- The references of the file `f` resolve among the declarations of the files
`known`: the type name of every message-typed (enum-typed) field names a
message (enum) of `known`, and so do the request and response of every method. -/
def FileRefs (known : List FileDescriptor) (f : FileDescriptor) : Prop :=
  (∀ m ∈ f.Messages, ∀ p ∈ m.Field,
    (p.FType = FieldType.TYPE_MESSAGE →
      p.TypeName ∈ (allMessages known).map (fun m => m.FullName)) ∧
    (p.FType = FieldType.TYPE_ENUM →
      p.TypeName ∈ (allEnums known).map (fun e => e.FullName))) ∧
  (∀ s ∈ f.Services, ∀ method ∈ s.Method,
    method.InputType ∈ (allMessages known).map (fun m => m.FullName) ∧
    method.OutputType ∈ (allMessages known).map (fun m => m.FullName))

instance (known : List FileDescriptor) (f : FileDescriptor) : Decidable (FileRefs known f) := by
  unfold FileRefs
  exact inferInstance

/-- The files come in dependency order: the references of each file resolve
among the files `pre` before it and the file itself. -/
def RefsResolve : List FileDescriptor → List FileDescriptor → Prop
  | _, [] => True
  | pre, f :: rest => FileRefs (pre ++ [f]) f ∧ RefsResolve (pre ++ [f]) rest

instance decRefsResolve : (pre fs : List FileDescriptor) → Decidable (RefsResolve pre fs)
  | _, [] => isTrue trivial
  | pre, f :: rest =>
    match (inferInstance : Decidable (FileRefs (pre ++ [f]) f)),
        decRefsResolve (pre ++ [f]) rest with
    | isTrue h1, isTrue h2 => isTrue ⟨h1, h2⟩
    | isFalse h1, _ => isFalse (fun h => h1 h.1)
    | _, isFalse h2 => isFalse (fun h => h2 h.2)

/-- An internally consistent descriptor graph: distinct full names, non-empty
name paths, references that resolve in dependency order. -/
def GraphOK (fs : List FileDescriptor) : Prop :=
  NamesDistinct fs ∧ PathsNonempty fs ∧ RefsResolve [] fs

instance (fs : List FileDescriptor) : Decidable (GraphOK fs) := by
  unfold GraphOK
  exact inferInstance

/-! ## Predicates on the tables -/

/-- The key `k` is present in the table selected by `input`. -/
def Present (g : Generator) (input : Bool) (k : String) : Prop :=
  (g.nameMap input).get? k ≠ none

instance (g : Generator) (input : Bool) (k : String) : Decidable (Present g input k) := by
  unfold Present
  exact inferInstance

/-- The state `h` extends `g`: same index, every key present in a name table
stays present, every erased message stays erased. -/
def Extends (g h : Generator) : Prop :=
  h.messages = g.messages ∧ h.enums = g.enums ∧
  (∀ input k, Present g input k → Present h input k) ∧
  (∀ k, g.emptyMessages.getBool k = true → h.emptyMessages.getBool k = true)

/-- The field `p` is settled for the table selected by `input`: a message-typed
field references an indexed message that is a key of that table, or has zero
fields and is erased; an enum-typed field references an indexed enum that is a
key of `typeNameMap`. -/
def FieldSettled (g : Generator) (input : Bool) (p : FieldDescriptorProto) : Prop :=
  (p.FType = FieldType.TYPE_MESSAGE →
    ∃ B, g.messages.get? p.TypeName = some B ∧
      (Present g input p.TypeName ∨
        (B.Field = [] ∧ g.emptyMessages.getBool p.TypeName = true))) ∧
  (p.FType = FieldType.TYPE_ENUM →
    g.enums.get? p.TypeName ≠ none ∧ Present g false p.TypeName)

/-- Reference closure of the table selected by `input`, except for the keys
`pending` whose visit is still running: every field of an indexed message that is
a key of the table is settled. -/
def Closed (g : Generator) (input : Bool) (pending : List String) : Prop :=
  ∀ k m, g.messages.get? k = some m → Present g input k → k ∉ pending →
    ∀ p ∈ m.Field, FieldSettled g input p

/-- The index maps every key to a declared descriptor bearing that full name,
and no key is both a message and an enum. -/
def IndexSound (fs : List FileDescriptor) (g : Generator) : Prop :=
  (∀ k m, g.messages.get? k = some m → m ∈ allMessages fs ∧ m.FullName = k) ∧
  (∀ k e, g.enums.get? k = some e → e ∈ allEnums fs ∧ e.FullName = k) ∧
  (∀ k e, g.enums.get? k = some e → g.messages.get? k = none)

/-- Where a top-level visit of the resolution pass may start. -/
structure Roots where
  message : Bool → MessageDescriptor → Prop
  enum : EnumDescriptor → Prop

/-- The roots of `buildTypeMaps`: requests for the input table; for the output
table responses when `ServiceTypesOnly` is set and every declared message and
enum otherwise. -/
def serviceRoots (params : Parameters) (fs : List FileDescriptor) : Roots :=
  { message := fun input m =>
      if input then ∃ method ∈ allMethods fs, method.InputType = m.FullName
      else params.ServiceTypesOnly = false ∨
        ∃ method ∈ allMethods fs, method.OutputType = m.FullName,
    enum := fun _ => params.ServiceTypesOnly = false }

/-- One write of the resolution pass over the graph `fs`: a registration in the
index, the erasure of a zero-field message, the naming of a message that has
fields, is indexed and has no name yet (it is a root, or the type of a field of
a message already in the same table), the naming of an enum (a root, or the
type of a field of a message in a table), the naming of a service. -/
inductive Step (fs : List FileDescriptor) (roots : Roots) : Generator → Generator → Prop
  | registerMessage (g : Generator) (m : MessageDescriptor) (hm : m ∈ allMessages fs) :
      Step fs roots g { g with messages := g.messages.set m.FullName m }
  | registerEnum (g : Generator) (e : EnumDescriptor) (he : e ∈ allEnums fs) :
      Step fs roots g { g with enums := g.enums.set e.FullName e }
  | erase (g : Generator) (m : MessageDescriptor) (hm : m ∈ allMessages fs)
      (hzero : m.Field = []) :
      Step fs roots g { g with emptyMessages := g.emptyMessages.set m.FullName true }
  | nameMessage (g : Generator) (m : MessageDescriptor) (input : Bool)
      (hm : m ∈ allMessages fs) (hfields : m.Field ≠ [])
      (hindexed : g.messages.get? m.FullName ≠ none)
      (hfresh : (g.nameMap input).getStr m.FullName = "")
      (horigin : roots.message input m ∨
        ∃ m0 ∈ allMessages fs, Present g input m0.FullName ∧
          ∃ p ∈ m0.Field, p.FType = FieldType.TYPE_MESSAGE ∧ p.TypeName = m.FullName) :
      Step fs roots g (g.setName input m.FullName (messageTypeName m input))
  | nameEnum (g : Generator) (e : EnumDescriptor) (he : e ∈ allEnums fs)
      (horigin : roots.enum e ∨
        ∃ input, ∃ m0 ∈ allMessages fs, Present g input m0.FullName ∧
          ∃ p ∈ m0.Field, p.FType = FieldType.TYPE_ENUM ∧ p.TypeName = e.FullName) :
      Step fs roots g (buildTypesFromEnum g e)
  | nameService (g : Generator) (f : FileDescriptor) (s : ServiceDescriptor) (hf : f ∈ fs)
      (hs : s ∈ f.Services) :
      Step fs roots g
        { g with typeNameMap := g.typeNameMap.set s.FullName (serviceTypeName f.Package s) }

/-- The states the resolution pass goes through: finitely many writes. -/
def Reach (fs : List FileDescriptor) (roots : Roots) (g h : Generator) : Prop :=
  Relation.ReflTransGen (Step fs roots) g h

/-- Every entry of the three tables was written for a declared descriptor: a
key of `typeNameMap` is the full name of a message with fields, of an enum or
of a service and its value the name built for it; a key of `inputNameMap` is
the full name of a message with fields and its value the input name built for
it; a key of `emptyMessages` is the full name of a zero-field message. -/
def TablesSound (fs : List FileDescriptor) (g : Generator) : Prop :=
  (∀ k n, g.typeNameMap.get? k = some n →
    (∃ m ∈ allMessages fs, m.FullName = k ∧ m.Field ≠ [] ∧ n = messageTypeName m false ∧
      g.messages.get? k ≠ none) ∨
    (∃ e ∈ allEnums fs, e.FullName = k ∧ n = enumTypeName e) ∨
    (∃ s ∈ allServices fs, s.2.FullName = k ∧ n = serviceTypeName s.1 s.2)) ∧
  (∀ k n, g.inputNameMap.get? k = some n →
    ∃ m ∈ allMessages fs, m.FullName = k ∧ m.Field ≠ [] ∧ n = messageTypeName m true ∧
      g.messages.get? k ≠ none) ∧
  (∀ k b, g.emptyMessages.get? k = some b →
    b = true ∧ ∃ m ∈ allMessages fs, m.FullName = k ∧ m.Field = [])

/-- The message index after the registration loops over the files `known`. -/
def messageIndex (known : List FileDescriptor) : GoMap MessageDescriptor :=
  (allMessages known).reverse.map (fun m => (m.FullName, m))

/-- The enum index after the registration loops over the files `known`. -/
def enumIndex (known : List FileDescriptor) : GoMap EnumDescriptor :=
  (allEnums known).reverse.map (fun e => (e.FullName, e))

/-- The state `h` grows out of `g`: index entries, keys of the name tables and
erased messages are kept. -/
def Grows (g h : Generator) : Prop :=
  (∀ k m, g.messages.get? k = some m → h.messages.get? k = some m) ∧
  (∀ k e, g.enums.get? k = some e → h.enums.get? k = some e) ∧
  (∀ input k, Present g input k → Present h input k) ∧
  (∀ k, g.emptyMessages.getBool k = true → h.emptyMessages.getBool k = true)

/-- The message named `t` is settled for the table selected by `input`: it is a
declared message that is a key of the table, or has zero fields and is erased. -/
def NameSettled (fs : List FileDescriptor) (g : Generator) (input : Bool) (t : String) : Prop :=
  ∃ B ∈ allMessages fs, B.FullName = t ∧
    (Present g input t ∨ (B.Field = [] ∧ g.emptyMessages.getBool t = true))

/-- What the pass has achieved once the files `done` are processed: every
request is settled for the input table; for the output table every response is
settled when `ServiceTypesOnly` is set, and otherwise every declared message is
settled and every declared enum is a key. -/
def Achieved (fs done : List FileDescriptor) (g : Generator) : Prop :=
  (∀ method ∈ allMethods done, NameSettled fs g true method.InputType) ∧
  (g.params.ServiceTypesOnly = true →
    ∀ method ∈ allMethods done, NameSettled fs g false method.OutputType) ∧
  (g.params.ServiceTypesOnly = false →
    (∀ m ∈ allMessages done, NameSettled fs g false m.FullName) ∧
    (∀ e ∈ allEnums done, Present g false e.FullName))

/-- The references of the messages of `known` resolve inside `known`. -/
def KnownClosed (known : List FileDescriptor) : Prop :=
  ∀ m ∈ allMessages known, ∀ p ∈ m.Field,
    (p.FType = FieldType.TYPE_MESSAGE →
      p.TypeName ∈ (allMessages known).map (fun m => m.FullName)) ∧
    (p.FType = FieldType.TYPE_ENUM →
      p.TypeName ∈ (allEnums known).map (fun e => e.FullName))

/-- The invariant of `buildTypeMaps` inside the processing of a file, once the
files `known` are registered. -/
def InFile (fs known : List FileDescriptor) (params : Parameters) (h : Generator) : Prop :=
  h.messages = messageIndex known ∧ h.enums = enumIndex known ∧ h.params = params ∧
  TablesSound fs h ∧ Closed h false [] ∧ Closed h true []

/-- The relation between two states of the processing of one file. -/
def FileStep (fs : List FileDescriptor) (roots : Roots) (a b : Generator) : Prop :=
  Extends a b ∧ Reach fs roots a b

/-- The invariant of the file loop of `buildTypeMaps` started in `g0`, once the
files `done` are processed. -/
def FileInv (fs done : List FileDescriptor) (g0 g : Generator) : Prop :=
  g.files = g0.files ∧ g.params = g0.params ∧
  g.messages = messageIndex done ∧ g.enums = enumIndex done ∧
  TablesSound fs g ∧ Closed g false [] ∧ Closed g true [] ∧ Achieved fs done g ∧
  Reach fs (serviceRoots g0.params fs) g0.reset g

/-- The standing assumptions while the files `known`, a part of the graph `fs`,
are registered: distinct names and non-empty paths in `fs`, references of
`known` resolving inside `known`, and fuel above the number of known messages. -/
def KnownOK (fs known : List FileDescriptor) (fuel : Nat) : Prop :=
  NamesDistinct fs ∧ PathsNonempty fs ∧
  (∀ m ∈ allMessages known, m ∈ allMessages fs) ∧
  (∀ e ∈ allEnums known, e ∈ allEnums fs) ∧
  KnownClosed known ∧ (allMessages known).length < fuel

/-- The generator `g` is ready for `buildTypeMaps` with `fuel`: every file of
the request is in `g.files`, the files walked through form an internally
consistent graph, and the fuel exceeds the number of declared messages. -/
def RunOK (g : Generator) (fuel : Nat) : Prop :=
  (∀ fileDescriptor ∈ g.req, g.files.get? fileDescriptor.Name ≠ none) ∧
  GraphOK g.reqFiles ∧ (allMessages g.reqFiles).length < fuel

instance (g : Generator) (fuel : Nat) : Decidable (RunOK g fuel) := by
  unfold RunOK
  exact inferInstance

/-! ## Name parts of the declared types -/

/-- The parts `buildTypesFromMessage` passes to `buildGraphqlTypeName`. -/
def messageParts (message : MessageDescriptor) (input : Bool) : graphqlTypeNameParts :=
  { Package := message.Package, TypeName := message.TypeName, IsProtoMap := message.IsMap,
    Input := input }

/-- The parts `buildTypesFromEnum` passes to `buildGraphqlTypeName`. -/
def enumParts (enum : EnumDescriptor) : graphqlTypeNameParts :=
  { Package := enum.Package, TypeName := enum.TypeName, IsProtoMap := false, Input := false }

/-- The declared types that can be keys of the table selected by `input`, each
with its full name and its name parts: the messages for the input table, the
messages and the enums for the output table. -/
def declaredParts (fs : List FileDescriptor) (input : Bool) :
    List (String × graphqlTypeNameParts) :=
  if input then (allMessages fs).map (fun m => (m.FullName, messageParts m true))
  else (allMessages fs).map (fun m => (m.FullName, messageParts m false)) ++
    (allEnums fs).map (fun e => (e.FullName, enumParts e))

/-- The first string `buildGraphqlTypeName` writes: the camel-cased package. -/
def packagePrefix (pkg : String) : String := CamelCaseSlice (splitDot pkg)

/-- The path segments `buildGraphqlTypeName` camel-cases: the nested-name path,
with the suffix `Entry` stripped from the last segment of a map-entry type. -/
def effectivePath (isProtoMap : Bool) : List String → List String
  | [] => []
  | [name] => [if isProtoMap then trimSuffix name "Entry" else name]
  | name :: next :: rest => name :: effectivePath isProtoMap (next :: rest)

/-- Name parts for which the built name can be read back: the camel-cased
package contains no underscore, and every effective path segment contains no
underscore and is left unchanged by `CamelCase`. -/
def PlainParts (parts : graphqlTypeNameParts) : Prop :=
  '_' ∉ (packagePrefix parts.Package).data ∧
  ∀ s ∈ effectivePath parts.IsProtoMap parts.TypeName, '_' ∉ s.data ∧ CamelCase s = s

instance (parts : graphqlTypeNameParts) : Decidable (PlainParts parts) := by
  unfold PlainParts
  exact inferInstance

/-! ## Sample descriptors used to exercise the definitions -/

/-- The default configuration: every option off. -/
def defaultParameters : Parameters :=
  { ServiceTypesOnly := false, TimestampTypeName := "", DurationTypeName := "",
    WrappersAsNull := false }

/-- A generator holding the files `req` before `wrapFiles` has run. -/
def newGenerator (req : List FileDescriptor) (params : Parameters) : Generator :=
  { req := req, params := params, files := [], messages := [], enums := [],
    emptyMessages := [], typeNameMap := [], inputNameMap := [] }

/-- An ordinary (non-repeated, non-oneof) field of scalar kind. -/
def scalarField (name : String) (kind : FieldType) : FieldDescriptorProto :=
  { Name := name, FType := kind, Label := FieldLabel.LABEL_OPTIONAL, TypeName := "",
    OneofIndex := none }

/-- An ordinary (non-repeated, non-oneof) field of message kind. -/
def messageField (name typeName : String) : FieldDescriptorProto :=
  { Name := name, FType := FieldType.TYPE_MESSAGE, Label := FieldLabel.LABEL_OPTIONAL,
    TypeName := typeName, OneofIndex := none }

/-- The generator after `wrapFiles` and `buildTypeMaps`, or the untouched
generator when the pass panics. -/
def resolved (fuel : Nat) (g : Generator) : Generator :=
  match buildTypeMaps fuel (wrapFiles g) with
  | Res.ok g1 => g1
  | Res.fault _ => g

def helloRequest : MessageDescriptor :=
  { FullName := ".helloworld.HelloRequest", Package := "helloworld",
    TypeName := ["HelloRequest"], IsMap := false,
    Field := [scalarField "name" FieldType.TYPE_STRING], OneofDecl := [] }

def helloReply : MessageDescriptor :=
  { FullName := ".helloworld.HelloReply", Package := "helloworld",
    TypeName := ["HelloReply"], IsMap := false,
    Field := [scalarField "message" FieldType.TYPE_STRING], OneofDecl := [] }

/-- A message without fields. -/
def emptyMessage : MessageDescriptor :=
  { FullName := ".helloworld.Empty", Package := "helloworld", TypeName := ["Empty"],
    IsMap := false, Field := [], OneofDecl := [] }

def sayHello : MethodDescriptorProto :=
  { Name := "SayHello", InputType := ".helloworld.HelloRequest",
    OutputType := ".helloworld.HelloReply", Operation := none }

def ping : MethodDescriptorProto :=
  { Name := "Ping", InputType := ".helloworld.Empty", OutputType := ".helloworld.Empty",
    Operation := some "mutation" }

def hidden : MethodDescriptorProto :=
  { Name := "Hidden", InputType := ".helloworld.HelloRequest",
    OutputType := ".helloworld.Empty", Operation := some "none" }

def greeter : ServiceDescriptor :=
  { FullName := ".helloworld.Greeter", TypeName := ["Greeter"], Method := [sayHello, ping] }

def greeterWithHidden : ServiceDescriptor :=
  { FullName := ".helloworld.Internal", TypeName := ["Internal"],
    Method := [sayHello, hidden, ping] }

def helloworldFile : FileDescriptor :=
  { Name := "helloworld.proto", Package := "helloworld",
    Messages := [helloRequest, helloReply, emptyMessage], Enums := [],
    Services := [greeter, greeterWithHidden] }

/-- The state of the generator after the resolution pass over `helloworldFile`. -/
def helloworldGenerator : Generator :=
  resolved 4 (newGenerator [helloworldFile] defaultParameters)

/-- A field of a oneof group. -/
def oneofField (name : String) (kind : FieldType) (typeName : String) (index : Int) :
    FieldDescriptorProto :=
  { Name := name, FType := kind, Label := FieldLabel.LABEL_OPTIONAL, TypeName := typeName,
    OneofIndex := some index }

def circle : MessageDescriptor :=
  { FullName := ".pkg.Circle", Package := "pkg", TypeName := ["Circle"], IsMap := false,
    Field := [scalarField "radius" FieldType.TYPE_DOUBLE], OneofDecl := [] }

def square : MessageDescriptor :=
  { FullName := ".pkg.Square", Package := "pkg", TypeName := ["Square"], IsMap := false,
    Field := [scalarField "side" FieldType.TYPE_DOUBLE], OneofDecl := [] }

/-- The message `Shape{ oneof kind { Circle circle; Square square; } }`. -/
def shape : MessageDescriptor :=
  { FullName := ".pkg.Shape", Package := "pkg", TypeName := ["Shape"], IsMap := false,
    Field := [oneofField "circle" FieldType.TYPE_MESSAGE ".pkg.Circle" 0,
              oneofField "square" FieldType.TYPE_MESSAGE ".pkg.Square" 0],
    OneofDecl := ["kind"] }

def shapesFile : FileDescriptor :=
  { Name := "shapes.proto", Package := "pkg", Messages := [circle, square, shape], Enums := [],
    Services := [] }

/-- The state of the generator after the resolution pass over `shapesFile`. -/
def shapesGenerator : Generator := resolved 4 (newGenerator [shapesFile] defaultParameters)

/-- The message `Measure{ oneof value { float ratio; string label; } }`. -/
def measure : MessageDescriptor :=
  { FullName := ".pkg.Measure", Package := "pkg", TypeName := ["Measure"], IsMap := false,
    Field := [oneofField "ratio" FieldType.TYPE_FLOAT "" 0,
              oneofField "label" FieldType.TYPE_STRING "" 0],
    OneofDecl := ["value"] }

def recordMeasure : MethodDescriptorProto :=
  { Name := "Record", InputType := ".pkg.Measure", OutputType := ".pkg.Measure",
    Operation := some "mutation" }

def recorder : ServiceDescriptor :=
  { FullName := ".pkg.Recorder", TypeName := ["Recorder"], Method := [recordMeasure] }

def measureFile : FileDescriptor :=
  { Name := "measure.proto", Package := "pkg", Messages := [measure], Enums := [],
    Services := [recorder] }

/-- The state of the generator after the resolution pass over `measureFile`. -/
def measureGenerator : Generator := resolved 4 (newGenerator [measureFile] defaultParameters)

/-- The message `Node{ Edge edge; }` of a reference cycle `Node → Edge → Node`. -/
def cycleNode : MessageDescriptor :=
  { FullName := ".pkg.Node", Package := "pkg", TypeName := ["Node"], IsMap := false,
    Field := [messageField "edge" ".pkg.Edge"], OneofDecl := [] }

/-- The message `Edge{ Node target; }`. -/
def cycleEdge : MessageDescriptor :=
  { FullName := ".pkg.Edge", Package := "pkg", TypeName := ["Edge"], IsMap := false,
    Field := [messageField "target" ".pkg.Node"], OneofDecl := [] }

def cycleFile : FileDescriptor :=
  { Name := "cycle.proto", Package := "pkg", Messages := [cycleNode, cycleEdge], Enums := [],
    Services := [] }

/-- The generator with the messages of `cycleFile` registered and empty tables. -/
def cycleGenerator : Generator :=
  registerFile (newGenerator [cycleFile] defaultParameters) cycleFile

def genre : EnumDescriptor :=
  { FullName := ".lib.Genre", Package := "lib", TypeName := ["Genre"],
    Value := ["FICTION", "ESSAY"] }

/-- The zero-field message `lib.Empty`. -/
def libEmpty : MessageDescriptor :=
  { FullName := ".lib.Empty", Package := "lib", TypeName := ["Empty"], IsMap := false,
    Field := [], OneofDecl := [] }

/-- The message `Author{ string name; repeated Book books; }`. -/
def author : MessageDescriptor :=
  { FullName := ".lib.Author", Package := "lib", TypeName := ["Author"], IsMap := false,
    Field := [scalarField "name" FieldType.TYPE_STRING,
              { Name := "books", FType := FieldType.TYPE_MESSAGE,
                Label := FieldLabel.LABEL_REPEATED, TypeName := ".lib.Book",
                OneofIndex := none }],
    OneofDecl := [] }

/-- The message `Book{ string title; Author author; Genre genre; Empty marker;
repeated Empty notes; }`. -/
def book : MessageDescriptor :=
  { FullName := ".lib.Book", Package := "lib", TypeName := ["Book"], IsMap := false,
    Field := [scalarField "title" FieldType.TYPE_STRING,
              messageField "author" ".lib.Author",
              { Name := "genre", FType := FieldType.TYPE_ENUM,
                Label := FieldLabel.LABEL_OPTIONAL, TypeName := ".lib.Genre",
                OneofIndex := none },
              messageField "marker" ".lib.Empty",
              { Name := "notes", FType := FieldType.TYPE_MESSAGE,
                Label := FieldLabel.LABEL_REPEATED, TypeName := ".lib.Empty",
                OneofIndex := none }],
    OneofDecl := [] }

def addBook : MethodDescriptorProto :=
  { Name := "AddBook", InputType := ".lib.Book", OutputType := ".lib.Empty",
    Operation := some "mutation" }

def findBook : MethodDescriptorProto :=
  { Name := "Find", InputType := ".lib.Author", OutputType := ".lib.Book", Operation := none }

def library : ServiceDescriptor :=
  { FullName := ".lib.Library", TypeName := ["Library"], Method := [addBook, findBook] }

def libraryFile : FileDescriptor :=
  { Name := "library.proto", Package := "lib", Messages := [libEmpty, author, book],
    Enums := [genre], Services := [library] }

/-- The generator holding `libraryFile`, after `wrapFiles`. -/
def libraryRequest : Generator := wrapFiles (newGenerator [libraryFile] defaultParameters)

/-- The state of the generator after the resolution pass over `libraryFile`. -/
def libraryGenerator : Generator := resolved 4 (newGenerator [libraryFile] defaultParameters)

/-- The message `Foo.Bar{ int32 x; }`, nested in `Foo`. -/
def fooBar : MessageDescriptor :=
  { FullName := ".pkg.Foo.Bar", Package := "pkg", TypeName := ["Foo", "Bar"], IsMap := false,
    Field := [scalarField "x" FieldType.TYPE_INT32], OneofDecl := [] }

/-- The synthetic map-entry type `Foo.BarEntry` of the field
`map<string, Bar> bar` of `Foo`. -/
def fooBarEntry : MessageDescriptor :=
  { FullName := ".pkg.Foo.BarEntry", Package := "pkg", TypeName := ["Foo", "BarEntry"],
    IsMap := true,
    Field := [scalarField "key" FieldType.TYPE_STRING, messageField "value" ".pkg.Foo.Bar"],
    OneofDecl := [] }

/-- The message `Foo{ message Bar{ int32 x; } map<string, Bar> bar; }`. -/
def foo : MessageDescriptor :=
  { FullName := ".pkg.Foo", Package := "pkg", TypeName := ["Foo"], IsMap := false,
    Field := [{ Name := "bar", FType := FieldType.TYPE_MESSAGE,
                Label := FieldLabel.LABEL_REPEATED, TypeName := ".pkg.Foo.BarEntry",
                OneofIndex := none }],
    OneofDecl := [] }

def storeFoo : MethodDescriptorProto :=
  { Name := "Store", InputType := ".pkg.Foo", OutputType := ".pkg.Foo", Operation := none }

def fooStore : ServiceDescriptor :=
  { FullName := ".pkg.FooStore", TypeName := ["FooStore"], Method := [storeFoo] }

def fooFile : FileDescriptor :=
  { Name := "foo.proto", Package := "pkg", Messages := [foo, fooBar, fooBarEntry], Enums := [],
    Services := [fooStore] }

/-- The generator holding `fooFile`, after `wrapFiles`. -/
def fooRequest : Generator := wrapFiles (newGenerator [fooFile] defaultParameters)

/-- The state of the generator after the resolution pass over `fooFile`. -/
def fooGenerator : Generator := resolved 4 (newGenerator [fooFile] defaultParameters)

/-! ## The field list of a message, in the words of the specification -/

/-- The entry of the field list for the oneof group named `oneof`: a field named
after the group, without modifier, typed by the name built from the message
path plus the group name. -/
def oneofEntry (message : MessageDescriptor) (input : Bool) (oneof : String) : graphql.Field :=
  { Name := oneof,
    TypeName := buildGraphqlTypeName
      { Package := message.Package, TypeName := message.TypeName ++ [oneof],
        IsProtoMap := false, Input := input },
    Arguments := [], Modifiers := 0 }

/-- The fields that produce an entry of the field list, in declaration order:
every field that is not in a oneof, and of the fields of a oneof group the first
one, the one with no field of the same group index among the fields `earlier`
before it. -/
def entryFields : List FieldDescriptorProto → List FieldDescriptorProto →
    List FieldDescriptorProto
  | _, [] => []
  | earlier, f :: rest =>
    if f.OneofIndex = none ∨ ∀ e ∈ earlier, e.OneofIndex ≠ f.OneofIndex then
      f :: entryFields (earlier ++ [f]) rest
    else entryFields (earlier ++ [f]) rest

/-- The message `Drawing{ string title; oneof kind { Circle circle; Square square; }
double scale; }`, its second oneof variant declared after the field `scale`. -/
def drawing : MessageDescriptor :=
  { FullName := ".pkg.Drawing", Package := "pkg", TypeName := ["Drawing"], IsMap := false,
    Field := [scalarField "title" FieldType.TYPE_STRING,
              oneofField "circle" FieldType.TYPE_MESSAGE ".pkg.Circle" 0,
              scalarField "scale" FieldType.TYPE_DOUBLE,
              oneofField "square" FieldType.TYPE_MESSAGE ".pkg.Square" 0],
    OneofDecl := ["kind"] }

/-- The message `Point{ double x; double y; }` of package `pkg`. -/
def point : MessageDescriptor :=
  { FullName := ".pkg.Point", Package := "pkg", TypeName := ["Point"], IsMap := false,
    Field := [scalarField "x" FieldType.TYPE_DOUBLE, scalarField "y" FieldType.TYPE_DOUBLE],
    OneofDecl := [] }

def pointFile : FileDescriptor :=
  { Name := "point.proto", Package := "pkg", Messages := [point], Enums := [], Services := [] }

/-- The generator holding `libraryFile` once its messages and enums are in the
lookup index, before any name is assigned. -/
def libraryRegistered : Generator :=
  registerFile (newGenerator [libraryFile] defaultParameters) libraryFile

/-- A message with one string field `text`, declared in package `desk`. -/
def deskMessage (name : String) : MessageDescriptor :=
  { FullName := ".desk." ++ name, Package := "desk", TypeName := [name], IsMap := false,
    Field := [scalarField "text" FieldType.TYPE_STRING], OneofDecl := [] }

/-- The service `Desk{ Query(Ask) returns (Answer); Repeat(Echo) returns (Echo); }`. -/
def desk : ServiceDescriptor :=
  { FullName := ".desk.Desk", TypeName := ["Desk"],
    Method := [{ Name := "Query", InputType := ".desk.Ask", OutputType := ".desk.Answer",
                 Operation := none },
               { Name := "Repeat", InputType := ".desk.Echo", OutputType := ".desk.Echo",
                 Operation := none }] }

/-- A file whose messages are a request only (`Ask`), a response only
(`Answer`), both (`Echo`), or used by no method (`Spare`). -/
def deskFile : FileDescriptor :=
  { Name := "desk.proto", Package := "desk",
    Messages := [deskMessage "Ask", deskMessage "Answer", deskMessage "Echo",
                 deskMessage "Spare"],
    Enums := [], Services := [desk] }

/-- The generator holding `deskFile` with `ServiceTypesOnly` set, after `wrapFiles`. -/
def deskRequest : Generator :=
  wrapFiles (newGenerator [deskFile] { defaultParameters with ServiceTypesOnly := true })

/-- The state of the generator after the resolution pass over `deskFile` with
`ServiceTypesOnly` set. -/
def deskGenerator : Generator :=
  resolved 5 (newGenerator [deskFile] { defaultParameters with ServiceTypesOnly := true })

/-- Services have pairwise distinct full names: two services of the graph with
the same full name are the same service of the same package. -/
def ServicesDistinct (fs : List FileDescriptor) : Prop :=
  ∀ s1 ∈ allServices fs, ∀ s2 ∈ allServices fs, s1.2.FullName = s2.2.FullName → s1 = s2

instance (fs : List FileDescriptor) : Decidable (ServicesDistinct fs) := by
  unfold ServicesDistinct
  exact inferInstance

/-- Every entry of a name table of `g` is an entry of the same table of `h`,
with the same value. -/
def EntriesKept (g h : Generator) : Prop :=
  ∀ input k v, (g.nameMap input).get? k = some v → (h.nameMap input).get? k = some v

/-- Roots letting a visit start at any message and any enum. -/
def anyRoots : Roots :=
  { message := fun _ _ => True, enum := fun _ => True }

/-- The state `b` carries the state `a` on: same files, and every key present in
a name table of `a` is present in that table of `b`. -/
def Carries (a b : Generator) : Prop :=
  b.files = a.files ∧ ∀ input k, Present a input k → Present b input k

/-- The message `HelloRequest{ string name; }` of a file without package. -/
def plainRequest : MessageDescriptor :=
  { FullName := ".HelloRequest", Package := "", TypeName := ["HelloRequest"], IsMap := false,
    Field := [scalarField "name" FieldType.TYPE_STRING], OneofDecl := [] }

/-- The message `HelloReply{ string message; }` of a file without package. -/
def plainReply : MessageDescriptor :=
  { FullName := ".HelloReply", Package := "", TypeName := ["HelloReply"], IsMap := false,
    Field := [scalarField "message" FieldType.TYPE_STRING], OneofDecl := [] }

/-- The service `Greeter{ SayHello(HelloRequest) returns (HelloReply); }` of a
file without package; the method carries no operation option. -/
def plainGreeter : ServiceDescriptor :=
  { FullName := ".Greeter", TypeName := ["Greeter"],
    Method := [{ Name := "SayHello", InputType := ".HelloRequest",
                 OutputType := ".HelloReply", Operation := none }] }

def plainGreeterFile : FileDescriptor :=
  { Name := "greeter.proto", Package := "", Messages := [plainRequest, plainReply],
    Enums := [], Services := [plainGreeter] }

/-- The service `Greeter{ SayHello(HelloRequest) returns (HelloReply); }` of
package `helloworld`, alone in its file. -/
def soloGreeter : ServiceDescriptor :=
  { FullName := ".helloworld.Greeter", TypeName := ["Greeter"], Method := [sayHello] }

def soloGreeterFile : FileDescriptor :=
  { Name := "greeter.proto", Package := "helloworld", Messages := [helloRequest, helloReply],
    Enums := [], Services := [soloGreeter] }

/-- The generator holding `soloGreeterFile`, after `wrapFiles`. -/
def soloGreeterRequest : Generator :=
  wrapFiles (newGenerator [soloGreeterFile] defaultParameters)

/-- The generator holding `plainGreeterFile`, after `wrapFiles`. -/
def plainGreeterRequest : Generator :=
  wrapFiles (newGenerator [plainGreeterFile] defaultParameters)

/-- The state of the generator after the resolution pass over `plainGreeterFile`. -/
def plainGreeterGenerator : Generator :=
  resolved 3 (newGenerator [plainGreeterFile] defaultParameters)

/-- The message named by the third argument is reachable from the message named
by the second one through message-typed fields of the messages declared in `fs`. -/
inductive FieldReach (fs : List FileDescriptor) : String → String → Prop
  | start (k : String) : FieldReach fs k k
  | field (a b c : String) (hab : FieldReach fs a b) (m : MessageDescriptor)
      (hm : m ∈ allMessages fs) (hmb : m.FullName = b) (p : FieldDescriptorProto)
      (hp : p ∈ m.Field) (hty : p.FType = FieldType.TYPE_MESSAGE) (hpc : p.TypeName = c) :
      FieldReach fs a c

/-- The message named `k` is reachable from the response of a method of `fs`. -/
def FromResponse (fs : List FileDescriptor) (k : String) : Prop :=
  ∃ method ∈ allMethods fs, FieldReach fs method.OutputType k

/-- The message named `k` is reachable from the request of a method of `fs`. -/
def FromRequest (fs : List FileDescriptor) (k : String) : Prop :=
  ∃ method ∈ allMethods fs, FieldReach fs method.InputType k

/-- The name tables of `g` hold reachable types only: a declared message that
is a key of `typeNameMap` is reachable from a response, one that is a key of
`inputNameMap` is reachable from a request, and a declared enum that is a key of
`typeNameMap` is the type of a field of a message reachable from a response or
from a request. -/
def ReachableOnly (fs : List FileDescriptor) (g : Generator) : Prop :=
  (∀ m ∈ allMessages fs, Present g false m.FullName → FromResponse fs m.FullName) ∧
  (∀ m ∈ allMessages fs, Present g true m.FullName → FromRequest fs m.FullName) ∧
  (∀ e ∈ allEnums fs, Present g false e.FullName →
    ∃ m ∈ allMessages fs, ∃ p ∈ m.Field, p.FType = FieldType.TYPE_ENUM ∧
      p.TypeName = e.FullName ∧ (FromResponse fs m.FullName ∨ FromRequest fs m.FullName))

/-! # Theorems -/

/-! ## Go maps -/

theorem GoMap.get?_set {α : Type} (m : GoMap α) (k k' : String) (v : α) :
    (m.set k v).get? k' = if k = k' then some v else m.get? k' := by
  simp [GoMap.set, GoMap.get?]

theorem GoMap.getStr_set (m : GoMap String) (k k' : String) (v : String) :
    (m.set k v).getStr k' = if k = k' then v else m.getStr k' := by
  unfold GoMap.getStr
  rw [GoMap.get?_set]
  split <;> rfl

theorem GoMap.getBool_set (m : GoMap Bool) (k k' : String) (v : Bool) :
    (m.set k v).getBool k' = if k = k' then v else m.getBool k' := by
  unfold GoMap.getBool
  rw [GoMap.get?_set]
  split <;> rfl

theorem GoMap.mem_of_get? {α : Type} (m : GoMap α) (k : String) (v : α)
    (h : m.get? k = some v) : (k, v) ∈ m := by
  induction m with
  | nil => simp [GoMap.get?] at h
  | cons p rest ih =>
    obtain ⟨k', v'⟩ := p
    simp only [GoMap.get?] at h
    by_cases hk : k' = k
    · simp only [hk, if_true, Option.some.injEq] at h
      subst hk; subst h
      exact List.mem_cons_self _ _
    · simp only [hk, if_false] at h
      exact List.mem_cons_of_mem _ (ih h)

theorem GoMap.get?_ne_none_of_mem {α : Type} (m : GoMap α) (k : String) (v : α)
    (h : (k, v) ∈ m) : m.get? k ≠ none := by
  induction m with
  | nil => simp at h
  | cons p rest ih =>
    obtain ⟨k', v'⟩ := p
    simp only [GoMap.get?]
    by_cases hk : k' = k
    · simp [hk]
    · simp only [hk, if_false]
      rcases List.mem_cons.1 h with heq | hin
      · exact absurd (congrArg Prod.fst heq).symm hk
      · exact ih hin

theorem GoMap.getStr_ne_empty_iff (m : GoMap String) (k : String) :
    m.getStr k ≠ "" ↔ ∃ v, m.get? k = some v ∧ v ≠ "" := by
  unfold GoMap.getStr
  cases h : m.get? k with
  | none => simp
  | some v => simp

theorem GoMap.get?_set_ne_none_iff {α : Type} (m : GoMap α) (k k' : String) (v : α) :
    (m.set k v).get? k' ≠ none ↔ k' = k ∨ m.get? k' ≠ none := by
  rw [GoMap.get?_set]
  by_cases hk : k = k'
  · simp [hk]
  · have hk' : ¬ k' = k := fun h => hk h.symm
    simp [hk, hk']

/-! ## The name builder -/

theorem buildNameLoop_length (isProtoMap : Bool) (n i : Nat) (names : List String) (b : String) :
    b.length ≤ (buildNameLoop isProtoMap n i names b).length := by
  induction names generalizing i b with
  | nil => simp [buildNameLoop]
  | cons name rest ih =>
    simp only [buildNameLoop]
    refine le_trans ?_ (ih _ _)
    simp only [String.length_append]
    omega

theorem buildGraphqlTypeName_ne_empty (parts : graphqlTypeNameParts)
    (h : parts.TypeName ≠ [] ∨ parts.Input = true) : buildGraphqlTypeName parts ≠ "" := by
  have hlen : ∀ s : String, 0 < s.length → s ≠ "" := by
    intro s hs heq
    rw [heq] at hs
    exact absurd hs (by decide)
  apply hlen
  unfold buildGraphqlTypeName
  by_cases hin : parts.Input = true
  · simp only [hin, if_true, String.length_append]
    have : ("_Input" : String).length = 6 := by decide
    omega
  · simp only [hin]
    rcases h with h | h
    · cases hT : parts.TypeName with
      | nil => exact absurd hT h
      | cons name rest =>
        simp only [buildNameLoop]
        refine lt_of_lt_of_le ?_ (buildNameLoop_length _ _ _ _ _)
        simp only [String.length_append]
        have : ("_" : String).length = 1 := by decide
        omega
    · exact absurd h hin

/-! ## Loops -/

/-- Total-correctness rule for `forEach`: an invariant `J`, a preorder `R`
between states and a post-condition `Q` per element that is stable along `R`. -/
theorem forEach_total {α : Type} (body : Generator → α → Res Generator)
    (J : Generator → Prop) (R : Generator → Generator → Prop) (Q : α → Generator → Prop)
    (hrefl : ∀ g, R g g) (htrans : ∀ a b c, R a b → R b c → R a c)
    (hstable : ∀ x g h, Q x g → R g h → Q x h)
    (xs : List α)
    (hbody : ∀ x ∈ xs, ∀ g, J g → ∃ h, body g x = Res.ok h ∧ J h ∧ R g h ∧ Q x h)
    (g : Generator) (hJ : J g) :
    ∃ h, forEach body xs g = Res.ok h ∧ J h ∧ R g h ∧ ∀ x ∈ xs, Q x h := by
  induction xs generalizing g with
  | nil => exact ⟨g, rfl, hJ, hrefl g, by simp⟩
  | cons x rest ih =>
    obtain ⟨g1, hb, hJ1, hR1, hQ1⟩ := hbody x (List.mem_cons_self _ _) g hJ
    obtain ⟨h, hloop, hJh, hRh, hQh⟩ :=
      ih (fun y hy => hbody y (List.mem_cons_of_mem _ hy)) g1 hJ1
    refine ⟨h, ?_, hJh, htrans _ _ _ hR1 hRh, ?_⟩
    · simp only [forEach, hb, hloop]
    · intro y hy
      rcases List.mem_cons.1 hy with rfl | hin
      · exact hstable _ _ _ hQ1 hRh
      · exact hQh y hin

/-- Partial-correctness rule for `forEach`. -/
theorem forEach_partial {α : Type} (body : Generator → α → Res Generator)
    (J : Generator → Prop) (R : Generator → Generator → Prop) (Q : α → Generator → Prop)
    (hrefl : ∀ g, R g g) (htrans : ∀ a b c, R a b → R b c → R a c)
    (hstable : ∀ x g h, Q x g → R g h → Q x h)
    (xs : List α)
    (hbody : ∀ x ∈ xs, ∀ g h, J g → body g x = Res.ok h → J h ∧ R g h ∧ Q x h)
    (g h : Generator) (hJ : J g) (hrun : forEach body xs g = Res.ok h) :
    J h ∧ R g h ∧ ∀ x ∈ xs, Q x h := by
  induction xs generalizing g with
  | nil =>
    simp only [forEach, Res.ok.injEq] at hrun
    subst hrun
    exact ⟨hJ, hrefl g, by simp⟩
  | cons x rest ih =>
    simp only [forEach] at hrun
    cases hb : body g x with
    | fault e => simp [hb] at hrun
    | ok g1 =>
      simp only [hb] at hrun
      obtain ⟨hJ1, hR1, hQ1⟩ := hbody x (List.mem_cons_self _ _) g g1 hJ hb
      obtain ⟨hJh, hRh, hQh⟩ :=
        ih (fun y hy => hbody y (List.mem_cons_of_mem _ hy)) g1 hJ1 hrun
      refine ⟨hJh, htrans _ _ _ hR1 hRh, ?_⟩
      intro y hy
      rcases List.mem_cons.1 hy with rfl | hin
      · exact hstable _ _ _ hQ1 hRh
      · exact hQh y hin

/-! ## Termination of the visit -/

theorem keeps_refl (input : Bool) (g : Generator) : Keeps input g g :=
  ⟨rfl, rfl, fun _ h => h⟩

theorem keeps_trans {input : Bool} {a b c : Generator} (h1 : Keeps input a b)
    (h2 : Keeps input b c) : Keeps input a c :=
  ⟨h2.1.trans h1.1, h2.2.1.trans h1.2.1, fun k hk => h2.2.2 k (h1.2.2 k hk)⟩

theorem keeps_consistent {input : Bool} {g h : Generator} (hk : Keeps input g h)
    (hg : Consistent g) : Consistent h := by
  unfold Consistent at hg ⊢
  rw [hk.1, hk.2.1]
  exact hg

theorem keeps_unnamedCount_le {input : Bool} {g h : Generator} (hk : Keeps input g h) :
    unnamedCount h input ≤ unnamedCount g input := by
  unfold unnamedCount
  rw [hk.1]
  apply List.Sublist.length_le
  apply List.monotone_filter_right
  intro p hp
  simp only [decide_eq_true_eq] at hp ⊢
  by_contra hne
  exact hk.2.2 p.2.FullName hne hp

theorem nameMap_setName (g : Generator) (input : Bool) (k v : String) :
    (g.setName input k v).nameMap input = (g.nameMap input).set k v := by
  cases input <;> simp [Generator.setName, Generator.nameMap]

theorem messages_setName (g : Generator) (input : Bool) (k v : String) :
    (g.setName input k v).messages = g.messages := by
  cases input <;> simp [Generator.setName]

theorem enums_setName (g : Generator) (input : Bool) (k v : String) :
    (g.setName input k v).enums = g.enums := by
  cases input <;> simp [Generator.setName]

theorem keeps_setName (g : Generator) (input : Bool) (k v : String) (hv : v ≠ "") :
    Keeps input g (g.setName input k v) := by
  refine ⟨messages_setName g input k v, enums_setName g input k v, ?_⟩
  intro k' hk'
  unfold Named at hk' ⊢
  rw [nameMap_setName, GoMap.getStr_set]
  split
  · exact hv
  · exact hk'

theorem named_setName (g : Generator) (input : Bool) (k v : String) (hv : v ≠ "") :
    Named (g.setName input k v) input k := by
  unfold Named
  rw [nameMap_setName, GoMap.getStr_set]
  simpa using hv

theorem unnamedCount_setName_lt (g : Generator) (input : Bool) (m : MessageDescriptor)
    (v : String) (hv : v ≠ "") (hm : m ∈ g.messages.map Prod.snd)
    (hun : ¬ Named g input m.FullName) :
    unnamedCount (g.setName input m.FullName v) input < unnamedCount g input := by
  unfold unnamedCount
  rw [messages_setName, nameMap_setName]
  obtain ⟨p, hp, hpm⟩ := List.mem_map.1 hm
  unfold Named at hun
  simp only [ne_eq, not_not] at hun
  have hsub : ∀ l : List (String × MessageDescriptor),
      (l.filter (fun p => decide (((g.nameMap input).set m.FullName v).getStr p.2.FullName = ""))).length
        ≤ (l.filter (fun p => decide ((g.nameMap input).getStr p.2.FullName = ""))).length := by
    intro l
    apply List.Sublist.length_le
    apply List.monotone_filter_right
    intro q hq
    simp only [decide_eq_true_eq, GoMap.getStr_set] at hq ⊢
    split at hq
    · exact absurd hq hv
    · exact hq
  have key : ∀ l : List (String × MessageDescriptor), p ∈ l →
      (l.filter (fun p => decide (((g.nameMap input).set m.FullName v).getStr p.2.FullName = ""))).length
        < (l.filter (fun p => decide ((g.nameMap input).getStr p.2.FullName = ""))).length := by
    intro l
    induction l with
    | nil => intro h; simp at h
    | cons q rest ih =>
      intro hmem
      have hrest := hsub rest
      rcases List.mem_cons.1 hmem with heq | hin
      · subst heq
        have h1 : ¬ (((g.nameMap input).set m.FullName v).getStr p.2.FullName = "") := by
          simp [GoMap.getStr_set, hpm, hv]
        have h2 : (g.nameMap input).getStr p.2.FullName = "" := by
          simp [hpm, hun]
        simp only [List.filter_cons, h1, h2, decide_True, decide_False, if_true,
          List.length_cons]
        simp only [Bool.false_eq_true, ↓reduceIte]
        omega
      · have hlt := ih hin
        by_cases hq : ((g.nameMap input).set m.FullName v).getStr q.2.FullName = ""
        · have hq' : (g.nameMap input).getStr q.2.FullName = "" := by
            rw [GoMap.getStr_set] at hq
            split at hq
            · exact absurd hq hv
            · exact hq
          simp only [List.filter_cons, hq, hq', decide_True, if_true, List.length_cons]
          omega
        · by_cases hq' : (g.nameMap input).getStr q.2.FullName = ""
          · simp only [List.filter_cons, hq, hq', decide_True, decide_False, if_true,
              List.length_cons, Bool.false_eq_true, ↓reduceIte]
            omega
          · simp only [List.filter_cons, hq, hq', decide_False, Bool.false_eq_true,
              ↓reduceIte]
            exact hlt
  exact key g.messages hp

theorem buildTypesFromEnum_keeps (g : Generator) (enum : EnumDescriptor) (input : Bool)
    (he : enum.TypeName ≠ []) : Keeps input g (buildTypesFromEnum g enum) := by
  refine ⟨rfl, rfl, ?_⟩
  intro k hk
  unfold Named at hk ⊢
  cases input
  · have htable : (buildTypesFromEnum g enum).typeNameMap = g.typeNameMap.set enum.FullName
        (buildGraphqlTypeName
          { Package := enum.Package, TypeName := enum.TypeName, IsProtoMap := false,
            Input := false }) := rfl
    have hk' : g.typeNameMap.getStr k ≠ "" := hk
    show (buildTypesFromEnum g enum).typeNameMap.getStr k ≠ ""
    rw [htable, GoMap.getStr_set]
    split
    · exact buildGraphqlTypeName_ne_empty _ (Or.inl he)
    · exact hk'
  · exact hk

theorem visitField_total (input : Bool) (fuel : Nat)
    (ih : ∀ (g : Generator) (m : MessageDescriptor), Consistent g →
      m ∈ g.messages.map Prod.snd → unnamedCount g input < fuel →
      ∃ g', buildTypesFromMessage fuel g m input = Res.ok g' ∧ Keeps input g g' ∧
        (m.Field ≠ [] → Named g' input m.FullName))
    (h : Generator) (hh : Consistent h) (hcount : unnamedCount h input < fuel)
    (f : FieldDescriptorProto)
    (hmsg : f.FType = FieldType.TYPE_MESSAGE → h.messages.get? f.TypeName ≠ none)
    (henum : f.FType = FieldType.TYPE_ENUM → h.enums.get? f.TypeName ≠ none) :
    ∃ h', visitField (fun h name =>
          match h.messages.get? name with
          | none => Res.fault Fault.nilDereference
          | some referenced => buildTypesFromMessage fuel h referenced input) h f = Res.ok h' ∧
      Keeps input h h' ∧
      (f.FType = FieldType.TYPE_MESSAGE → ∀ B, h.messages.get? f.TypeName = some B →
        B.Field ≠ [] → Named h' input B.FullName) := by
  unfold visitField
  by_cases hm : f.FType = FieldType.TYPE_MESSAGE
  · obtain ⟨B, hB⟩ := Option.ne_none_iff_exists'.1 (hmsg hm)
    have hBmem : B ∈ h.messages.map Prod.snd :=
      List.mem_map.2 ⟨(f.TypeName, B), GoMap.mem_of_get? _ _ _ hB, rfl⟩
    obtain ⟨h1, hrun, hkeep, hnamed⟩ := ih h B hh hBmem hcount
    have hne : f.FType ≠ FieldType.TYPE_ENUM := by rw [hm]; decide
    simp only [hm, if_true, hB, hrun]
    refine ⟨h1, by simp, hkeep, ?_⟩
    intro _ B' hB' hfields
    cases hB'
    exact hnamed hfields
  · simp only [hm, if_false]
    by_cases he : f.FType = FieldType.TYPE_ENUM
    · obtain ⟨e, hE⟩ := Option.ne_none_iff_exists'.1 (henum he)
      have hpath : e.TypeName ≠ [] := hh.2.2.1 (f.TypeName, e) (GoMap.mem_of_get? _ _ _ hE)
      simp only [he, if_true, buildTypesFromEnumRef, hE]
      exact ⟨_, rfl, buildTypesFromEnum_keeps h e input hpath, fun hc => hc.elim⟩
    · simp only [he, if_false]
      exact ⟨h, rfl, keeps_refl input h, fun hc => hc.elim⟩

theorem buildTypesFromMessage_total (input : Bool) (fuel : Nat) :
    ∀ (g : Generator) (m : MessageDescriptor), Consistent g →
      m ∈ g.messages.map Prod.snd → unnamedCount g input < fuel →
      ∃ g', buildTypesFromMessage fuel g m input = Res.ok g' ∧ Keeps input g g' ∧
        (m.Field ≠ [] → Named g' input m.FullName) ∧
        (¬ Named g input m.FullName → ∀ f ∈ m.Field, f.FType = FieldType.TYPE_MESSAGE →
          ∀ B, g.messages.get? f.TypeName = some B → B.Field ≠ [] →
            Named g' input B.FullName) := by
  induction fuel with
  | zero => intro g m _ _ h; exact absurd h (Nat.not_lt_zero _)
  | succ fuel ih =>
    intro g m hg hm hcount
    unfold buildTypesFromMessage
    by_cases hnamed : (g.nameMap input).getStr m.FullName ≠ ""
    · rw [if_pos hnamed]
      exact ⟨g, rfl, keeps_refl input g, fun _ => hnamed, fun hc => absurd hnamed hc⟩
    · rw [if_neg hnamed]
      by_cases hlen : m.Field.length = 0
      · rw [if_pos hlen]
        refine ⟨_, rfl, ⟨rfl, rfl, fun k hk => hk⟩, ?_, ?_⟩
        · intro hne
          exact absurd (List.length_eq_zero.1 hlen) hne
        · intro _ f hf
          rw [List.length_eq_zero.1 hlen] at hf
          simp at hf
      · rw [if_neg hlen]
        have hpath : m.TypeName ≠ [] := by
          obtain ⟨p, hp, hpm⟩ := List.mem_map.1 hm
          rw [← hpm]
          exact hg.2.1 p hp
        have hname : buildGraphqlTypeName
            { Package := m.Package, TypeName := m.TypeName, IsProtoMap := m.IsMap,
              Input := input } ≠ "" := buildGraphqlTypeName_ne_empty _ (Or.inl hpath)
        have hk1 := keeps_setName g input m.FullName _ hname
        have hlt := unnamedCount_setName_lt g input m _ hname hm hnamed
        obtain ⟨g', hrun, hJ, hR, hQ⟩ := forEach_total
          (visitField (fun h name =>
            match h.messages.get? name with
            | none => Res.fault Fault.nilDereference
            | some referenced => buildTypesFromMessage fuel h referenced input))
          (fun h => Keeps input (g.setName input m.FullName (buildGraphqlTypeName
            { Package := m.Package, TypeName := m.TypeName, IsProtoMap := m.IsMap,
              Input := input })) h)
          (Keeps input)
          (fun f h => f.FType = FieldType.TYPE_MESSAGE →
            ∀ B, g.messages.get? f.TypeName = some B → B.Field ≠ [] → Named h input B.FullName)
          (keeps_refl input) (fun _ _ _ h1 h2 => keeps_trans h1 h2)
          (fun f a b hq hab hty B hB hBf => hab.2.2 _ (hq hty B hB hBf))
          m.Field
          (by
            intro f hf h hJ
            have hh : Consistent h := keeps_consistent (keeps_trans hk1 hJ) hg
            have hidx : h.messages = g.messages := (keeps_trans hk1 hJ).1
            have hide : h.enums = g.enums := (keeps_trans hk1 hJ).2.1
            have hc : unnamedCount h input < fuel := by
              have := keeps_unnamedCount_le hJ
              omega
            obtain ⟨p, hp, hpm⟩ := List.mem_map.1 hm
            have hrefs := hg.1 p hp f (by rw [hpm]; exact hf)
            obtain ⟨h', hrun, hkeep, hq⟩ := visitField_total input fuel
              (fun g m a b c => by
                obtain ⟨g', h1, h2, h3, _⟩ := ih g m a b c
                exact ⟨g', h1, h2, h3⟩)
              h hh hc f (by rw [hidx]; exact hrefs.1) (by rw [hide]; exact hrefs.2)
            refine ⟨h', hrun, keeps_trans hJ hkeep, hkeep, ?_⟩
            intro hty B hB hBf
            exact hq hty B (by rw [hidx]; exact hB) hBf)
          _ (keeps_refl input _)
        refine ⟨g', hrun, keeps_trans hk1 hJ, ?_, ?_⟩
        · intro _
          exact hJ.2.2 _ (named_setName g input m.FullName _ hname)
        · intro _ f hf hty B hB hBf
          exact hQ f hf hty B hB hBf

theorem writeCount_set {α : Type} (m : GoMap α) (k k' : String) (v : α) :
    (m.set k v).writeCount k' = if k = k' then m.writeCount k' + 1 else m.writeCount k' := by
  unfold GoMap.writeCount GoMap.set
  by_cases hk : k = k'
  · simp [List.filter_cons, hk]
  · simp [List.filter_cons, hk]

theorem writeCount_eq_zero_iff {α : Type} (m : GoMap α) (k : String) :
    m.writeCount k = 0 ↔ m.get? k = none := by
  induction m with
  | nil => simp [GoMap.writeCount, GoMap.get?]
  | cons p rest ih =>
    obtain ⟨k', v⟩ := p
    unfold GoMap.writeCount at ih ⊢
    by_cases hk : k' = k
    · simp [List.filter_cons, GoMap.get?, hk]
    · simp only [List.filter_cons, hk, decide_False, Bool.false_eq_true, if_false, GoMap.get?]
      exact ih

theorem writtenOnce_setName (g : Generator) (input : Bool) (k0 k v : String) (hv : v ≠ "")
    (hfresh : ¬ Named g input k0) (h : WrittenOnce g input k) :
    WrittenOnce (g.setName input k0 v) input k := by
  unfold WrittenOnce Named at *
  rw [nameMap_setName, writeCount_set, GoMap.getStr_set]
  by_cases hk : k0 = k
  · subst hk
    simp only [if_true]
    rcases h with h0 | ⟨_, hn⟩
    · exact Or.inr ⟨by omega, hv⟩
    · exact absurd hn hfresh
  · simp only [hk, if_false]
    exact h

theorem writtenOnce_enum (g : Generator) (e : EnumDescriptor) (input : Bool) (k : String)
    (hk : e.FullName ≠ k) (h : WrittenOnce g input k) :
    WrittenOnce (buildTypesFromEnum g e) input k := by
  cases input
  · have htable : (buildTypesFromEnum g e).nameMap false =
        (g.nameMap false).set e.FullName (enumTypeName e) := rfl
    unfold WrittenOnce Named at *
    rw [htable, writeCount_set, GoMap.getStr_set]
    simp only [hk, if_false]
    exact h
  · exact h

/-- A visit writes a key that is no enum name at most once: a key written at
most once (and then named) stays so. -/
theorem buildTypesFromMessage_once (input : Bool) (k : String) (fuel : Nat) :
    ∀ (g g' : Generator) (m : MessageDescriptor), Consistent g →
      m ∈ g.messages.map Prod.snd → (∀ p ∈ g.enums, p.2.FullName ≠ k) →
      WrittenOnce g input k → buildTypesFromMessage fuel g m input = Res.ok g' →
      (g'.messages = g.messages ∧ g'.enums = g.enums) ∧ WrittenOnce g' input k := by
  induction fuel with
  | zero =>
    intro g g' m _ _ _ _ hrun
    simp [buildTypesFromMessage] at hrun
  | succ fuel ih =>
    intro g g' m hg hm henum honce hrun
    unfold buildTypesFromMessage at hrun
    by_cases hnamed : (g.nameMap input).getStr m.FullName ≠ ""
    · rw [if_pos hnamed] at hrun
      simp only [Res.ok.injEq] at hrun
      subst hrun
      exact ⟨⟨rfl, rfl⟩, honce⟩
    · rw [if_neg hnamed] at hrun
      by_cases hlen : m.Field.length = 0
      · rw [if_pos hlen] at hrun
        simp only [Res.ok.injEq] at hrun
        subst hrun
        refine ⟨⟨rfl, rfl⟩, ?_⟩
        cases input <;> exact honce
      · rw [if_neg hlen] at hrun
        have hpath : m.TypeName ≠ [] := by
          obtain ⟨p, hp, hpm⟩ := List.mem_map.1 hm
          rw [← hpm]
          exact hg.2.1 p hp
        have hname : buildGraphqlTypeName
            { Package := m.Package, TypeName := m.TypeName, IsProtoMap := m.IsMap,
              Input := input } ≠ "" := buildGraphqlTypeName_ne_empty _ (Or.inl hpath)
        have honce1 := writtenOnce_setName g input m.FullName k _ hname hnamed honce
        obtain ⟨hJ, _, _⟩ := forEach_partial
          (visitField (fun h name =>
            match h.messages.get? name with
            | none => Res.fault Fault.nilDereference
            | some referenced => buildTypesFromMessage fuel h referenced input))
          (fun h => (h.messages = g.messages ∧ h.enums = g.enums) ∧ WrittenOnce h input k)
          (fun _ _ => True) (fun _ _ => True)
          (fun _ => trivial) (fun _ _ _ _ _ => trivial) (fun _ _ _ _ _ => trivial)
          m.Field
          (by
            intro f hf h h' hJ hbody
            refine ⟨?_, trivial, trivial⟩
            obtain ⟨⟨hidx, hide⟩, honceh⟩ := hJ
            have hh : Consistent h := by
              unfold Consistent at hg ⊢
              rw [hidx, hide]
              exact hg
            unfold visitField at hbody
            by_cases hty : f.FType = FieldType.TYPE_MESSAGE
            · have hne : ¬ f.FType = FieldType.TYPE_ENUM := by rw [hty]; decide
              rw [if_pos hty] at hbody
              cases hB : h.messages.get? f.TypeName with
              | none => simp [hB] at hbody
              | some B =>
                simp only [hB] at hbody
                cases hv : buildTypesFromMessage fuel h B input with
                | fault e => simp [hv] at hbody
                | ok h1 =>
                  simp only [hv, if_neg hne, Res.ok.injEq] at hbody
                  subst hbody
                  have hBmem : B ∈ h.messages.map Prod.snd :=
                    List.mem_map.2 ⟨(f.TypeName, B), GoMap.mem_of_get? _ _ _ hB, rfl⟩
                  obtain ⟨⟨h1i, h1e⟩, h1o⟩ := ih h h1 B hh hBmem
                    (by rw [hide]; exact henum) honceh hv
                  exact ⟨⟨h1i.trans hidx, h1e.trans hide⟩, h1o⟩
            · rw [if_neg hty] at hbody
              simp only at hbody
              by_cases hen : f.FType = FieldType.TYPE_ENUM
              · rw [if_pos hen] at hbody
                unfold buildTypesFromEnumRef at hbody
                cases hE : h.enums.get? f.TypeName with
                | none => simp [hE] at hbody
                | some e =>
                  simp only [hE, Res.ok.injEq] at hbody
                  subst hbody
                  have hek : e.FullName ≠ k := by
                    have := GoMap.mem_of_get? _ _ _ hE
                    rw [hide] at this
                    exact henum (f.TypeName, e) this
                  exact ⟨⟨hidx, hide⟩, writtenOnce_enum h e input k hek honceh⟩
              · rw [if_neg hen] at hbody
                simp only [Res.ok.injEq] at hbody
                subst hbody
                exact ⟨⟨hidx, hide⟩, honceh⟩)
          _ g' ⟨⟨messages_setName _ _ _ _, enums_setName _ _ _ _⟩, honce1⟩ hrun
        exact hJ

/-- C1 (cycle termination). On an internally consistent lookup index, the visit
`buildTypesFromMessage(A, input)` of an indexed message returns, for both
values of `input` and for every fuel above the size of the index, with no
assumption of acyclicity. After the visit a non-empty `A` has a name in the
table selected by `input`; and when `A` has a field of type `B` and `B` a field
of type `A` (a cycle; `B = A` is the self-reference) and neither was in the
table before the visit, both `A` and `B` have a name in that table and each
was written exactly once. -/
theorem buildTypesFromMessage_terminates (g : Generator) (A : MessageDescriptor) (input : Bool)
    (fuel : Nat) (hg : Consistent g) (hA : A ∈ g.messages.map Prod.snd)
    (hfuel : g.messages.length < fuel) :
    ∃ g', buildTypesFromMessage fuel g A input = Res.ok g' ∧
      (A.Field ≠ [] → Named g' input A.FullName) ∧
      (∀ (B : MessageDescriptor) (fa fb : FieldDescriptorProto),
        fa ∈ A.Field → fa.FType = FieldType.TYPE_MESSAGE →
        g.messages.get? fa.TypeName = some B →
        fb ∈ B.Field → fb.FType = FieldType.TYPE_MESSAGE →
        g.messages.get? fb.TypeName = some A →
        (g.nameMap input).get? A.FullName = none →
        (g.nameMap input).get? B.FullName = none →
        (Named g' input A.FullName ∧ (g'.nameMap input).writeCount A.FullName = 1) ∧
        (Named g' input B.FullName ∧ (g'.nameMap input).writeCount B.FullName = 1)) := by
  have hcount : unnamedCount g input < fuel := by
    have : unnamedCount g input ≤ g.messages.length := by
      unfold unnamedCount
      exact List.length_filter_le _ _
    omega
  obtain ⟨g', hrun, _, hnamed, hfields⟩ := buildTypesFromMessage_total input fuel g A hg hA hcount
  refine ⟨g', hrun, hnamed, ?_⟩
  intro B fa fb hfa hta hB hfb _ _ hfreshA hfreshB
  have hAne : A.Field ≠ [] := List.ne_nil_of_mem hfa
  have hBne : B.Field ≠ [] := List.ne_nil_of_mem hfb
  have hBmem : B ∈ g.messages.map Prod.snd :=
    List.mem_map.2 ⟨(fa.TypeName, B), GoMap.mem_of_get? _ _ _ hB, rfl⟩
  have hunnamed : ¬ Named g input A.FullName := by
    unfold Named
    simp [GoMap.getStr, hfreshA]
  have honce : ∀ M : MessageDescriptor, M ∈ g.messages.map Prod.snd →
      (g.nameMap input).get? M.FullName = none → Named g' input M.FullName →
      (g'.nameMap input).writeCount M.FullName = 1 := by
    intro M hM hfresh hMnamed
    obtain ⟨q, hq, hqM⟩ := List.mem_map.1 hM
    have henum : ∀ p ∈ g.enums, p.2.FullName ≠ M.FullName := by
      intro p hp
      rw [← hqM]
      exact hg.2.2.2 p hp q hq
    obtain ⟨_, hw⟩ := buildTypesFromMessage_once input M.FullName fuel g g' A hg hA henum
      (Or.inl ((writeCount_eq_zero_iff _ _).2 hfresh)) hrun
    rcases hw with h0 | ⟨h1, _⟩
    · exfalso
      have hnone := (writeCount_eq_zero_iff _ _).1 h0
      unfold Named at hMnamed
      simp [GoMap.getStr, hnone] at hMnamed
    · exact h1
  have hAn := hnamed hAne
  have hBn := hfields hunnamed fa hfa hta B hB hBne
  exact ⟨⟨hAn, honce A hA hfreshA hAn⟩, ⟨hBn, honce B hBmem hfreshB hBn⟩⟩

/-- Witness of C1: the cycle `Node → Edge → Node`, visited from `Node` for the
output table with fuel 3; both messages get their name, written once. -/
theorem buildTypesFromMessage_terminates_witness :
    Consistent cycleGenerator ∧ cycleNode ∈ cycleGenerator.messages.map Prod.snd ∧
    cycleGenerator.messages.length < 3 ∧
    (∃ g', buildTypesFromMessage 3 cycleGenerator cycleNode false = Res.ok g' ∧
      (cycleNode.Field ≠ [] → Named g' false cycleNode.FullName) ∧
      (∀ (B : MessageDescriptor) (fa fb : FieldDescriptorProto),
        fa ∈ cycleNode.Field → fa.FType = FieldType.TYPE_MESSAGE →
        cycleGenerator.messages.get? fa.TypeName = some B →
        fb ∈ B.Field → fb.FType = FieldType.TYPE_MESSAGE →
        cycleGenerator.messages.get? fb.TypeName = some cycleNode →
        (cycleGenerator.nameMap false).get? cycleNode.FullName = none →
        (cycleGenerator.nameMap false).get? B.FullName = none →
        (Named g' false cycleNode.FullName ∧
          (g'.nameMap false).writeCount cycleNode.FullName = 1) ∧
        (Named g' false B.FullName ∧ (g'.nameMap false).writeCount B.FullName = 1))) ∧
    (∃ g', buildTypesFromMessage 3 cycleGenerator cycleNode false = Res.ok g' ∧
      g'.typeNameMap = [(".pkg.Edge", "Pkg_Edge"), (".pkg.Node", "Pkg_Node")] ∧
      g'.inputNameMap = []) ∧
    (∃ g', buildTypesFromMessage 3 cycleGenerator cycleNode true = Res.ok g' ∧
      g'.inputNameMap = [(".pkg.Edge", "Pkg_Edge_Input"), (".pkg.Node", "Pkg_Node_Input")] ∧
      g'.typeNameMap = []) :=
  ⟨by decide, by decide, by decide,
    buildTypesFromMessage_terminates cycleGenerator cycleNode false 3 (by decide) (by decide)
      (by decide),
    ⟨_, rfl, by decide, by decide⟩, ⟨_, rfl, by decide, by decide⟩⟩

/-! ## Extension of states -/

theorem extends_refl (g : Generator) : Extends g g :=
  ⟨rfl, rfl, fun _ _ h => h, fun _ h => h⟩

theorem extends_trans {a b c : Generator} (h1 : Extends a b) (h2 : Extends b c) :
    Extends a c :=
  ⟨h2.1.trans h1.1, h2.2.1.trans h1.2.1, fun i k hk => h2.2.2.1 i k (h1.2.2.1 i k hk),
    fun k hk => h2.2.2.2 k (h1.2.2.2 k hk)⟩

theorem present_setName_iff (g : Generator) (input input' : Bool) (k k' v : String) :
    Present (g.setName input k v) input' k' ↔ (input' = input ∧ k' = k) ∨ Present g input' k' := by
  unfold Present
  cases input <;> cases input' <;>
    simp [Generator.setName, Generator.nameMap, GoMap.get?_set_ne_none_iff]

theorem present_enum_iff (g : Generator) (e : EnumDescriptor) (input : Bool) (k : String) :
    Present (buildTypesFromEnum g e) input k ↔
      (input = false ∧ k = e.FullName) ∨ Present g input k := by
  have htable : (buildTypesFromEnum g e).typeNameMap =
      g.typeNameMap.set e.FullName (enumTypeName e) := rfl
  have hinput : (buildTypesFromEnum g e).inputNameMap = g.inputNameMap := rfl
  unfold Present
  cases input
  · simp [Generator.nameMap, htable, GoMap.get?_set_ne_none_iff]
  · simp [Generator.nameMap, hinput]

theorem extends_setName (g : Generator) (input : Bool) (k v : String) :
    Extends g (g.setName input k v) := by
  refine ⟨messages_setName g input k v, enums_setName g input k v, ?_, ?_⟩
  · intro i k' hk'
    exact (present_setName_iff g input i k k' v).2 (Or.inr hk')
  · intro k' hk'
    cases input <;> exact hk'

theorem extends_enum (g : Generator) (e : EnumDescriptor) :
    Extends g (buildTypesFromEnum g e) :=
  ⟨rfl, rfl, fun i k hk => (present_enum_iff g e i k).2 (Or.inr hk), fun _ hk => hk⟩

theorem extends_erase (g : Generator) (k : String) :
    Extends g { g with emptyMessages := g.emptyMessages.set k true } := by
  refine ⟨rfl, rfl, fun i k' hk' => ?_, ?_⟩
  · cases i <;> exact hk'
  · intro k' hk'
    simp only [GoMap.getBool_set]
    split
    · rfl
    · exact hk'

theorem fieldSettled_mono {g h : Generator} {input : Bool} {p : FieldDescriptorProto}
    (hs : FieldSettled g input p) (hext : Extends g h) : FieldSettled h input p := by
  obtain ⟨hidx, hen, hpres, her⟩ := hext
  refine ⟨?_, ?_⟩
  · intro hty
    obtain ⟨B, hB, hset⟩ := hs.1 hty
    refine ⟨B, by rw [hidx]; exact hB, ?_⟩
    rcases hset with hp | ⟨hz, he⟩
    · exact Or.inl (hpres _ _ hp)
    · exact Or.inr ⟨hz, her _ he⟩
  · intro hty
    obtain ⟨h1, h2⟩ := hs.2 hty
    exact ⟨by rw [hen]; exact h1, hpres _ _ h2⟩

/-- Transport of reference closure along an extension that adds no key of an
indexed message outside `pending'`. -/
theorem closed_of_extends {g h : Generator} {input : Bool} {pending pending' : List String}
    (hext : Extends g h)
    (hnew : ∀ k m, g.messages.get? k = some m → Present h input k → k ∉ pending' →
      Present g input k ∧ k ∉ pending)
    (hc : Closed g input pending) : Closed h input pending' := by
  intro k m hk hp hnot p hpm
  rw [hext.1] at hk
  obtain ⟨hp', hnot'⟩ := hnew k m hk hp hnot
  exact fieldSettled_mono (hc k m hk hp' hnot' p hpm) hext

/-! ## What a visit does -/

theorem indexSound_of_extends {fs : List FileDescriptor} {g h : Generator}
    (hs : IndexSound fs g) (hext : Extends g h) : IndexSound fs h := by
  unfold IndexSound at hs ⊢
  rw [hext.1, hext.2.1]
  exact hs

theorem reach_refl (fs : List FileDescriptor) (roots : Roots) (g : Generator) :
    Reach fs roots g g := Relation.ReflTransGen.refl

theorem reach_trans {fs : List FileDescriptor} {roots : Roots} {a b c : Generator}
    (h1 : Reach fs roots a b) (h2 : Reach fs roots b c) : Reach fs roots a c :=
  Relation.ReflTransGen.trans h1 h2

theorem reach_step {fs : List FileDescriptor} {roots : Roots} {a b : Generator}
    (h : Step fs roots a b) : Reach fs roots a b := Relation.ReflTransGen.single h

/-- The body of the field loop of a visit of `m`, given the specification `ih`
of the nested visits. -/
theorem visitField_spec (fs : List FileDescriptor) (roots : Roots) (input : Bool) (fuel : Nat)
    (ih : ∀ (g g' : Generator) (m : MessageDescriptor) (X Y : List String),
      IndexSound fs g → g.messages.get? m.FullName = some m →
      (roots.message input m ∨ ∃ m0 ∈ allMessages fs, Present g input m0.FullName ∧
        ∃ p ∈ m0.Field, p.FType = FieldType.TYPE_MESSAGE ∧ p.TypeName = m.FullName) →
      buildTypesFromMessage fuel g m input = Res.ok g' →
      (Extends g g' ∧ Reach fs roots g g') ∧
      (Present g' input m.FullName ∨
        (m.Field = [] ∧ g'.emptyMessages.getBool m.FullName = true)) ∧
      (Closed g input X → Closed g' input X) ∧
      (Closed g (!input) Y → Closed g' (!input) Y))
    (m : MessageDescriptor) (hm : m ∈ allMessages fs) (X Y : List String)
    (p : FieldDescriptorProto) (hp : p ∈ m.Field) (h h' : Generator)
    (hsound : IndexSound fs h) (hpres : Present h input m.FullName)
    (hrun : visitField (fun h name =>
        match h.messages.get? name with
        | none => Res.fault Fault.nilDereference
        | some referenced => buildTypesFromMessage fuel h referenced input) h p = Res.ok h') :
    (Extends h h' ∧ Reach fs roots h h') ∧ FieldSettled h' input p ∧
      (Closed h input X → Closed h' input X) ∧
      (Closed h (!input) Y → Closed h' (!input) Y) := by
  unfold visitField at hrun
  by_cases hty : p.FType = FieldType.TYPE_MESSAGE
  · have hne : ¬ p.FType = FieldType.TYPE_ENUM := by rw [hty]; decide
    rw [if_pos hty] at hrun
    cases hB : h.messages.get? p.TypeName with
    | none => simp [hB] at hrun
    | some B =>
      simp only [hB] at hrun
      cases hv : buildTypesFromMessage fuel h B input with
      | fault e => simp [hv] at hrun
      | ok h1 =>
        simp only [hv, if_neg hne, Res.ok.injEq] at hrun
        subst hrun
        have hkey : B.FullName = p.TypeName := (hsound.1 _ _ hB).2
        obtain ⟨hER, hset, hc1, hc2⟩ := ih h h1 B X Y hsound (by rw [hkey]; exact hB)
          (Or.inr ⟨m, hm, hpres, p, hp, hty, hkey.symm⟩) hv
        refine ⟨hER, ⟨?_, fun hc => absurd hc hne⟩, hc1, hc2⟩
        intro _
        refine ⟨B, by rw [hER.1.1]; exact hB, ?_⟩
        rw [← hkey]
        exact hset
  · rw [if_neg hty] at hrun
    simp only at hrun
    by_cases hen : p.FType = FieldType.TYPE_ENUM
    · rw [if_pos hen] at hrun
      unfold buildTypesFromEnumRef at hrun
      cases hE : h.enums.get? p.TypeName with
      | none => simp [hE] at hrun
      | some e =>
        simp only [hE, Res.ok.injEq] at hrun
        subst hrun
        obtain ⟨hemem, hekey⟩ := hsound.2.1 _ _ hE
        have hnomsg : h.messages.get? e.FullName = none := by
          rw [hekey]
          exact hsound.2.2 _ _ hE
        have hext := extends_enum h e
        have hclosed : ∀ (i : Bool) (Z : List String), Closed h i Z →
            Closed (buildTypesFromEnum h e) i Z := by
          intro i Z
          apply closed_of_extends hext
          intro k m' hk hpk hnot
          rcases (present_enum_iff h e i k).1 hpk with ⟨_, hke⟩ | hold
          · rw [hke, hnomsg] at hk
            exact absurd hk (by simp)
          · exact ⟨hold, hnot⟩
        refine ⟨⟨hext, reach_step (Step.nameEnum h e hemem
          (Or.inr ⟨input, m, hm, hpres, p, hp, hen, hekey.symm⟩))⟩,
          ⟨fun hc => absurd hc hty, ?_⟩, hclosed input X, hclosed (!input) Y⟩
        intro _
        refine ⟨by rw [hext.2.1, hE]; simp, ?_⟩
        exact (present_enum_iff h e false p.TypeName).2 (Or.inl ⟨rfl, hekey.symm⟩)
    · rw [if_neg hen] at hrun
      simp only [Res.ok.injEq] at hrun
      subst hrun
      exact ⟨⟨extends_refl h, reach_refl fs roots h⟩,
        ⟨fun hc => absurd hc hty, fun hc => absurd hc hen⟩, id, id⟩

/-- What a returning visit `buildTypesFromMessage(m, input)` of an indexed
message does: the state is extended by writes of the pass; `m` ends up a key of
the table selected by `input`, or erased when it has zero fields; reference
closure of either table is preserved. -/
theorem buildTypesFromMessage_spec (fs : List FileDescriptor) (roots : Roots) (input : Bool)
    (fuel : Nat) :
    ∀ (g g' : Generator) (m : MessageDescriptor) (X Y : List String),
      IndexSound fs g → g.messages.get? m.FullName = some m →
      (roots.message input m ∨ ∃ m0 ∈ allMessages fs, Present g input m0.FullName ∧
        ∃ p ∈ m0.Field, p.FType = FieldType.TYPE_MESSAGE ∧ p.TypeName = m.FullName) →
      buildTypesFromMessage fuel g m input = Res.ok g' →
      (Extends g g' ∧ Reach fs roots g g') ∧
      (Present g' input m.FullName ∨
        (m.Field = [] ∧ g'.emptyMessages.getBool m.FullName = true)) ∧
      (Closed g input X → Closed g' input X) ∧
      (Closed g (!input) Y → Closed g' (!input) Y) := by
  induction fuel with
  | zero =>
    intro g g' m X Y _ _ _ hrun
    simp [buildTypesFromMessage] at hrun
  | succ fuel ih =>
    intro g g' m X Y hsound hidx horigin hrun
    have hm : m ∈ allMessages fs := (hsound.1 _ _ hidx).1
    unfold buildTypesFromMessage at hrun
    by_cases hnamed : (g.nameMap input).getStr m.FullName ≠ ""
    · rw [if_pos hnamed] at hrun
      simp only [Res.ok.injEq] at hrun
      subst hrun
      refine ⟨⟨extends_refl g, reach_refl fs roots g⟩, Or.inl ?_, id, id⟩
      obtain ⟨v, hv, _⟩ := (GoMap.getStr_ne_empty_iff _ _).1 hnamed
      unfold Present
      rw [hv]
      simp
    · rw [if_neg hnamed] at hrun
      by_cases hlen : m.Field.length = 0
      · rw [if_pos hlen] at hrun
        simp only [Res.ok.injEq] at hrun
        subst hrun
        have hzero : m.Field = [] := List.length_eq_zero.1 hlen
        have hext := extends_erase g m.FullName
        have hclosed : ∀ (i : Bool) (Z : List String), Closed g i Z →
            Closed { g with emptyMessages := g.emptyMessages.set m.FullName true } i Z := by
          intro i Z
          apply closed_of_extends hext
          intro k m' _ hpk hnot
          refine ⟨?_, hnot⟩
          cases i <;> exact hpk
        refine ⟨⟨hext, reach_step (Step.erase g m hm hzero)⟩, Or.inr ⟨hzero, ?_⟩,
          hclosed input X, hclosed (!input) Y⟩
        simp [GoMap.getBool_set]
      · rw [if_neg hlen] at hrun
        have hfields : m.Field ≠ [] := fun h => hlen (by rw [h]; rfl)
        have hfresh : (g.nameMap input).getStr m.FullName = "" := by
          simpa using hnamed
        have hstep : Step fs roots g (g.setName input m.FullName (messageTypeName m input)) :=
          Step.nameMessage g m input hm hfields (by rw [hidx]; simp) hfresh horigin
        have hext1 := extends_setName g input m.FullName (messageTypeName m input)
        have hpres1 : Present (g.setName input m.FullName (messageTypeName m input)) input
            m.FullName := (present_setName_iff g input input _ _ _).2 (Or.inl ⟨rfl, rfl⟩)
        have hc1 : Closed g input X →
            Closed (g.setName input m.FullName (messageTypeName m input)) input
              (m.FullName :: X) := by
          apply closed_of_extends hext1
          intro k m' _ hpk hnot
          rcases (present_setName_iff g input input _ _ _).1 hpk with ⟨_, hk⟩ | hold
          · exact absurd (by rw [hk]; exact List.mem_cons_self _ _) hnot
          · exact ⟨hold, fun hin => hnot (List.mem_cons_of_mem _ hin)⟩
        have hc2 : Closed g (!input) Y →
            Closed (g.setName input m.FullName (messageTypeName m input)) (!input) Y := by
          apply closed_of_extends hext1
          intro k m' _ hpk hnot
          rcases (present_setName_iff g input (!input) _ _ _).1 hpk with ⟨hb, _⟩ | hold
          · cases input <;> simp at hb
          · exact ⟨hold, hnot⟩
        obtain ⟨hJ, hR, hQ⟩ := forEach_partial
          (visitField (fun h name =>
            match h.messages.get? name with
            | none => Res.fault Fault.nilDereference
            | some referenced => buildTypesFromMessage fuel h referenced input))
          (fun h => Extends (g.setName input m.FullName (messageTypeName m input)) h ∧
            (Closed g input X → Closed h input (m.FullName :: X)) ∧
            (Closed g (!input) Y → Closed h (!input) Y))
          (fun a b => Extends a b ∧ Reach fs roots a b)
          (fun p h => FieldSettled h input p)
          (fun a => ⟨extends_refl a, reach_refl fs roots a⟩)
          (fun _ _ _ h1 h2 => ⟨extends_trans h1.1 h2.1, reach_trans h1.2 h2.2⟩)
          (fun _ _ _ hq hab => fieldSettled_mono hq hab.1)
          m.Field
          (by
            intro p hp h h' hJ hbody
            have hsoundh : IndexSound fs h :=
              indexSound_of_extends hsound (extends_trans hext1 hJ.1)
            obtain ⟨hER, hset, hk1, hk2⟩ := visitField_spec fs roots input fuel ih m hm
              (m.FullName :: X) Y p hp h h' hsoundh (hJ.1.2.2.1 _ _ hpres1) hbody
            exact ⟨⟨extends_trans hJ.1 hER.1, fun hc => hk1 (hJ.2.1 hc),
              fun hc => hk2 (hJ.2.2 hc)⟩, hER, hset⟩)
          _ g' ⟨extends_refl _, hc1, hc2⟩ hrun
        have hext : Extends g g' := extends_trans hext1 hJ.1
        refine ⟨⟨hext, reach_trans (reach_step hstep) hR.2⟩,
          Or.inl (hJ.1.2.2.1 _ _ hpres1), ?_, hJ.2.2⟩
        intro hc k m' hk hpk hnot p hpm
        by_cases hkm : k = m.FullName
        · rw [hext.1, hkm, hidx] at hk
          cases hk
          exact hQ p hpm
        · exact hJ.2.1 hc k m' hk hpk
            (fun hin => by
              rcases List.mem_cons.1 hin with h1 | h1
              · exact hkm h1
              · exact hnot h1) p hpm

/-! ## The lookup index -/

theorem allMessages_append (a b : List FileDescriptor) :
    allMessages (a ++ b) = allMessages a ++ allMessages b := by
  simp [allMessages]

theorem allEnums_append (a b : List FileDescriptor) :
    allEnums (a ++ b) = allEnums a ++ allEnums b := by
  simp [allEnums]

theorem allServices_append (a b : List FileDescriptor) :
    allServices (a ++ b) = allServices a ++ allServices b := by
  simp [allServices]

theorem allMethods_append (a b : List FileDescriptor) :
    allMethods (a ++ b) = allMethods a ++ allMethods b := by
  simp [allMethods, allServices_append]

theorem allMessages_single (f : FileDescriptor) : allMessages [f] = f.Messages := by
  simp [allMessages]

theorem allEnums_single (f : FileDescriptor) : allEnums [f] = f.Enums := by
  simp [allEnums]

theorem mem_allMessages_of_mem {fs : List FileDescriptor} {f : FileDescriptor}
    {m : MessageDescriptor} (hf : f ∈ fs) (hm : m ∈ f.Messages) : m ∈ allMessages fs := by
  simp only [allMessages, List.mem_flatten, List.mem_map]
  exact ⟨f.Messages, ⟨f, hf, rfl⟩, hm⟩

theorem mem_allEnums_of_mem {fs : List FileDescriptor} {f : FileDescriptor}
    {e : EnumDescriptor} (hf : f ∈ fs) (he : e ∈ f.Enums) : e ∈ allEnums fs := by
  simp only [allEnums, List.mem_flatten, List.mem_map]
  exact ⟨f.Enums, ⟨f, hf, rfl⟩, he⟩

theorem mem_allServices_of_mem {fs : List FileDescriptor} {f : FileDescriptor}
    {s : ServiceDescriptor} (hf : f ∈ fs) (hs : s ∈ f.Services) :
    (f.Package, s) ∈ allServices fs := by
  simp only [allServices, List.mem_flatten, List.mem_map]
  exact ⟨f.Services.map (fun s => (f.Package, s)), ⟨f, hf, rfl⟩, List.mem_map.2 ⟨s, hs, rfl⟩⟩

theorem mem_allMethods_of_mem {fs : List FileDescriptor} {f : FileDescriptor}
    {s : ServiceDescriptor} {method : MethodDescriptorProto} (hf : f ∈ fs)
    (hs : s ∈ f.Services) (hmeth : method ∈ s.Method) : method ∈ allMethods fs := by
  simp only [allMethods, List.mem_flatten, List.mem_map]
  exact ⟨s.Method, ⟨(f.Package, s), mem_allServices_of_mem hf hs, rfl⟩, hmeth⟩

theorem registerMessages_eq (ms : List MessageDescriptor) (g : Generator) :
    ms.foldl (fun (h : Generator) message =>
        { h with messages := h.messages.set message.FullName message }) g =
      { g with messages := ms.reverse.map (fun m => (m.FullName, m)) ++ g.messages } := by
  induction ms generalizing g with
  | nil => simp
  | cons m rest ih =>
    rw [List.foldl_cons, ih]
    simp [GoMap.set]

theorem registerEnums_eq (es : List EnumDescriptor) (g : Generator) :
    es.foldl (fun (h : Generator) enum =>
        { h with enums := h.enums.set enum.FullName enum }) g =
      { g with enums := es.reverse.map (fun e => (e.FullName, e)) ++ g.enums } := by
  induction es generalizing g with
  | nil => simp
  | cons e rest ih =>
    rw [List.foldl_cons, ih]
    simp [GoMap.set]

theorem registerFile_eq (g : Generator) (f : FileDescriptor) :
    registerFile g f =
      { g with
        messages := f.Messages.reverse.map (fun m => (m.FullName, m)) ++ g.messages,
        enums := f.Enums.reverse.map (fun e => (e.FullName, e)) ++ g.enums } := by
  unfold registerFile
  simp only [registerMessages_eq, registerEnums_eq]

theorem registerFile_messages (g : Generator) (f : FileDescriptor) (pre : List FileDescriptor)
    (h : g.messages = messageIndex pre) :
    (registerFile g f).messages = messageIndex (pre ++ [f]) := by
  rw [registerFile_eq]
  simp [messageIndex, allMessages_append, allMessages_single, h]

theorem registerFile_enums (g : Generator) (f : FileDescriptor) (pre : List FileDescriptor)
    (h : g.enums = enumIndex pre) :
    (registerFile g f).enums = enumIndex (pre ++ [f]) := by
  rw [registerFile_eq]
  simp [enumIndex, allEnums_append, allEnums_single, h]

theorem mem_messageIndex {known : List FileDescriptor} {k : String} {m : MessageDescriptor}
    (h : (k, m) ∈ messageIndex known) : m ∈ allMessages known ∧ m.FullName = k := by
  simp only [messageIndex, List.mem_map, List.mem_reverse, Prod.mk.injEq] at h
  obtain ⟨m', hm', hk, hm⟩ := h
  subst hm
  exact ⟨hm', hk⟩

theorem mem_enumIndex {known : List FileDescriptor} {k : String} {e : EnumDescriptor}
    (h : (k, e) ∈ enumIndex known) : e ∈ allEnums known ∧ e.FullName = k := by
  simp only [enumIndex, List.mem_map, List.mem_reverse, Prod.mk.injEq] at h
  obtain ⟨e', he', hk, he⟩ := h
  subst he
  exact ⟨he', hk⟩

theorem messageIndex_get? {fs known : List FileDescriptor} (hnames : NamesDistinct fs)
    (hsub : ∀ m ∈ allMessages known, m ∈ allMessages fs) {m : MessageDescriptor}
    (hm : m ∈ allMessages known) : (messageIndex known).get? m.FullName = some m := by
  have hmem : (m.FullName, m) ∈ messageIndex known := by
    simp only [messageIndex, List.mem_map, List.mem_reverse]
    exact ⟨m, hm, rfl⟩
  obtain ⟨m', hm'⟩ := Option.ne_none_iff_exists'.1 (GoMap.get?_ne_none_of_mem _ _ _ hmem)
  obtain ⟨h1, h2⟩ := mem_messageIndex (GoMap.mem_of_get? _ _ _ hm')
  rw [hm', hnames.1 m' (hsub m' h1) m (hsub m hm) h2]

theorem enumIndex_get? {fs known : List FileDescriptor} (hnames : NamesDistinct fs)
    (hsub : ∀ e ∈ allEnums known, e ∈ allEnums fs) {e : EnumDescriptor}
    (he : e ∈ allEnums known) : (enumIndex known).get? e.FullName = some e := by
  have hmem : (e.FullName, e) ∈ enumIndex known := by
    simp only [enumIndex, List.mem_map, List.mem_reverse]
    exact ⟨e, he, rfl⟩
  obtain ⟨e', he'⟩ := Option.ne_none_iff_exists'.1 (GoMap.get?_ne_none_of_mem _ _ _ hmem)
  obtain ⟨h1, h2⟩ := mem_enumIndex (GoMap.mem_of_get? _ _ _ he')
  rw [he', hnames.2.1 e' (hsub e' h1) e (hsub e he) h2]

/-- The index built from a prefix `known` of the files of a graph with distinct
names is sound. -/
theorem indexSound_of_index {fs known : List FileDescriptor} (hnames : NamesDistinct fs)
    (hsubm : ∀ m ∈ allMessages known, m ∈ allMessages fs)
    (hsube : ∀ e ∈ allEnums known, e ∈ allEnums fs) (g : Generator)
    (hm : g.messages = messageIndex known) (he : g.enums = enumIndex known) :
    IndexSound fs g := by
  refine ⟨?_, ?_, ?_⟩
  · intro k m hk
    rw [hm] at hk
    obtain ⟨h1, h2⟩ := mem_messageIndex (GoMap.mem_of_get? _ _ _ hk)
    exact ⟨hsubm m h1, h2⟩
  · intro k e hk
    rw [he] at hk
    obtain ⟨h1, h2⟩ := mem_enumIndex (GoMap.mem_of_get? _ _ _ hk)
    exact ⟨hsube e h1, h2⟩
  · intro k e hk
    rw [he] at hk
    obtain ⟨h1, h2⟩ := mem_enumIndex (GoMap.mem_of_get? _ _ _ hk)
    cases hmk : g.messages.get? k with
    | none => rfl
    | some m =>
      rw [hm] at hmk
      obtain ⟨h3, h4⟩ := mem_messageIndex (GoMap.mem_of_get? _ _ _ hmk)
      exact absurd (h4.trans h2.symm) (hnames.2.2.1 m (hsubm m h3) e (hsube e h1))

/-! ## Soundness of the tables along the writes of the pass -/

theorem tablesSound_step {fs : List FileDescriptor} {roots : Roots} {g h : Generator}
    (hstep : Step fs roots g h) (hs : TablesSound fs g) : TablesSound fs h := by
  obtain ⟨hout, hin, her⟩ := hs
  cases hstep with
  | registerMessage m hm =>
    refine ⟨?_, ?_, her⟩
    · intro k n hk
      rcases hout k n hk with ⟨m', h1, h2, h3, h4, h5⟩ | h' | h'
      · exact Or.inl ⟨m', h1, h2, h3, h4,
          (GoMap.get?_set_ne_none_iff _ _ _ _).2 (Or.inr h5)⟩
      · exact Or.inr (Or.inl h')
      · exact Or.inr (Or.inr h')
    · intro k n hk
      obtain ⟨m', h1, h2, h3, h4, h5⟩ := hin k n hk
      exact ⟨m', h1, h2, h3, h4, (GoMap.get?_set_ne_none_iff _ _ _ _).2 (Or.inr h5)⟩
  | registerEnum e he => exact ⟨hout, hin, her⟩
  | erase m hm hzero =>
    refine ⟨hout, hin, ?_⟩
    intro k b hk
    simp only [GoMap.get?_set] at hk
    by_cases hkm : m.FullName = k
    · simp only [hkm, if_true, Option.some.injEq] at hk
      exact ⟨hk.symm, m, hm, hkm, hzero⟩
    · simp only [hkm, if_false] at hk
      exact her k b hk
  | nameMessage m input hm hfields hindexed hfresh horigin =>
    cases input
    · refine ⟨?_, hin, her⟩
      intro k n hk
      have hk' : (g.typeNameMap.set m.FullName (messageTypeName m false)).get? k = some n := hk
      rw [GoMap.get?_set] at hk'
      by_cases hkm : m.FullName = k
      · simp only [hkm, if_true, Option.some.injEq] at hk'
        exact Or.inl ⟨m, hm, hkm, hfields, hk'.symm, by rw [← hkm]; exact hindexed⟩
      · simp only [hkm, if_false] at hk'
        exact hout k n hk'
    · refine ⟨hout, ?_, her⟩
      intro k n hk
      have hk' : (g.inputNameMap.set m.FullName (messageTypeName m true)).get? k = some n := hk
      rw [GoMap.get?_set] at hk'
      by_cases hkm : m.FullName = k
      · simp only [hkm, if_true, Option.some.injEq] at hk'
        exact ⟨m, hm, hkm, hfields, hk'.symm, by rw [← hkm]; exact hindexed⟩
      · simp only [hkm, if_false] at hk'
        exact hin k n hk'
  | nameEnum e he horigin =>
    refine ⟨?_, hin, her⟩
    intro k n hk
    have hk' : (g.typeNameMap.set e.FullName (enumTypeName e)).get? k = some n := hk
    rw [GoMap.get?_set] at hk'
    by_cases hkm : e.FullName = k
    · simp only [hkm, if_true, Option.some.injEq] at hk'
      exact Or.inr (Or.inl ⟨e, he, hkm, hk'.symm⟩)
    · simp only [hkm, if_false] at hk'
      exact hout k n hk'
  | nameService f s hf hs =>
    refine ⟨?_, hin, her⟩
    intro k n hk
    simp only [GoMap.get?_set] at hk
    by_cases hkm : s.FullName = k
    · simp only [hkm, if_true, Option.some.injEq] at hk
      exact Or.inr (Or.inr ⟨(f.Package, s), mem_allServices_of_mem hf hs, hkm, hk.symm⟩)
    · simp only [hkm, if_false] at hk
      exact hout k n hk

theorem tablesSound_reach {fs : List FileDescriptor} {roots : Roots} {g h : Generator}
    (hreach : Reach fs roots g h) (hs : TablesSound fs g) : TablesSound fs h := by
  induction hreach with
  | refl => exact hs
  | tail _ hstep ih => exact tablesSound_step hstep ih

theorem tablesSound_reset (fs : List FileDescriptor) (g : Generator) :
    TablesSound fs g.reset := by
  refine ⟨?_, ?_, ?_⟩ <;> intro k n hk <;> simp [Generator.reset, GoMap.get?] at hk

/-- In a sound state over a graph with distinct names, a declared message is a
key of a name table only if it has fields and is indexed, and the value is the
name built for it. -/
theorem message_key_sound {fs : List FileDescriptor} {g : Generator}
    (hnames : NamesDistinct fs) (hs : TablesSound fs g) {m : MessageDescriptor}
    (hm : m ∈ allMessages fs) (input : Bool) {n : String}
    (hk : (g.nameMap input).get? m.FullName = some n) :
    m.Field ≠ [] ∧ n = messageTypeName m input ∧ g.messages.get? m.FullName ≠ none := by
  cases input
  · rcases hs.1 _ _ hk with ⟨m', h1, h2, h3, h4, h5⟩ | ⟨e, h1, h2, _⟩ | ⟨s, h1, h2, _⟩
    · have := hnames.1 m' h1 m hm h2
      subst this
      exact ⟨h3, h4, h5⟩
    · exact absurd h2.symm (hnames.2.2.1 m hm e h1)
    · exact absurd h2.symm (hnames.2.2.2.1 m hm s h1)
  · obtain ⟨m', h1, h2, h3, h4, h5⟩ := hs.2.1 _ _ hk
    have := hnames.1 m' h1 m hm h2
    subst this
    exact ⟨h3, h4, h5⟩

/-! ## Frame properties -/

theorem frame_step {fs : List FileDescriptor} {roots : Roots} {g h : Generator}
    (hstep : Step fs roots g h) : h.req = g.req ∧ h.params = g.params ∧ h.files = g.files := by
  cases hstep with
  | registerMessage m hm => exact ⟨rfl, rfl, rfl⟩
  | registerEnum e he => exact ⟨rfl, rfl, rfl⟩
  | erase m hm hzero => exact ⟨rfl, rfl, rfl⟩
  | nameMessage m input hm hfields hindexed hfresh horigin =>
    cases input <;> exact ⟨rfl, rfl, rfl⟩
  | nameEnum e he horigin => exact ⟨rfl, rfl, rfl⟩
  | nameService f s hf hs => exact ⟨rfl, rfl, rfl⟩

theorem frame_reach {fs : List FileDescriptor} {roots : Roots} {g h : Generator}
    (hreach : Reach fs roots g h) :
    h.req = g.req ∧ h.params = g.params ∧ h.files = g.files := by
  induction hreach with
  | refl => exact ⟨rfl, rfl, rfl⟩
  | tail _ hstep ih =>
    obtain ⟨h1, h2, h3⟩ := frame_step hstep
    exact ⟨h1.trans ih.1, h2.trans ih.2.1, h3.trans ih.2.2⟩

theorem grows_refl (g : Generator) : Grows g g :=
  ⟨fun _ _ h => h, fun _ _ h => h, fun _ _ h => h, fun _ h => h⟩

theorem grows_trans {a b c : Generator} (h1 : Grows a b) (h2 : Grows b c) : Grows a c :=
  ⟨fun k m h => h2.1 k m (h1.1 k m h), fun k e h => h2.2.1 k e (h1.2.1 k e h),
    fun i k h => h2.2.2.1 i k (h1.2.2.1 i k h), fun k h => h2.2.2.2 k (h1.2.2.2 k h)⟩

theorem grows_of_extends {g h : Generator} (hext : Extends g h) : Grows g h :=
  ⟨fun k m hk => by rw [hext.1]; exact hk, fun k e hk => by rw [hext.2.1]; exact hk,
    hext.2.2.1, hext.2.2.2⟩

theorem fieldSettled_grows {g h : Generator} {input : Bool} {p : FieldDescriptorProto}
    (hs : FieldSettled g input p) (hgr : Grows g h) : FieldSettled h input p := by
  refine ⟨?_, ?_⟩
  · intro hty
    obtain ⟨B, hB, hset⟩ := hs.1 hty
    refine ⟨B, hgr.1 _ _ hB, ?_⟩
    rcases hset with hp | ⟨hz, he⟩
    · exact Or.inl (hgr.2.2.1 _ _ hp)
    · exact Or.inr ⟨hz, hgr.2.2.2 _ he⟩
  · intro hty
    obtain ⟨h1, h2⟩ := hs.2 hty
    obtain ⟨e, he⟩ := Option.ne_none_iff_exists'.1 h1
    exact ⟨by rw [hgr.2.1 _ _ he]; simp, hgr.2.2.1 _ _ h2⟩

theorem nameSettled_grows {fs : List FileDescriptor} {g h : Generator} {input : Bool}
    {t : String} (hs : NameSettled fs g input t) (hgr : Grows g h) :
    NameSettled fs h input t := by
  obtain ⟨B, hB, hk, hset⟩ := hs
  refine ⟨B, hB, hk, ?_⟩
  rcases hset with hp | ⟨hz, he⟩
  · exact Or.inl (hgr.2.2.1 _ _ hp)
  · exact Or.inr ⟨hz, hgr.2.2.2 _ he⟩

theorem achieved_grows {fs done : List FileDescriptor} {g h : Generator}
    (ha : Achieved fs done g) (hgr : Grows g h) (hparams : h.params = g.params) :
    Achieved fs done h := by
  obtain ⟨h1, h2, h3⟩ := ha
  refine ⟨fun m hm => nameSettled_grows (h1 m hm) hgr, ?_, ?_⟩
  · intro hsto m hm
    rw [hparams] at hsto
    exact nameSettled_grows (h2 hsto m hm) hgr
  · intro hsto
    rw [hparams] at hsto
    exact ⟨fun m hm => nameSettled_grows ((h3 hsto).1 m hm) hgr,
      fun e he => hgr.2.2.1 _ _ ((h3 hsto).2 e he)⟩

/-! ## Registration of a file -/

theorem registerMessages_reach (fs : List FileDescriptor) (roots : Roots)
    (ms : List MessageDescriptor) (hms : ∀ m ∈ ms, m ∈ allMessages fs) (g : Generator) :
    Reach fs roots g (ms.foldl (fun (h : Generator) message =>
        { h with messages := h.messages.set message.FullName message }) g) := by
  induction ms generalizing g with
  | nil => exact reach_refl fs roots g
  | cons m rest ih =>
    rw [List.foldl_cons]
    exact reach_trans (reach_step (Step.registerMessage g m (hms m (List.mem_cons_self _ _))))
      (ih (fun x hx => hms x (List.mem_cons_of_mem _ hx)) _)

theorem registerEnums_reach (fs : List FileDescriptor) (roots : Roots)
    (es : List EnumDescriptor) (hes : ∀ e ∈ es, e ∈ allEnums fs) (g : Generator) :
    Reach fs roots g (es.foldl (fun (h : Generator) enum =>
        { h with enums := h.enums.set enum.FullName enum }) g) := by
  induction es generalizing g with
  | nil => exact reach_refl fs roots g
  | cons e rest ih =>
    rw [List.foldl_cons]
    exact reach_trans (reach_step (Step.registerEnum g e (hes e (List.mem_cons_self _ _))))
      (ih (fun x hx => hes x (List.mem_cons_of_mem _ hx)) _)

theorem registerFile_reach (fs : List FileDescriptor) (roots : Roots) (f : FileDescriptor)
    (hf : f ∈ fs) (g : Generator) : Reach fs roots g (registerFile g f) := by
  unfold registerFile
  exact reach_trans
    (registerMessages_reach fs roots f.Messages (fun m hm => mem_allMessages_of_mem hf hm) g)
    (registerEnums_reach fs roots f.Enums (fun e he => mem_allEnums_of_mem hf he) _)

theorem registerFile_grows {fs pre : List FileDescriptor} (f : FileDescriptor)
    (hnames : NamesDistinct fs)
    (hsubm : ∀ m ∈ allMessages (pre ++ [f]), m ∈ allMessages fs)
    (hsube : ∀ e ∈ allEnums (pre ++ [f]), e ∈ allEnums fs) (g : Generator)
    (hm : g.messages = messageIndex pre) (he : g.enums = enumIndex pre) :
    Grows g (registerFile g f) := by
  refine ⟨?_, ?_, ?_, ?_⟩
  · intro k m hk
    rw [registerFile_messages g f pre hm]
    rw [hm] at hk
    obtain ⟨h1, h2⟩ := mem_messageIndex (GoMap.mem_of_get? _ _ _ hk)
    rw [← h2]
    exact messageIndex_get? hnames hsubm (by rw [allMessages_append]; exact List.mem_append_left _ h1)
  · intro k e hk
    rw [registerFile_enums g f pre he]
    rw [he] at hk
    obtain ⟨h1, h2⟩ := mem_enumIndex (GoMap.mem_of_get? _ _ _ hk)
    rw [← h2]
    exact enumIndex_get? hnames hsube (by rw [allEnums_append]; exact List.mem_append_left _ h1)
  · intro i k hk
    rw [registerFile_eq]
    cases i <;> exact hk
  · intro k hk
    rw [registerFile_eq]
    exact hk

/-- Registration of a file keeps the reference closure of a sound state. -/
theorem registerFile_closed {fs pre : List FileDescriptor} (f : FileDescriptor)
    (hnames : NamesDistinct fs)
    (hsubm : ∀ m ∈ allMessages (pre ++ [f]), m ∈ allMessages fs)
    (hsube : ∀ e ∈ allEnums (pre ++ [f]), e ∈ allEnums fs) (g : Generator)
    (hm : g.messages = messageIndex pre) (he : g.enums = enumIndex pre)
    (hs : TablesSound fs g) (input : Bool) (hc : Closed g input []) :
    Closed (registerFile g f) input [] := by
  have hgr := registerFile_grows f hnames hsubm hsube g hm he
  intro k m hk hp _ p hpm
  have hkm : m ∈ allMessages fs ∧ m.FullName = k := by
    rw [registerFile_messages g f pre hm] at hk
    obtain ⟨h1, h2⟩ := mem_messageIndex (GoMap.mem_of_get? _ _ _ hk)
    exact ⟨hsubm m h1, h2⟩
  have hp' : Present g input k := by
    rw [registerFile_eq] at hp
    cases input <;> exact hp
  obtain ⟨n, hn⟩ := Option.ne_none_iff_exists'.1 hp'
  rw [← hkm.2] at hn
  obtain ⟨_, _, hidx⟩ := message_key_sound hnames hs hkm.1 input hn
  obtain ⟨m', hm'⟩ := Option.ne_none_iff_exists'.1 hidx
  have hsame : m' = m := by
    have h1 := hgr.1 _ _ hm'
    rw [hkm.2, hk] at h1
    exact (Option.some.inj h1).symm
  subst hsame
  rw [hkm.2] at hm'
  exact fieldSettled_grows (hc k m' hm' hp' (by simp) p hpm) hgr

/-! ## The pass inside one file -/

theorem consistent_of_index {fs known : List FileDescriptor} {fuel : Nat}
    (hok : KnownOK fs known fuel) (h : Generator) (hm : h.messages = messageIndex known)
    (he : h.enums = enumIndex known) : Consistent h := by
  obtain ⟨hnames, hpaths, hsubm, hsube, hclosed, _⟩ := hok
  refine ⟨?_, ?_, ?_, ?_⟩
  · intro p hp f hf
    rw [hm] at hp
    obtain ⟨h1, _⟩ := mem_messageIndex (show (p.1, p.2) ∈ messageIndex known from hp)
    obtain ⟨hmsg, henum⟩ := hclosed p.2 h1 f hf
    refine ⟨fun hty => ?_, fun hty => ?_⟩
    · obtain ⟨m', hm', hname⟩ := List.mem_map.1 (hmsg hty)
      rw [hm, ← hname]
      apply GoMap.get?_ne_none_of_mem _ _ m'
      simp only [messageIndex, List.mem_map, List.mem_reverse]
      exact ⟨m', hm', rfl⟩
    · obtain ⟨e', he', hname⟩ := List.mem_map.1 (henum hty)
      rw [he, ← hname]
      apply GoMap.get?_ne_none_of_mem _ _ e'
      simp only [enumIndex, List.mem_map, List.mem_reverse]
      exact ⟨e', he', rfl⟩
  · intro p hp
    rw [hm] at hp
    obtain ⟨h1, _⟩ := mem_messageIndex (show (p.1, p.2) ∈ messageIndex known from hp)
    exact hpaths.1 p.2 (hsubm _ h1)
  · intro p hp
    rw [he] at hp
    obtain ⟨h1, _⟩ := mem_enumIndex (show (p.1, p.2) ∈ enumIndex known from hp)
    exact hpaths.2 p.2 (hsube _ h1)
  · intro p hp q hq
    rw [he] at hp
    rw [hm] at hq
    obtain ⟨h1, _⟩ := mem_enumIndex (show (p.1, p.2) ∈ enumIndex known from hp)
    obtain ⟨h2, _⟩ := mem_messageIndex (show (q.1, q.2) ∈ messageIndex known from hq)
    exact fun heq => hnames.2.2.1 q.2 (hsubm _ h2) p.2 (hsube _ h1) heq.symm

theorem fileStep_refl (fs : List FileDescriptor) (roots : Roots) (g : Generator) :
    FileStep fs roots g g := ⟨extends_refl g, reach_refl fs roots g⟩

theorem fileStep_trans {fs : List FileDescriptor} {roots : Roots} {a b c : Generator}
    (h1 : FileStep fs roots a b) (h2 : FileStep fs roots b c) : FileStep fs roots a c :=
  ⟨extends_trans h1.1 h2.1, reach_trans h1.2 h2.2⟩

theorem inFile_of_step {fs known : List FileDescriptor} {roots : Roots} {params : Parameters}
    {h h' : Generator} (hJ : InFile fs known params h) (hstep : FileStep fs roots h h')
    (hc1 : Closed h' false []) (hc2 : Closed h' true []) : InFile fs known params h' :=
  ⟨hstep.1.1.trans hJ.1, hstep.1.2.1.trans hJ.2.1, (frame_reach hstep.2).2.1.trans hJ.2.2.1,
    tablesSound_reach hstep.2 hJ.2.2.2.1, hc1, hc2⟩

/-- A top-level visit of a known message during the processing of a file. -/
theorem visit_inFile {fs known : List FileDescriptor} {roots : Roots} {params : Parameters}
    {fuel : Nat} (hok : KnownOK fs known fuel) (h : Generator)
    (hJ : InFile fs known params h) (m : MessageDescriptor) (hm : m ∈ allMessages known)
    (input : Bool) (hroot : roots.message input m) :
    ∃ h', buildTypesFromMessage fuel h m input = Res.ok h' ∧ InFile fs known params h' ∧
      FileStep fs roots h h' ∧ NameSettled fs h' input m.FullName := by
  have hcons := consistent_of_index hok h hJ.1 hJ.2.1
  obtain ⟨hnames, _, hsubm, hsube, _, hfuel⟩ := hok
  have hidx : h.messages.get? m.FullName = some m := by
    rw [hJ.1]
    exact messageIndex_get? hnames hsubm hm
  have hmem : m ∈ h.messages.map Prod.snd :=
    List.mem_map.2 ⟨(m.FullName, m), GoMap.mem_of_get? _ _ _ hidx, rfl⟩
  have hcount : unnamedCount h input < fuel := by
    have h1 : unnamedCount h input ≤ h.messages.length := by
      unfold unnamedCount
      exact List.length_filter_le _ _
    have h2 : h.messages.length = (allMessages known).length := by
      rw [hJ.1]
      simp [messageIndex]
    omega
  obtain ⟨h', hrun, _⟩ := buildTypesFromMessage_total input fuel h m hcons hmem hcount
  have hsound := indexSound_of_index hnames hsubm hsube h hJ.1 hJ.2.1
  obtain ⟨hstep, hset, hc1, hc2⟩ := buildTypesFromMessage_spec fs roots input fuel h h' m [] []
    hsound hidx (Or.inl hroot) hrun
  refine ⟨h', hrun, ?_, hstep, ⟨m, hsubm m hm, rfl, hset⟩⟩
  cases input
  · exact inFile_of_step hJ hstep (hc1 hJ.2.2.2.2.1) (hc2 hJ.2.2.2.2.2)
  · exact inFile_of_step hJ hstep (hc2 hJ.2.2.2.2.1) (hc1 hJ.2.2.2.2.2)

/-- A top-level visit through the index, `g.buildTypesFromMessage(g.messages[name], input)`. -/
theorem visitRef_inFile {fs known : List FileDescriptor} {roots : Roots} {params : Parameters}
    {fuel : Nat} (hok : KnownOK fs known fuel) (h : Generator)
    (hJ : InFile fs known params h) (name : String)
    (hname : name ∈ (allMessages known).map (fun m => m.FullName))
    (input : Bool) (hroot : ∀ m ∈ allMessages known, m.FullName = name → roots.message input m) :
    ∃ h', buildTypesFromMessageRef fuel input h name = Res.ok h' ∧ InFile fs known params h' ∧
      FileStep fs roots h h' ∧ NameSettled fs h' input name := by
  obtain ⟨m, hm, hmn⟩ := List.mem_map.1 hname
  have hidx : h.messages.get? name = some m := by
    rw [hJ.1, ← hmn]
    exact messageIndex_get? hok.1 hok.2.2.1 hm
  obtain ⟨h', hrun, hJ', hstep, hset⟩ := visit_inFile hok h hJ m hm input (hroot m hm hmn)
  refine ⟨h', ?_, hJ', hstep, by rw [← hmn]; exact hset⟩
  unfold buildTypesFromMessageRef
  rw [hidx]
  exact hrun

/-- The body of the method loop of `buildTypeMaps`. -/
theorem method_inFile {fs known : List FileDescriptor} {params : Parameters} {fuel : Nat}
    (hok : KnownOK fs known fuel) (h : Generator)
    (hJ : InFile fs known params h) (method : MethodDescriptorProto)
    (hmeth : method ∈ allMethods fs)
    (hin : method.InputType ∈ (allMessages known).map (fun m => m.FullName))
    (hout : method.OutputType ∈ (allMessages known).map (fun m => m.FullName)) :
    ∃ h', buildTypesFromMethod fuel h method = Res.ok h' ∧ InFile fs known params h' ∧
      FileStep fs (serviceRoots params fs) h h' ∧
      NameSettled fs h' true method.InputType ∧
      (params.ServiceTypesOnly = true → NameSettled fs h' false method.OutputType) := by
  unfold buildTypesFromMethod
  have hinRoot : ∀ m ∈ allMessages known, m.FullName = method.InputType →
      (serviceRoots params fs).message true m := by
    intro m _ hmn
    simp only [serviceRoots, if_true]
    exact ⟨method, hmeth, hmn.symm⟩
  have houtRoot : ∀ m ∈ allMessages known, m.FullName = method.OutputType →
      (serviceRoots params fs).message false m := by
    intro m _ hmn
    simp only [serviceRoots, Bool.false_eq_true, if_false]
    exact Or.inr ⟨method, hmeth, hmn.symm⟩
  by_cases hsto : params.ServiceTypesOnly = true
  · obtain ⟨h1, hrun1, hJ1, hstep1, hset1⟩ :=
      visitRef_inFile hok h hJ method.OutputType hout false houtRoot
    obtain ⟨h2, hrun2, hJ2, hstep2, hset2⟩ :=
      visitRef_inFile hok h1 hJ1 method.InputType hin true hinRoot
    refine ⟨h2, ?_, hJ2, fileStep_trans hstep1 hstep2, hset2, fun _ => ?_⟩
    · rw [hJ.2.2.1, if_pos hsto, hrun1]
      exact hrun2
    · exact nameSettled_grows hset1 (grows_of_extends hstep2.1)
  · obtain ⟨h2, hrun2, hJ2, hstep2, hset2⟩ :=
      visitRef_inFile hok h hJ method.InputType hin true hinRoot
    refine ⟨h2, ?_, hJ2, hstep2, hset2, fun hc => absurd hc hsto⟩
    rw [hJ.2.2.1, if_neg hsto]
    exact hrun2

/-- Naming a service or an enum adds a key that is no indexed message, so it
keeps reference closure. -/
theorem closed_of_new_key {fs known : List FileDescriptor} {params : Parameters} {h h' : Generator}
    (hJ : InFile fs known params h) (hext : Extends h h') (k0 : String)
    (hk0 : h.messages.get? k0 = none)
    (hnew : ∀ i k, Present h' i k → k = k0 ∨ Present h i k) :
    Closed h' false [] ∧ Closed h' true [] := by
  have hclosed : ∀ i, Closed h i [] → Closed h' i [] := by
    intro i
    apply closed_of_extends hext
    intro k m hk hp hnot
    rcases hnew i k hp with hk' | hold
    · rw [hk', hk0] at hk
      exact absurd hk (by simp)
    · exact ⟨hold, hnot⟩
  exact ⟨hclosed false hJ.2.2.2.2.1, hclosed true hJ.2.2.2.2.2⟩

/-- The body of the service loop of `buildTypeMaps`. -/
theorem service_inFile {fs known : List FileDescriptor} {params : Parameters} {fuel : Nat}
    (hok : KnownOK fs known fuel) (h : Generator)
    (hJ : InFile fs known params h) (f : FileDescriptor) (hf : f ∈ fs)
    (s : ServiceDescriptor) (hs : s ∈ f.Services)
    (hrefs : ∀ method ∈ s.Method,
      method.InputType ∈ (allMessages known).map (fun m => m.FullName) ∧
      method.OutputType ∈ (allMessages known).map (fun m => m.FullName)) :
    ∃ h', buildTypesFromService fuel f.Package h s = Res.ok h' ∧ InFile fs known params h' ∧
      FileStep fs (serviceRoots params fs) h h' ∧
      ∀ method ∈ s.Method, NameSettled fs h' true method.InputType ∧
        (params.ServiceTypesOnly = true → NameSettled fs h' false method.OutputType) := by
  have hsound := indexSound_of_index hok.1 hok.2.2.1 hok.2.2.2.1 h hJ.1 hJ.2.1
  have hstep1 : FileStep fs (serviceRoots params fs) h
      { h with typeNameMap := h.typeNameMap.set s.FullName (serviceTypeName f.Package s) } :=
    ⟨extends_setName h false s.FullName (serviceTypeName f.Package s),
      reach_step (Step.nameService h f s hf hs)⟩
  have hnomsg : h.messages.get? s.FullName = none := by
    cases hk : h.messages.get? s.FullName with
    | none => rfl
    | some m =>
      obtain ⟨h1, h2⟩ := hsound.1 _ _ hk
      exact absurd h2 (hok.1.2.2.2.1 m h1 (f.Package, s) (mem_allServices_of_mem hf hs))
  obtain ⟨hc1, hc2⟩ := closed_of_new_key hJ hstep1.1 s.FullName hnomsg
    (by
      intro i k hp
      rcases (present_setName_iff h false i s.FullName k _).1 hp with ⟨_, hk⟩ | hold
      · exact Or.inl hk
      · exact Or.inr hold)
  have hJ1 := inFile_of_step hJ hstep1 hc1 hc2
  obtain ⟨h', hrun, hJ', hstep', hQ⟩ := forEach_total (buildTypesFromMethod fuel)
    (InFile fs known params) (FileStep fs (serviceRoots params fs))
    (fun method h => NameSettled fs h true method.InputType ∧
      (params.ServiceTypesOnly = true → NameSettled fs h false method.OutputType))
    (fileStep_refl fs _) (fun _ _ _ h1 h2 => fileStep_trans h1 h2)
    (fun _ _ _ hq hab => ⟨nameSettled_grows hq.1 (grows_of_extends hab.1),
      fun hsto => nameSettled_grows (hq.2 hsto) (grows_of_extends hab.1)⟩)
    s.Method
    (by
      intro method hmethod g hg
      exact method_inFile hok g hg method (mem_allMethods_of_mem hf hs hmethod)
        (hrefs method hmethod).1 (hrefs method hmethod).2)
    _ hJ1
  exact ⟨h', hrun, hJ', fileStep_trans hstep1 hstep', hQ⟩

/-- The loop of `buildTypeMaps` over the messages of a file. -/
theorem messages_inFile {fs known : List FileDescriptor} {params : Parameters} {fuel : Nat}
    (hok : KnownOK fs known fuel) (hsto : params.ServiceTypesOnly = false) (h : Generator)
    (hJ : InFile fs known params h) (ms : List MessageDescriptor)
    (hms : ∀ m ∈ ms, m ∈ allMessages known) :
    ∃ h', forEach (fun h message => buildTypesFromMessage fuel h message false) ms h = Res.ok h' ∧
      InFile fs known params h' ∧ FileStep fs (serviceRoots params fs) h h' ∧
      ∀ m ∈ ms, NameSettled fs h' false m.FullName :=
  forEach_total (fun h message => buildTypesFromMessage fuel h message false)
    (InFile fs known params) (FileStep fs (serviceRoots params fs))
    (fun m h => NameSettled fs h false m.FullName)
    (fileStep_refl fs _) (fun _ _ _ h1 h2 => fileStep_trans h1 h2)
    (fun _ _ _ hq hab => nameSettled_grows hq (grows_of_extends hab.1))
    ms
    (by
      intro m hm g hg
      exact visit_inFile hok g hg m (hms m hm) false
        (by simp only [serviceRoots, Bool.false_eq_true, if_false]; exact Or.inl hsto))
    h hJ

/-- The loop of `buildTypeMaps` over the enums of a file. -/
theorem enums_inFile {fs known : List FileDescriptor} {params : Parameters} {fuel : Nat}
    (hok : KnownOK fs known fuel) (hsto : params.ServiceTypesOnly = false)
    (es : List EnumDescriptor) (hes : ∀ e ∈ es, e ∈ allEnums known) (h : Generator)
    (hJ : InFile fs known params h) :
    InFile fs known params (es.foldl buildTypesFromEnum h) ∧
      FileStep fs (serviceRoots params fs) h (es.foldl buildTypesFromEnum h) ∧
      ∀ e ∈ es, Present (es.foldl buildTypesFromEnum h) false e.FullName := by
  induction es generalizing h with
  | nil => exact ⟨hJ, fileStep_refl fs _ h, by simp⟩
  | cons e rest ih =>
    have hek : e ∈ allEnums known := hes e (List.mem_cons_self _ _)
    have hsound := indexSound_of_index hok.1 hok.2.2.1 hok.2.2.2.1 h hJ.1 hJ.2.1
    have hstep1 : FileStep fs (serviceRoots params fs) h (buildTypesFromEnum h e) :=
      ⟨extends_enum h e, reach_step (Step.nameEnum h e (hok.2.2.2.1 e hek) (Or.inl hsto))⟩
    have hnomsg : h.messages.get? e.FullName = none :=
      hsound.2.2 e.FullName e (by rw [hJ.2.1]; exact enumIndex_get? hok.1 hok.2.2.2.1 hek)
    obtain ⟨hc1, hc2⟩ := closed_of_new_key hJ hstep1.1 e.FullName hnomsg
      (by
        intro i k hp
        rcases (present_enum_iff h e i k).1 hp with ⟨_, hk⟩ | hold
        · exact Or.inl hk
        · exact Or.inr hold)
    have hJ1 := inFile_of_step hJ hstep1 hc1 hc2
    obtain ⟨hJ', hstep', hQ⟩ := ih (fun x hx => hes x (List.mem_cons_of_mem _ hx)) _ hJ1
    rw [List.foldl_cons]
    refine ⟨hJ', fileStep_trans hstep1 hstep', ?_⟩
    intro x hx
    rcases List.mem_cons.1 hx with rfl | hin
    · exact hstep'.1.2.2.1 _ _ ((present_enum_iff h x false x.FullName).2 (Or.inl ⟨rfl, rfl⟩))
    · exact hQ x hin

/-- The loop of `buildTypeMaps` over the services of a file. -/
theorem services_inFile {fs known : List FileDescriptor} {params : Parameters} {fuel : Nat}
    (hok : KnownOK fs known fuel) (h : Generator)
    (hJ : InFile fs known params h) (f : FileDescriptor) (hf : f ∈ fs)
    (hrefs : ∀ s ∈ f.Services, ∀ method ∈ s.Method,
      method.InputType ∈ (allMessages known).map (fun m => m.FullName) ∧
      method.OutputType ∈ (allMessages known).map (fun m => m.FullName)) :
    ∃ h', forEach (buildTypesFromService fuel f.Package) f.Services h = Res.ok h' ∧
      InFile fs known params h' ∧ FileStep fs (serviceRoots params fs) h h' ∧
      ∀ s ∈ f.Services, ∀ method ∈ s.Method, NameSettled fs h' true method.InputType ∧
        (params.ServiceTypesOnly = true → NameSettled fs h' false method.OutputType) :=
  forEach_total (buildTypesFromService fuel f.Package)
    (InFile fs known params) (FileStep fs (serviceRoots params fs))
    (fun s h => ∀ method ∈ s.Method, NameSettled fs h true method.InputType ∧
      (params.ServiceTypesOnly = true → NameSettled fs h false method.OutputType))
    (fileStep_refl fs _) (fun _ _ _ h1 h2 => fileStep_trans h1 h2)
    (fun _ _ _ hq hab method hmethod =>
      ⟨nameSettled_grows (hq method hmethod).1 (grows_of_extends hab.1),
        fun hsto => nameSettled_grows ((hq method hmethod).2 hsto) (grows_of_extends hab.1)⟩)
    f.Services
    (by
      intro s hs g hg
      exact service_inFile hok g hg f hf s hs (hrefs s hs))
    h hJ

theorem mem_allMethods_single {f : FileDescriptor} {method : MethodDescriptorProto}
    (h : method ∈ allMethods [f]) : ∃ s ∈ f.Services, method ∈ s.Method := by
  simp only [allMethods, allServices, List.map_cons, List.map_nil, List.flatten_cons,
    List.flatten_nil, List.append_nil, List.map_map, List.mem_flatten, List.mem_map,
    Function.comp] at h
  obtain ⟨l, ⟨s, hs, hl⟩, hm⟩ := h
  subst hl
  exact ⟨s, hs, hm⟩

/-- The body of the file loop of `buildTypeMaps`. -/
theorem file_spec {fs pre : List FileDescriptor} {fuel : Nat} (g0 g : Generator)
    (f : FileDescriptor) (hf : f ∈ fs) (hok : KnownOK fs (pre ++ [f]) fuel)
    (hrefs : FileRefs (pre ++ [f]) f) (hinv : FileInv fs pre g0 g) :
    ∃ g', buildTypesFromFile fuel g f = Res.ok g' ∧ FileInv fs (pre ++ [f]) g0 g' := by
  obtain ⟨hfiles, hparams, hmsgs, henums, hsound, hc1, hc2, hach, hreach⟩ := hinv
  have hreg := registerFile_reach fs (serviceRoots g0.params fs) f hf g
  have hgrow := registerFile_grows f hok.1 hok.2.2.1 hok.2.2.2.1 g hmsgs henums
  have hparams1 : (registerFile g f).params = g0.params := (frame_reach hreg).2.1.trans hparams
  have hJ1 : InFile fs (pre ++ [f]) g0.params (registerFile g f) :=
    ⟨registerFile_messages g f pre hmsgs, registerFile_enums g f pre henums, hparams1,
      tablesSound_reach hreg hsound,
      registerFile_closed f hok.1 hok.2.2.1 hok.2.2.2.1 g hmsgs henums hsound false hc1,
      registerFile_closed f hok.1 hok.2.2.1 hok.2.2.2.1 g hmsgs henums hsound true hc2⟩
  have hfm : ∀ m ∈ f.Messages, m ∈ allMessages (pre ++ [f]) := by
    intro m hm
    rw [allMessages_append, allMessages_single]
    exact List.mem_append_right _ hm
  have hfe : ∀ e ∈ f.Enums, e ∈ allEnums (pre ++ [f]) := by
    intro e he
    rw [allEnums_append, allEnums_single]
    exact List.mem_append_right _ he
  -- the state reached before the service loop, with what it has achieved
  have hmid : ∃ g3,
      (if ¬ (registerFile g f).params.ServiceTypesOnly = true then
          match forEach (fun h message => buildTypesFromMessage fuel h message false)
                  f.Messages (registerFile g f) with
          | Res.fault e => Res.fault e
          | Res.ok g2 => Res.ok (f.Enums.foldl buildTypesFromEnum g2)
        else Res.ok (registerFile g f)) = Res.ok g3 ∧
      InFile fs (pre ++ [f]) g0.params g3 ∧
      FileStep fs (serviceRoots g0.params fs) (registerFile g f) g3 ∧
      (g0.params.ServiceTypesOnly = false →
        (∀ m ∈ f.Messages, NameSettled fs g3 false m.FullName) ∧
        (∀ e ∈ f.Enums, Present g3 false e.FullName)) := by
    by_cases hsto : g0.params.ServiceTypesOnly = true
    · refine ⟨registerFile g f, ?_, hJ1, fileStep_refl fs _ _, fun hc => ?_⟩
      · rw [hparams1]
        simp [hsto]
      · rw [hsto] at hc
        exact absurd hc (by simp)
    · have hsto' : g0.params.ServiceTypesOnly = false := by simpa using hsto
      obtain ⟨g2, hrun2, hJ2, hstep2, hQ2⟩ :=
        messages_inFile hok hsto' (registerFile g f) hJ1 f.Messages hfm
      obtain ⟨hJ3, hstep3, hQ3⟩ := enums_inFile hok hsto' f.Enums hfe g2 hJ2
      refine ⟨f.Enums.foldl buildTypesFromEnum g2, ?_, hJ3, fileStep_trans hstep2 hstep3,
        fun _ => ⟨fun m hm => nameSettled_grows (hQ2 m hm) (grows_of_extends hstep3.1), hQ3⟩⟩
      rw [hparams1, if_pos hsto, hrun2]
  obtain ⟨g3, hrun3, hJ3, hstep3, hQ3⟩ := hmid
  obtain ⟨g', hrun, hJ', hstep', hQ'⟩ := services_inFile hok g3 hJ3 f hf hrefs.2
  have hstep : FileStep fs (serviceRoots g0.params fs) (registerFile g f) g' :=
    fileStep_trans hstep3 hstep'
  have hgrows : Grows g g' := grows_trans hgrow (grows_of_extends hstep.1)
  have hreachAll : Reach fs (serviceRoots g0.params fs) g g' := reach_trans hreg hstep.2
  have hparams' : g'.params = g.params := (frame_reach hreachAll).2.1
  refine ⟨g', ?_, (frame_reach hreachAll).2.2.trans hfiles, hparams'.trans hparams, hJ'.1,
    hJ'.2.1, hJ'.2.2.2.1, hJ'.2.2.2.2.1, hJ'.2.2.2.2.2, ?_, reach_trans hreach hreachAll⟩
  · unfold buildTypesFromFile
    simp only [hrun3]
    exact hrun
  · have hold := achieved_grows hach hgrows hparams'
    have hp : g'.params = g0.params := hparams'.trans hparams
    refine ⟨?_, ?_, ?_⟩
    · intro method hmethod
      rw [allMethods_append] at hmethod
      rcases List.mem_append.1 hmethod with h1 | h1
      · exact hold.1 method h1
      · obtain ⟨s, hs, hm⟩ := mem_allMethods_single h1
        exact (hQ' s hs method hm).1
    · intro hsto method hmethod
      rw [allMethods_append] at hmethod
      rcases List.mem_append.1 hmethod with h1 | h1
      · exact hold.2.1 hsto method h1
      · obtain ⟨s, hs, hm⟩ := mem_allMethods_single h1
        rw [hp] at hsto
        exact (hQ' s hs method hm).2 hsto
    · intro hsto
      have hsto0 : g0.params.ServiceTypesOnly = false := by rw [← hp]; exact hsto
      refine ⟨?_, ?_⟩
      · intro m hm
        rw [allMessages_append, allMessages_single] at hm
        rcases List.mem_append.1 hm with h1 | h1
        · exact (hold.2.2 hsto).1 m h1
        · exact nameSettled_grows ((hQ3 hsto0).1 m h1) (grows_of_extends hstep'.1)
      · intro e he
        rw [allEnums_append, allEnums_single] at he
        rcases List.mem_append.1 he with h1 | h1
        · exact (hold.2.2 hsto).2 e h1
        · exact hstep'.1.2.2.1 _ _ ((hQ3 hsto0).2 e h1)

/-! ## The whole pass -/

theorem knownClosed_snoc {pre : List FileDescriptor} {f : FileDescriptor}
    (hpre : KnownClosed pre) (hrefs : FileRefs (pre ++ [f]) f) : KnownClosed (pre ++ [f]) := by
  intro m hm p hp
  rw [allMessages_append, allMessages_single] at hm
  rcases List.mem_append.1 hm with h1 | h1
  · obtain ⟨hmsg, henum⟩ := hpre m h1 p hp
    refine ⟨fun hty => ?_, fun hty => ?_⟩
    · rw [allMessages_append, List.map_append]
      exact List.mem_append_left _ (hmsg hty)
    · rw [allEnums_append, List.map_append]
      exact List.mem_append_left _ (henum hty)
  · exact hrefs.1 m h1 p hp

/-- The file loop of `buildTypeMaps`, from any position. -/
theorem files_spec {fs : List FileDescriptor} {fuel : Nat} (g0 : Generator)
    (hnames : NamesDistinct fs) (hpaths : PathsNonempty fs)
    (hfuel : (allMessages fs).length < fuel) :
    ∀ (rest pre : List FileDescriptor) (g : Generator),
      (∀ fileDescriptor ∈ rest, g0.files.get? fileDescriptor.Name ≠ none) →
      fs = pre ++ rest.filterMap (fun fileDescriptor => g0.files.get? fileDescriptor.Name) →
      KnownClosed pre →
      RefsResolve pre (rest.filterMap (fun fileDescriptor => g0.files.get? fileDescriptor.Name)) →
      FileInv fs pre g0 g →
      ∃ g', forEach (buildTypesFromFileRef fuel) rest g = Res.ok g' ∧ FileInv fs fs g0 g' := by
  intro rest
  induction rest with
  | nil =>
    intro pre g _ hfs _ _ hinv
    simp only [List.filterMap_nil, List.append_nil] at hfs
    subst hfs
    exact ⟨g, rfl, hinv⟩
  | cons fd rest ih =>
    intro pre g hfiles hfs hclosed hrefs hinv
    obtain ⟨f, hf⟩ := Option.ne_none_iff_exists'.1 (hfiles fd (List.mem_cons_self _ _))
    have hfm : (fd :: rest).filterMap (fun fileDescriptor => g0.files.get? fileDescriptor.Name)
        = f :: rest.filterMap (fun fileDescriptor => g0.files.get? fileDescriptor.Name) := by
      simp [List.filterMap_cons, hf]
    rw [hfm] at hfs hrefs
    have hfs' : fs = (pre ++ [f]) ++
        rest.filterMap (fun fileDescriptor => g0.files.get? fileDescriptor.Name) := by
      rw [hfs]
      simp
    have hmem : f ∈ fs := by
      rw [hfs]
      simp
    have hok : KnownOK fs (pre ++ [f]) fuel := by
      refine ⟨hnames, hpaths, ?_, ?_, knownClosed_snoc hclosed hrefs.1, ?_⟩
      · intro m hm
        rw [hfs', allMessages_append]
        exact List.mem_append_left _ hm
      · intro e he
        rw [hfs', allEnums_append]
        exact List.mem_append_left _ he
      · have : (allMessages (pre ++ [f])).length ≤ (allMessages fs).length := by
          rw [hfs', allMessages_append (pre ++ [f]), List.length_append]
          omega
        omega
    obtain ⟨g1, hrun1, hinv1⟩ := file_spec g0 g f hmem hok hrefs.1 hinv
    obtain ⟨g', hrun', hinv'⟩ := ih (pre ++ [f]) g1
      (fun x hx => hfiles x (List.mem_cons_of_mem _ hx)) hfs' hok.2.2.2.2.1 hrefs.2 hinv1
    refine ⟨g', ?_, hinv'⟩
    have hlook : g.files.get? fd.Name = some f := by rw [hinv.1, hf]
    simp only [forEach, buildTypesFromFileRef, hlook, hrun1]
    exact hrun'

/-- The resolution pass over an internally consistent graph returns, and its
final state satisfies the invariant of the file loop for all files. -/
theorem buildTypeMaps_spec (g : Generator) (fuel : Nat) (hrun : RunOK g fuel) :
    ∃ g', buildTypeMaps fuel g = Res.ok g' ∧ FileInv g.reqFiles g.reqFiles g g' := by
  obtain ⟨hfiles, ⟨hnames, hpaths, hrefs⟩, hfuel⟩ := hrun
  have hinit : FileInv g.reqFiles [] g g.reset := by
    refine ⟨rfl, rfl, rfl, rfl, tablesSound_reset _ g, ?_, ?_, ⟨?_, ?_, ?_⟩, reach_refl _ _ _⟩
    · intro k m hk
      simp [Generator.reset, GoMap.get?] at hk
    · intro k m hk
      simp [Generator.reset, GoMap.get?] at hk
    · intro method hmethod
      simp [allMethods, allServices] at hmethod
    · intro _ method hmethod
      simp [allMethods, allServices] at hmethod
    · intro _
      exact ⟨fun m hm => by simp [allMessages] at hm, fun e he => by simp [allEnums] at he⟩
  have hclosed : KnownClosed [] := by
    intro m hm
    simp [allMessages] at hm
  exact files_spec g hnames hpaths hfuel g.req [] g.reset hfiles (by simp [Generator.reqFiles])
    hclosed hrefs hinit

/-! ## The final state of the pass -/

theorem messageTypeName_ne_empty {fs : List FileDescriptor} (hpaths : PathsNonempty fs)
    {m : MessageDescriptor} (hm : m ∈ allMessages fs) (input : Bool) :
    messageTypeName m input ≠ "" :=
  buildGraphqlTypeName_ne_empty _ (Or.inl (hpaths.1 m hm))

theorem message_getStr_of_present {fs : List FileDescriptor} {g : Generator}
    (hnames : NamesDistinct fs) (hpaths : PathsNonempty fs) (hs : TablesSound fs g)
    {m : MessageDescriptor} (hm : m ∈ allMessages fs) (input : Bool)
    (hp : Present g input m.FullName) :
    (g.nameMap input).getStr m.FullName = messageTypeName m input ∧
      (g.nameMap input).getStr m.FullName ≠ "" := by
  obtain ⟨n, hn⟩ := Option.ne_none_iff_exists'.1 hp
  have hval := (message_key_sound hnames hs hm input hn).2.1
  have hget : (g.nameMap input).getStr m.FullName = messageTypeName m input := by
    simp [GoMap.getStr, hn, hval]
  exact ⟨hget, by rw [hget]; exact messageTypeName_ne_empty hpaths hm input⟩

theorem enum_getStr_of_present {fs : List FileDescriptor} {g : Generator}
    (hnames : NamesDistinct fs) (hpaths : PathsNonempty fs) (hs : TablesSound fs g)
    {e : EnumDescriptor} (he : e ∈ allEnums fs) (hp : Present g false e.FullName) :
    g.typeNameMap.getStr e.FullName = enumTypeName e ∧ g.typeNameMap.getStr e.FullName ≠ "" := by
  obtain ⟨n, hn⟩ := Option.ne_none_iff_exists'.1 hp
  have hn' : g.typeNameMap.get? e.FullName = some n := hn
  have hval : n = enumTypeName e := by
    rcases hs.1 _ _ hn' with ⟨m, h1, h2, _⟩ | ⟨e', h1, h2, h3⟩ | ⟨s, h1, h2, _⟩
    · exact absurd h2 (hnames.2.2.1 m h1 e he)
    · rw [hnames.2.1 e' h1 e he h2] at h3
      exact h3
    · exact absurd h2.symm (hnames.2.2.2.2 e he s h1)
  have hget : g.typeNameMap.getStr e.FullName = enumTypeName e := by
    simp [GoMap.getStr, hn', hval]
  exact ⟨hget, by
    rw [hget]
    exact buildGraphqlTypeName_ne_empty _ (Or.inl (hpaths.2 e he))⟩

/-- The facts about the final state of the pass that the claims on the tables
use: soundness of index and tables, and reference closure of both tables. -/
theorem final_state_facts (g : Generator) (fuel : Nat) (hrun : RunOK g fuel) :
    ∃ g', buildTypeMaps fuel g = Res.ok g' ∧
      IndexSound g.reqFiles g' ∧ TablesSound g.reqFiles g' ∧
      (∀ m ∈ allMessages g.reqFiles, g'.messages.get? m.FullName = some m) ∧
      (∀ input, Closed g' input []) ∧ Achieved g.reqFiles g.reqFiles g' ∧
      g'.params = g.params := by
  obtain ⟨g', hok, hinv⟩ := buildTypeMaps_spec g fuel hrun
  obtain ⟨_, hparams, hmsgs, henums, hsound, hc1, hc2, hach, _⟩ := hinv
  have hnames : NamesDistinct g.reqFiles := hrun.2.1.1
  refine ⟨g', hok, indexSound_of_index hnames (fun _ h => h) (fun _ h => h) g' hmsgs henums,
    hsound, ?_, ?_, hach, hparams⟩
  · intro m hm
    rw [hmsgs]
    exact messageIndex_get? hnames (fun _ h => h) hm
  · intro input
    cases input
    · exact hc1
    · exact hc2

/-! ## Reading a built name back -/

theorem buildNameLoop_eq (isProtoMap : Bool) (n : Nat) (names : List String) :
    ∀ (i : Nat) (b : String), i + names.length = n →
      buildNameLoop isProtoMap n i names b =
        (effectivePath isProtoMap names).foldl (fun b s => b ++ "_" ++ CamelCase s) b := by
  induction names with
  | nil => intro i b _; rfl
  | cons name rest ih =>
    intro i b hlen
    cases rest with
    | nil =>
      have hi : i = n - 1 := by simp at hlen; omega
      simp [buildNameLoop, effectivePath, hi]
    | cons next rest' =>
      have hi : ¬ i = n - 1 := by simp at hlen; omega
      have hrec := ih (i + 1) (b ++ "_" ++ CamelCase name) (by simp at hlen ⊢; omega)
      simp only [buildNameLoop, hi, decide_False, Bool.and_false, Bool.false_eq_true, if_false]
        at hrec ⊢
      rw [hrec]
      simp [effectivePath]

theorem foldl_segments_data (segs : List String) (b : String) :
    (segs.foldl (fun b s => b ++ "_" ++ CamelCase s) b).data =
      b.data ++ (segs.map (fun s => '_' :: (CamelCase s).data)).flatten := by
  induction segs generalizing b with
  | nil => simp
  | cons s rest ih =>
    rw [List.foldl_cons, ih]
    simp [String.data_append]

theorem buildGraphqlTypeName_data (parts : graphqlTypeNameParts) :
    (buildGraphqlTypeName parts).data =
      (packagePrefix parts.Package).data ++
        ((effectivePath parts.IsProtoMap parts.TypeName).map
            (fun s => '_' :: (CamelCase s).data)).flatten ++
        (if parts.Input then "_Input".data else []) := by
  unfold buildGraphqlTypeName
  simp only
  rw [buildNameLoop_eq parts.IsProtoMap parts.TypeName.length parts.TypeName 0 _ (by simp)]
  by_cases hin : parts.Input = true
  · simp [hin, String.data_append, foldl_segments_data, packagePrefix]
  · simp [hin, foldl_segments_data, packagePrefix]

/-- A list of characters is empty or starts with an underscore. -/
theorem underscore_split (x y r1 r2 : List Char) (hx : '_' ∉ x) (hy : '_' ∉ y)
    (hr1 : r1 = [] ∨ ∃ t, r1 = '_' :: t) (hr2 : r2 = [] ∨ ∃ t, r2 = '_' :: t)
    (h : x ++ r1 = y ++ r2) : x = y ∧ r1 = r2 := by
  induction x generalizing y with
  | nil =>
    cases y with
    | nil => exact ⟨rfl, by simpa using h⟩
    | cons d y' =>
      exfalso
      simp only [List.nil_append, List.cons_append] at h
      rcases hr1 with h1 | ⟨t, h1⟩
      · rw [h1] at h
        exact absurd h (by simp)
      · rw [h1] at h
        have hd : d = '_' := (List.cons.inj h).1.symm
        exact hy (by rw [hd]; exact List.mem_cons_self _ _)
  | cons c x' ih =>
    cases y with
    | nil =>
      exfalso
      simp only [List.nil_append, List.cons_append] at h
      rcases hr2 with h2 | ⟨t, h2⟩
      · rw [h2] at h
        exact absurd h (by simp)
      · rw [h2] at h
        have hc : c = '_' := (List.cons.inj h).1
        exact hx (by rw [hc]; exact List.mem_cons_self _ _)
    | cons d y' =>
      simp only [List.cons_append, List.cons.injEq] at h
      obtain ⟨hcd, hrest⟩ := h
      obtain ⟨h1, h2⟩ := ih y' (fun hin => hx (List.mem_cons_of_mem _ hin))
        (fun hin => hy (List.mem_cons_of_mem _ hin)) hrest
      exact ⟨by rw [hcd, h1], h2⟩

theorem segments_headed (segs : List (List Char)) (tail : List Char)
    (htail : tail = [] ∨ ∃ t, tail = '_' :: t) :
    (segs.map (fun s => '_' :: s)).flatten ++ tail = [] ∨
      ∃ t, (segs.map (fun s => '_' :: s)).flatten ++ tail = '_' :: t := by
  cases segs with
  | nil => simpa using htail
  | cons s rest =>
    exact Or.inr ⟨s ++ ((rest.map (fun s => '_' :: s)).flatten ++ tail), by simp⟩

theorem segments_injective (xs ys : List (List Char)) (tail : List Char)
    (htail : tail = [] ∨ ∃ t, tail = '_' :: t)
    (hx : ∀ x ∈ xs, '_' ∉ x) (hy : ∀ y ∈ ys, '_' ∉ y)
    (h : (xs.map (fun s => '_' :: s)).flatten ++ tail =
      (ys.map (fun s => '_' :: s)).flatten ++ tail) : xs = ys := by
  induction xs generalizing ys with
  | nil =>
    cases ys with
    | nil => rfl
    | cons y ys' =>
      exfalso
      have hlen := congrArg List.length h
      simp at hlen
      omega
  | cons x xs' ih =>
    cases ys with
    | nil =>
      exfalso
      have hlen := congrArg List.length h
      simp at hlen
      omega
    | cons y ys' =>
      simp only [List.map_cons, List.flatten_cons, List.cons_append, List.append_assoc,
        List.cons.injEq, true_and] at h
      obtain ⟨h1, h2⟩ := underscore_split x y _ _ (hx x (List.mem_cons_self _ _))
        (hy y (List.mem_cons_self _ _)) (segments_headed xs' tail htail)
        (segments_headed ys' tail htail) h
      rw [h1, ih ys' (fun z hz => hx z (List.mem_cons_of_mem _ hz))
        (fun z hz => hy z (List.mem_cons_of_mem _ hz)) h2]

/-- Plain name parts with the same input flag and the same built name have the
same camel-cased package and the same effective path. -/
theorem buildGraphqlTypeName_injective (p1 p2 : graphqlTypeNameParts)
    (hinput : p1.Input = p2.Input) (h1 : PlainParts p1) (h2 : PlainParts p2)
    (h : buildGraphqlTypeName p1 = buildGraphqlTypeName p2) :
    packagePrefix p1.Package = packagePrefix p2.Package ∧
      effectivePath p1.IsProtoMap p1.TypeName = effectivePath p2.IsProtoMap p2.TypeName := by
  have hdata := congrArg String.data h
  rw [buildGraphqlTypeName_data, buildGraphqlTypeName_data, hinput] at hdata
  have hmap : ∀ (p : graphqlTypeNameParts), PlainParts p →
      (effectivePath p.IsProtoMap p.TypeName).map (fun s => '_' :: (CamelCase s).data) =
        ((effectivePath p.IsProtoMap p.TypeName).map String.data).map (fun s => '_' :: s) := by
    intro p hp
    rw [List.map_map]
    apply List.map_congr_left
    intro s hs
    simp [(hp.2 s hs).2]
  rw [hmap p1 h1, hmap p2 h2, List.append_assoc, List.append_assoc] at hdata
  have htail : (if p2.Input = true then "_Input".data else []) = [] ∨
      ∃ t, (if p2.Input = true then "_Input".data else []) = '_' :: t := by
    by_cases hi : p2.Input = true
    · right
      rw [if_pos hi]
      exact ⟨_, rfl⟩
    · left
      rw [if_neg hi]
  obtain ⟨hp, hrest⟩ := underscore_split _ _ _ _ h1.1 h2.1
    (segments_headed _ _ htail) (segments_headed _ _ htail) hdata
  have hsegs := segments_injective _ _ _ htail
    (by
      intro x hx
      obtain ⟨s, hs, hsx⟩ := List.mem_map.1 hx
      rw [← hsx]
      exact (h1.2 s hs).1)
    (by
      intro x hx
      obtain ⟨s, hs, hsx⟩ := List.mem_map.1 hx
      rw [← hsx]
      exact (h2.2 s hs).1)
    hrest
  refine ⟨String.ext hp, ?_⟩
  exact List.map_injective_iff.2 (fun a b hab => String.ext hab) hsegs

/-! ## Uniqueness of the assigned names -/

theorem enum_key_sound {fs : List FileDescriptor} {g : Generator} (hnames : NamesDistinct fs)
    (hs : TablesSound fs g) {e : EnumDescriptor} (he : e ∈ allEnums fs) {n : String}
    (hn : g.typeNameMap.get? e.FullName = some n) : n = enumTypeName e := by
  rcases hs.1 _ _ hn with ⟨m, h1, h2, _⟩ | ⟨e', h1, h2, h3⟩ | ⟨s, h1, h2, _⟩
  · exact absurd h2 (hnames.2.2.1 m h1 e he)
  · rw [hnames.2.1 e' h1 e he h2] at h3
    exact h3
  · exact absurd h2.symm (hnames.2.2.2.2 e he s h1)

theorem declared_value {fs : List FileDescriptor} {g : Generator} (hnames : NamesDistinct fs)
    (hs : TablesSound fs g) (input : Bool) {d : String × graphqlTypeNameParts}
    (hd : d ∈ declaredParts fs input) {n : String} (hn : (g.nameMap input).get? d.1 = some n) :
    n = buildGraphqlTypeName d.2 ∧ d.2.Input = input := by
  cases input
  · simp only [declaredParts, Bool.false_eq_true, if_false, List.mem_append, List.mem_map] at hd
    rcases hd with ⟨m, hm, rfl⟩ | ⟨e, he, rfl⟩
    · exact ⟨(message_key_sound hnames hs hm false hn).2.1, rfl⟩
    · exact ⟨enum_key_sound hnames hs he hn, rfl⟩
  · simp only [declaredParts, if_true, List.mem_map] at hd
    obtain ⟨m, hm, rfl⟩ := hd
    exact ⟨(message_key_sound hnames hs hm true hn).2.1, rfl⟩

/-- C2 refuted (name uniqueness). `Foo{ message Bar{ int32 x; } map<string, Bar>
bar; }` declares the sibling types `Foo.Bar` and `Foo.BarEntry` (the map-entry
type of `bar`). The full names of the graph are pairwise distinct, the pass
returns, and the two distinct keys `.pkg.Foo.Bar` and `.pkg.Foo.BarEntry` map to
the same target name in `typeNameMap` (`Pkg_Foo_Bar`) and in `inputNameMap`
(`Pkg_Foo_Bar_Input`): the name built for the map-entry type equals the name of
its sibling. -/
theorem map_entry_name_collision :
    NamesDistinct fooRequest.reqFiles ∧
    buildTypeMaps 4 fooRequest = Res.ok fooGenerator ∧
    fooBar.FullName ≠ fooBarEntry.FullName ∧
    fooGenerator.typeNameMap.get? fooBar.FullName = some "Pkg_Foo_Bar" ∧
    fooGenerator.typeNameMap.get? fooBarEntry.FullName = some "Pkg_Foo_Bar" ∧
    fooGenerator.inputNameMap.get? fooBar.FullName = some "Pkg_Foo_Bar_Input" ∧
    fooGenerator.inputNameMap.get? fooBarEntry.FullName = some "Pkg_Foo_Bar_Input" ∧
    buildGraphqlTypeName (messageParts fooBarEntry false) =
      buildGraphqlTypeName (messageParts fooBar false) := by
  refine ⟨by decide, by decide, by decide, by decide, by decide, by decide, by decide, by decide⟩

/-- C2 amended (name uniqueness). After `buildTypeMaps` on an internally
consistent graph with pairwise distinct full names, every declared message or
enum that is a key of `typeNameMap`, and every declared message that is a key
of `inputNameMap`, maps to the name `buildGraphqlTypeName` builds from its
parts; and two keys of the same table map to different target names whenever
their parts are plain (no underscore in the camel-cased package and in the
effective path segments, segments unchanged by `CamelCase`) and differ in the
camel-cased package or in the effective path, the path with the suffix `Entry`
stripped from the last segment of a map-entry type. -/
theorem built_names_unique (g : Generator) (fuel : Nat) (hrun : RunOK g fuel) :
    ∃ g', buildTypeMaps fuel g = Res.ok g' ∧
      ∀ (input : Bool), ∀ d1 ∈ declaredParts g.reqFiles input,
        ∀ d2 ∈ declaredParts g.reqFiles input, ∀ n1 n2 : String,
          (g'.nameMap input).get? d1.1 = some n1 → (g'.nameMap input).get? d2.1 = some n2 →
          n1 = buildGraphqlTypeName d1.2 ∧ n2 = buildGraphqlTypeName d2.2 ∧
          (PlainParts d1.2 → PlainParts d2.2 →
            (packagePrefix d1.2.Package, effectivePath d1.2.IsProtoMap d1.2.TypeName) ≠
              (packagePrefix d2.2.Package, effectivePath d2.2.IsProtoMap d2.2.TypeName) →
            n1 ≠ n2) := by
  obtain ⟨g', hok, _, hsound, _, _, _, _⟩ := final_state_facts g fuel hrun
  have hnames : NamesDistinct g.reqFiles := hrun.2.1.1
  refine ⟨g', hok, ?_⟩
  intro input d1 hd1 d2 hd2 n1 n2 hn1 hn2
  obtain ⟨hv1, hi1⟩ := declared_value hnames hsound input hd1 hn1
  obtain ⟨hv2, hi2⟩ := declared_value hnames hsound input hd2 hn2
  refine ⟨hv1, hv2, ?_⟩
  intro hp1 hp2 hdiff heq
  rw [hv1, hv2] at heq
  obtain ⟨h1, h2⟩ := buildGraphqlTypeName_injective d1.2 d2.2 (hi1.trans hi2.symm) hp1 hp2 heq
  exact hdiff (by rw [h1, h2])

/-- Witness of C2 amended: over `foo.proto`, the keys `.pkg.Foo` and
`.pkg.Foo.Bar` have plain parts and different effective paths, hence different
names; the map-entry type `Foo.BarEntry` has the effective path of `Foo.Bar`. -/
theorem built_names_unique_witness :
    RunOK fooRequest 4 ∧
    (∃ g', buildTypeMaps 4 fooRequest = Res.ok g' ∧
      ∀ (input : Bool), ∀ d1 ∈ declaredParts fooRequest.reqFiles input,
        ∀ d2 ∈ declaredParts fooRequest.reqFiles input, ∀ n1 n2 : String,
          (g'.nameMap input).get? d1.1 = some n1 → (g'.nameMap input).get? d2.1 = some n2 →
          n1 = buildGraphqlTypeName d1.2 ∧ n2 = buildGraphqlTypeName d2.2 ∧
          (PlainParts d1.2 → PlainParts d2.2 →
            (packagePrefix d1.2.Package, effectivePath d1.2.IsProtoMap d1.2.TypeName) ≠
              (packagePrefix d2.2.Package, effectivePath d2.2.IsProtoMap d2.2.TypeName) →
            n1 ≠ n2)) ∧
    PlainParts (messageParts foo false) ∧ PlainParts (messageParts fooBar false) ∧
    (packagePrefix foo.Package, effectivePath foo.IsMap foo.TypeName) ≠
      (packagePrefix fooBar.Package, effectivePath fooBar.IsMap fooBar.TypeName) ∧
    fooGenerator.typeNameMap.get? foo.FullName = some "Pkg_Foo" ∧
    effectivePath fooBarEntry.IsMap fooBarEntry.TypeName =
      effectivePath fooBar.IsMap fooBar.TypeName :=
  ⟨by decide, built_names_unique fooRequest 4 (by decide), by decide, by decide, by decide,
    by decide, by decide⟩

/-- Why the amended C2 asks for plain parts: without them two full names that
differ otherwise than by a map entry can share a built name, because the
separator is an underscore and `CamelCase` capitalises: the top-level message
`B_C` and the nested message `B.C` of package `a`, and the messages `item` and
`Item`. -/
theorem built_name_collisions_without_plain_parts :
    buildGraphqlTypeName
        { Package := "a", TypeName := ["B_C"], IsProtoMap := false, Input := false } =
      buildGraphqlTypeName
        { Package := "a", TypeName := ["B", "C"], IsProtoMap := false, Input := false } ∧
    buildGraphqlTypeName
        { Package := "a", TypeName := ["item"], IsProtoMap := false, Input := false } =
      buildGraphqlTypeName
        { Package := "a", TypeName := ["Item"], IsProtoMap := false, Input := false } ∧
    buildGraphqlTypeName
        { Package := "a.b", TypeName := ["C"], IsProtoMap := false, Input := false } =
      buildGraphqlTypeName
        { Package := "a_b", TypeName := ["C"], IsProtoMap := false, Input := false } := by
  decide

/-! ## Reference closure of the name tables -/

/-- C3 (reference closure of the name tables). After `buildTypeMaps` on an
internally consistent graph: the request message of every method is indexed
and, when it has at least one field, has a (non-empty) name in `inputNameMap`;
and for every declared message that is a key of `inputNameMap` (resp.
`typeNameMap`), each message-typed field references an indexed message that has
a (non-empty) name in the same table, or has zero fields and is in
`emptyMessages`, and each enum-typed field references an indexed enum that has
a (non-empty) name in `typeNameMap`. -/
theorem name_tables_closed (g : Generator) (fuel : Nat) (hrun : RunOK g fuel) :
    ∃ g', buildTypeMaps fuel g = Res.ok g' ∧
      (∀ method ∈ allMethods g.reqFiles,
        ∃ request, g'.messages.get? method.InputType = some request ∧
          (request.Field ≠ [] → g'.inputNameMap.getStr method.InputType ≠ "")) ∧
      (∀ (input : Bool), ∀ m ∈ allMessages g.reqFiles,
        (g'.nameMap input).get? m.FullName ≠ none → ∀ p ∈ m.Field,
          (p.FType = FieldType.TYPE_MESSAGE →
            ∃ B, g'.messages.get? p.TypeName = some B ∧
              ((g'.nameMap input).getStr p.TypeName ≠ "" ∨
                (B.Field = [] ∧ g'.emptyMessages.getBool p.TypeName = true))) ∧
          (p.FType = FieldType.TYPE_ENUM →
            g'.enums.get? p.TypeName ≠ none ∧ g'.typeNameMap.getStr p.TypeName ≠ "")) := by
  obtain ⟨g', hok, hidx, hsound, hget, hclosed, hach, _⟩ := final_state_facts g fuel hrun
  have hnames : NamesDistinct g.reqFiles := hrun.2.1.1
  have hpaths : PathsNonempty g.reqFiles := hrun.2.1.2.1
  refine ⟨g', hok, ?_, ?_⟩
  · intro method hmethod
    obtain ⟨B, hB, hname, hset⟩ := hach.1 method hmethod
    refine ⟨B, by rw [← hname]; exact hget B hB, fun hfields => ?_⟩
    rcases hset with hp | ⟨hz, _⟩
    · rw [← hname] at hp ⊢
      exact (message_getStr_of_present hnames hpaths hsound hB true hp).2
    · exact absurd hz hfields
  · intro input m hm hkey p hp
    obtain ⟨hmsg, henum⟩ := hclosed input m.FullName m (hget m hm) hkey (by simp) p hp
    refine ⟨fun hty => ?_, fun hty => ?_⟩
    · obtain ⟨B, hB, hset⟩ := hmsg hty
      refine ⟨B, hB, ?_⟩
      obtain ⟨hBmem, hBname⟩ := hidx.1 _ _ hB
      rcases hset with hpres | herased
      · left
        rw [← hBname] at hpres ⊢
        exact (message_getStr_of_present hnames hpaths hsound hBmem input hpres).2
      · exact Or.inr herased
    · obtain ⟨h1, h2⟩ := henum hty
      refine ⟨h1, ?_⟩
      obtain ⟨e, he⟩ := Option.ne_none_iff_exists'.1 h1
      obtain ⟨hemem, hename⟩ := hidx.2.1 _ _ he
      rw [← hename] at h2 ⊢
      exact (enum_getStr_of_present hnames hpaths hsound hemem h2).2

/-- Witness of C3: the file `library.proto` (a cycle `Author ↔ Book`, an enum,
a zero-field message, a service); the pass returns `libraryGenerator`, whose
input table holds both requests and everything they reference. -/
theorem name_tables_closed_witness :
    RunOK libraryRequest 4 ∧
    (∃ g', buildTypeMaps 4 libraryRequest = Res.ok g' ∧
      (∀ method ∈ allMethods libraryRequest.reqFiles,
        ∃ request, g'.messages.get? method.InputType = some request ∧
          (request.Field ≠ [] → g'.inputNameMap.getStr method.InputType ≠ "")) ∧
      (∀ (input : Bool), ∀ m ∈ allMessages libraryRequest.reqFiles,
        (g'.nameMap input).get? m.FullName ≠ none → ∀ p ∈ m.Field,
          (p.FType = FieldType.TYPE_MESSAGE →
            ∃ B, g'.messages.get? p.TypeName = some B ∧
              ((g'.nameMap input).getStr p.TypeName ≠ "" ∨
                (B.Field = [] ∧ g'.emptyMessages.getBool p.TypeName = true))) ∧
          (p.FType = FieldType.TYPE_ENUM →
            g'.enums.get? p.TypeName ≠ none ∧ g'.typeNameMap.getStr p.TypeName ≠ ""))) ∧
    buildTypeMaps 4 libraryRequest = Res.ok libraryGenerator ∧
    libraryGenerator.inputNameMap =
      [(".lib.Author", "Lib_Author_Input"), (".lib.Book", "Lib_Book_Input")] ∧
    libraryGenerator.typeNameMap.getStr ".lib.Genre" = "Lib_Genre" ∧
    libraryGenerator.emptyMessages.getBool ".lib.Empty" = true :=
  ⟨by decide, name_tables_closed libraryRequest 4 (by decide), by decide, by decide, by decide,
    by decide⟩

/-! ## Erasure of zero-field messages -/

theorem zero_field_not_key {fs : List FileDescriptor} {g : Generator}
    (hnames : NamesDistinct fs) (hs : TablesSound fs g) {m : MessageDescriptor}
    (hm : m ∈ allMessages fs) (hzero : m.Field = []) (input : Bool) :
    (g.nameMap input).get? m.FullName = none := by
  cases hk : (g.nameMap input).get? m.FullName with
  | none => rfl
  | some n => exact absurd hzero (message_key_sound hnames hs hm input hk).1

/-- C4 (erasure consistency, tables). Over an internally consistent graph with
pairwise distinct full names: in every state the resolution pass goes through
(every state obtained from the fresh state by writes of the pass, `Reach`), a
declared message with zero fields is a key neither of `typeNameMap` nor of
`inputNameMap`; `buildTypeMaps` returns and its final state is such a state;
and in every such state a visit of a zero-field message returns the state with
the message added to `emptyMessages` and nothing else changed. -/
theorem erased_message_never_named (g : Generator) (fuel : Nat) (hrun : RunOK g fuel) :
    (∀ h, Reach g.reqFiles (serviceRoots g.params g.reqFiles) g.reset h →
      ∀ m ∈ allMessages g.reqFiles, m.Field = [] →
        h.typeNameMap.get? m.FullName = none ∧ h.inputNameMap.get? m.FullName = none) ∧
    (∃ g', buildTypeMaps fuel g = Res.ok g' ∧
      Reach g.reqFiles (serviceRoots g.params g.reqFiles) g.reset g') ∧
    (∀ h, Reach g.reqFiles (serviceRoots g.params g.reqFiles) g.reset h →
      ∀ m ∈ allMessages g.reqFiles, m.Field = [] → ∀ (input : Bool) (n : Nat),
        buildTypesFromMessage (n + 1) h m input =
          Res.ok { h with emptyMessages := h.emptyMessages.set m.FullName true }) := by
  have hnames : NamesDistinct g.reqFiles := hrun.2.1.1
  have hkey : ∀ h, Reach g.reqFiles (serviceRoots g.params g.reqFiles) g.reset h →
      ∀ m ∈ allMessages g.reqFiles, m.Field = [] → ∀ input : Bool,
        (h.nameMap input).get? m.FullName = none := by
    intro h hreach m hm hzero input
    exact zero_field_not_key hnames (tablesSound_reach hreach (tablesSound_reset _ g)) hm hzero
      input
  refine ⟨fun h hreach m hm hzero => ⟨hkey h hreach m hm hzero false, hkey h hreach m hm hzero true⟩,
    ?_, ?_⟩
  · obtain ⟨g', hok, hinv⟩ := buildTypeMaps_spec g fuel hrun
    exact ⟨g', hok, hinv.2.2.2.2.2.2.2.2⟩
  · intro h hreach m hm hzero input n
    have hnone := hkey h hreach m hm hzero input
    have hguard : ¬ ((h.nameMap input).getStr m.FullName ≠ "") := by
      simp [GoMap.getStr, hnone]
    unfold buildTypesFromMessage
    rw [if_neg hguard, if_pos (by rw [hzero]; rfl)]

/-- Witness of C4: the file `helloworld.proto` declares the zero-field message
`Empty`, used as request and response of `Ping`; after the pass it is erased
and a key of neither table. -/
theorem erased_message_never_named_witness :
    RunOK (wrapFiles (newGenerator [helloworldFile] defaultParameters)) 4 ∧
    (∀ h, Reach (wrapFiles (newGenerator [helloworldFile] defaultParameters)).reqFiles
        (serviceRoots (wrapFiles (newGenerator [helloworldFile] defaultParameters)).params
          (wrapFiles (newGenerator [helloworldFile] defaultParameters)).reqFiles)
        (wrapFiles (newGenerator [helloworldFile] defaultParameters)).reset h →
      ∀ m ∈ allMessages (wrapFiles (newGenerator [helloworldFile] defaultParameters)).reqFiles,
        m.Field = [] →
        h.typeNameMap.get? m.FullName = none ∧ h.inputNameMap.get? m.FullName = none) ∧
    helloworldGenerator.typeNameMap.get? emptyMessage.FullName = none ∧
    helloworldGenerator.inputNameMap.get? emptyMessage.FullName = none ∧
    helloworldGenerator.emptyMessages.getBool emptyMessage.FullName = true :=
  ⟨by decide,
    (erased_message_never_named (wrapFiles (newGenerator [helloworldFile] defaultParameters)) 4
      (by decide)).1,
    by decide, by decide, by decide⟩

/-! ## Substitution of well-known types -/

theorem graphqlSpecialTypes_of_not_wellKnown (g : Generator) (field : graphql.Field)
    (name : String) (h : name ∉ wellKnownTypeNames) : graphqlSpecialTypes g field name = field := by
  simp only [wellKnownTypeNames, List.mem_cons, List.mem_singleton, not_or, List.mem_nil_iff,
    not_false_eq_true, and_true] at h
  obtain ⟨h1, h2, h3, h4, h5, h6, h7, h8, h9, h10, h11⟩ := h
  simp [graphqlSpecialTypes, h1, h2, h3, h4, h5, h6, h7, h8, h9, h10, h11]

/-! ## Erased messages at their use sites -/

theorem graphqlField_erased (g : Generator) (p : FieldDescriptorProto) (options : fieldOptions)
    (hty : p.FType = FieldType.TYPE_MESSAGE)
    (herased : g.emptyMessages.getBool p.TypeName = true)
    (hname : p.TypeName ∉ wellKnownTypeNames) :
    graphqlField g p options = Res.ok
      { Name := p.Name, TypeName := "Boolean", Arguments := [],
        Modifiers := if p.Label = FieldLabel.LABEL_REPEATED then graphql.TypeModifierList
                     else 0 } := by
  unfold graphqlField graphqlFieldSwitch
  simp only [hty, herased, if_true]
  rw [graphqlSpecialTypes_of_not_wellKnown g _ _ hname]
  by_cases hl : p.Label = FieldLabel.LABEL_REPEATED
  · simp [hl, graphql.ScalarBoolean]
  · simp [hl, graphql.ScalarBoolean]

/-- C5 (erasure consistency, use sites). After `buildTypeMaps` on an internally
consistent graph, for every declared message that is a key of `typeNameMap` or
of `inputNameMap` and every field of it (ordinary or oneof variant) of message
kind whose referenced message has zero fields, and for every options value,
`graphqlField` lowers the field to `Boolean` with no non-null modifier: the
modifiers are the list modifier alone when the field is repeated and none
otherwise. The type name is assumed not to be one of the well-known names that
`graphqlSpecialTypes` substitutes (the well-known types all have fields). -/
theorem erased_field_lowers_to_boolean (g : Generator) (fuel : Nat) (hrun : RunOK g fuel) :
    ∃ g', buildTypeMaps fuel g = Res.ok g' ∧
      ∀ m ∈ allMessages g.reqFiles,
        (g'.typeNameMap.get? m.FullName ≠ none ∨ g'.inputNameMap.get? m.FullName ≠ none) →
        ∀ p ∈ m.Field, p.FType = FieldType.TYPE_MESSAGE →
        ∀ B, g'.messages.get? p.TypeName = some B → B.Field = [] →
        p.TypeName ∉ wellKnownTypeNames →
        ∀ options : fieldOptions,
          graphqlField g' p options = Res.ok
            { Name := p.Name, TypeName := "Boolean", Arguments := [],
              Modifiers := if p.Label = FieldLabel.LABEL_REPEATED then graphql.TypeModifierList
                           else 0 } := by
  obtain ⟨g', hok, hidx, hsound, hget, hclosed, _, _⟩ := final_state_facts g fuel hrun
  have hnames : NamesDistinct g.reqFiles := hrun.2.1.1
  refine ⟨g', hok, ?_⟩
  intro m hm hkey p hp hty B hB hzero hname options
  obtain ⟨hBmem, hBname⟩ := hidx.1 _ _ hB
  have herased : g'.emptyMessages.getBool p.TypeName = true := by
    have hsettled : ∃ input : Bool, FieldSettled g' input p := by
      rcases hkey with hk | hk
      · exact ⟨false, hclosed false m.FullName m (hget m hm) hk (by simp) p hp⟩
      · exact ⟨true, hclosed true m.FullName m (hget m hm) hk (by simp) p hp⟩
    obtain ⟨input, hset⟩ := hsettled
    obtain ⟨B', hB', hcase⟩ := hset.1 hty
    rcases hcase with hpres | ⟨_, he⟩
    · have hnone := zero_field_not_key hnames hsound hBmem hzero input
      rw [hBname] at hnone
      exact absurd hnone hpres
    · exact he
  exact graphqlField_erased g' p options hty herased hname

/-- Witness of C5: in `library.proto` the fields `marker` and `notes` of `Book`
reference the zero-field message `Empty`; they lower to `Boolean` and
`[Boolean]` without the non-null modifier, on the output and the input side. -/
theorem erased_field_lowers_to_boolean_witness :
    RunOK libraryRequest 4 ∧
    (∃ g', buildTypeMaps 4 libraryRequest = Res.ok g' ∧
      ∀ m ∈ allMessages libraryRequest.reqFiles,
        (g'.typeNameMap.get? m.FullName ≠ none ∨ g'.inputNameMap.get? m.FullName ≠ none) →
        ∀ p ∈ m.Field, p.FType = FieldType.TYPE_MESSAGE →
        ∀ B, g'.messages.get? p.TypeName = some B → B.Field = [] →
        p.TypeName ∉ wellKnownTypeNames →
        ∀ options : fieldOptions,
          graphqlField g' p options = Res.ok
            { Name := p.Name, TypeName := "Boolean", Arguments := [],
              Modifiers := if p.Label = FieldLabel.LABEL_REPEATED then graphql.TypeModifierList
                           else 0 }) ∧
    graphqlField libraryGenerator (messageField "marker" ".lib.Empty")
        { Input := false, NullableScalars := false } =
      Res.ok { Name := "marker", TypeName := "Boolean", Arguments := [], Modifiers := 0 } ∧
    graphqlField libraryGenerator
        { Name := "notes", FType := FieldType.TYPE_MESSAGE, Label := FieldLabel.LABEL_REPEATED,
          TypeName := ".lib.Empty", OneofIndex := none }
        { Input := true, NullableScalars := true } =
      Res.ok { Name := "notes", TypeName := "Boolean", Arguments := [], Modifiers := 2 } :=
  ⟨by decide, erased_field_lowers_to_boolean libraryRequest 4 (by decide), by decide, by decide⟩

/-! ## Lowering of oneof groups -/

theorem graphqlField_ok (g : Generator) (proto : FieldDescriptorProto) (options : fieldOptions)
    (h : Lowerable g proto) : ∃ field, graphqlField g proto options = Res.ok field := by
  obtain ⟨hgroup, hmsg⟩ := h
  unfold graphqlField graphqlFieldSwitch
  cases hty : proto.FType <;> simp only [hty] at hgroup hmsg ⊢ <;> try exact ⟨_, rfl⟩
  · exact absurd rfl hgroup
  · rcases hmsg trivial with he | hi
    · simp only [he, if_true]
      exact ⟨_, rfl⟩
    · obtain ⟨m, hm⟩ := Option.ne_none_iff_exists'.1 hi
      by_cases he : g.emptyMessages.getBool proto.TypeName = true
      · simp only [he, if_true]
        exact ⟨_, rfl⟩
      · simp only [he, hm]
        by_cases hmap : m.IsMap = true
        · simp only [hmap, if_true]
          exact ⟨_, rfl⟩
        · simp only [hmap]
          exact ⟨_, rfl⟩

theorem graphqlUnionLoop_spec (g : Generator) (message : MessageDescriptor) (oneofIndex : Int)
    (oneof : String) (rest : List FieldDescriptorProto)
    (hlow : ∀ v ∈ rest.filter (fun p => p.OneofIndex = some oneofIndex), Lowerable g v)
    (typeNames : List String) (objects : List graphql.GType) :
    ∃ fields : List graphql.Field,
      List.Forall₂ (fun v field =>
          graphqlField g v { Input := false, NullableScalars := false } = Res.ok field)
        (rest.filter (fun p => p.OneofIndex = some oneofIndex)) fields ∧
      graphqlUnionLoop g message oneofIndex oneof rest typeNames objects = Res.ok
        (typeNames ++ (rest.filter (fun p => p.OneofIndex = some oneofIndex)).map (fun v =>
            buildGraphqlTypeName
              { Package := message.Package, TypeName := message.TypeName ++ [oneof, v.Name],
                IsProtoMap := false, Input := false }),
         objects ++ List.zipWith (fun v field =>
            graphql.GType.Object
              (buildGraphqlTypeName
                { Package := message.Package, TypeName := message.TypeName ++ [oneof, v.Name],
                  IsProtoMap := false, Input := false })
              [field])
            (rest.filter (fun p => p.OneofIndex = some oneofIndex)) fields) := by
  induction rest generalizing typeNames objects with
  | nil => exact ⟨[], by simp [graphqlUnionLoop]⟩
  | cons p rest ih =>
    unfold graphqlUnionLoop
    by_cases hp : p.OneofIndex = some oneofIndex
    · have hskip : ¬ (p.OneofIndex = none ∨ p.OneofIndex ≠ some oneofIndex) := by
        simp [hp]
      have hlow' : ∀ v ∈ rest.filter (fun p => p.OneofIndex = some oneofIndex), Lowerable g v := by
        intro v hv
        apply hlow
        simp only [List.filter_cons, hp, decide_True, if_true]
        exact List.mem_cons_of_mem _ hv
      obtain ⟨field, hfield⟩ := graphqlField_ok g p { Input := false, NullableScalars := false }
        (hlow p (by simp [List.filter_cons, hp]))
      obtain ⟨fields, hall, hloop⟩ := ih hlow'
        (typeNames ++ [buildGraphqlTypeName
          { Package := message.Package, TypeName := message.TypeName ++ [oneof, p.Name],
            IsProtoMap := false, Input := false }])
        (objects ++ [graphql.GType.Object (buildGraphqlTypeName
          { Package := message.Package, TypeName := message.TypeName ++ [oneof, p.Name],
            IsProtoMap := false, Input := false }) [field]])
      refine ⟨field :: fields, ?_, ?_⟩
      · simp only [List.filter_cons, hp, decide_True, if_true]
        exact List.Forall₂.cons hfield hall
      · simp only [hskip, if_false, hfield, hloop]
        simp [List.filter_cons, hp]
    · have hskip : p.OneofIndex = none ∨ p.OneofIndex ≠ some oneofIndex := Or.inr hp
      have hlow' : ∀ v ∈ rest.filter (fun p => p.OneofIndex = some oneofIndex), Lowerable g v := by
        intro v hv
        apply hlow
        simpa [List.filter_cons, hp] using hv
      obtain ⟨fields, hall, hloop⟩ := ih hlow' typeNames objects
      refine ⟨fields, ?_, ?_⟩
      · simpa [List.filter_cons, hp] using hall
      · simp only [hskip, if_true, hloop]
        simp [List.filter_cons, hp]

/-- C7 (output-side oneof shape). For a message and a oneof group of it (index
`oneofIndex`, name `oneof`) whose `n` variant fields are lowerable,
`graphqlUnionFromOneof` yields exactly one union followed by `n` objects: the
union is named message path + group name, its member type names are the names
of the `n` objects in field declaration order, each named message path + group
name + field name, and each object has exactly one field, the result of
`graphqlField` on the variant with default options. -/
theorem graphqlUnionFromOneof_shape (g : Generator) (message : MessageDescriptor)
    (oneofIndex : Int) (oneof : String) (hindex : 0 ≤ oneofIndex)
    (hgroup : message.OneofDecl.get? oneofIndex.toNat = some oneof)
    (hlow : ∀ v ∈ oneofVariants message oneofIndex, Lowerable g v) :
    ∃ fields : List graphql.Field,
      fields.length = (oneofVariants message oneofIndex).length ∧
      List.Forall₂ (fun v field =>
          graphqlField g v { Input := false, NullableScalars := false } = Res.ok field)
        (oneofVariants message oneofIndex) fields ∧
      graphqlUnionFromOneof g message oneofIndex = Res.ok
        (graphql.GType.Union
            (buildGraphqlTypeName
              { Package := message.Package, TypeName := message.TypeName ++ [oneof],
                IsProtoMap := false, Input := false })
            ((oneofVariants message oneofIndex).map (fun v =>
              buildGraphqlTypeName
                { Package := message.Package, TypeName := message.TypeName ++ [oneof, v.Name],
                  IsProtoMap := false, Input := false }))
          :: List.zipWith (fun v field =>
              graphql.GType.Object
                (buildGraphqlTypeName
                  { Package := message.Package, TypeName := message.TypeName ++ [oneof, v.Name],
                    IsProtoMap := false, Input := false })
                [field])
              (oneofVariants message oneofIndex) fields) := by
  obtain ⟨fields, hall, hloop⟩ :=
    graphqlUnionLoop_spec g message oneofIndex oneof message.Field hlow [] []
  refine ⟨fields, hall.length_eq.symm, hall, ?_⟩
  have hname : oneofName message oneofIndex = Res.ok oneof := by
    unfold oneofName
    rw [if_neg (not_lt.2 hindex), hgroup]
  unfold graphqlUnionFromOneof
  simp only [hname, hloop, List.nil_append, oneofVariants]

/-- Witness of C7: `Shape{ oneof kind { Circle circle; Square square } }` in
package `pkg` gives the union `Pkg_Shape_Kind` with the members
`Pkg_Shape_Kind_Circle` and `Pkg_Shape_Kind_Square`, followed by the two
one-field objects. -/
theorem graphqlUnionFromOneof_shape_witness :
    (∃ fields : List graphql.Field,
      fields.length = (oneofVariants shape 0).length ∧
      List.Forall₂ (fun v field =>
          graphqlField shapesGenerator v { Input := false, NullableScalars := false } =
            Res.ok field)
        (oneofVariants shape 0) fields ∧
      graphqlUnionFromOneof shapesGenerator shape 0 = Res.ok
        (graphql.GType.Union
            (buildGraphqlTypeName
              { Package := shape.Package, TypeName := shape.TypeName ++ ["kind"],
                IsProtoMap := false, Input := false })
            ((oneofVariants shape 0).map (fun v =>
              buildGraphqlTypeName
                { Package := shape.Package, TypeName := shape.TypeName ++ ["kind", v.Name],
                  IsProtoMap := false, Input := false }))
          :: List.zipWith (fun v field =>
              graphql.GType.Object
                (buildGraphqlTypeName
                  { Package := shape.Package, TypeName := shape.TypeName ++ ["kind", v.Name],
                    IsProtoMap := false, Input := false })
                [field])
              (oneofVariants shape 0) fields)) ∧
    graphqlUnionFromOneof shapesGenerator shape 0 = Res.ok
      [graphql.GType.Union "Pkg_Shape_Kind" ["Pkg_Shape_Kind_Circle", "Pkg_Shape_Kind_Square"],
       graphql.GType.Object "Pkg_Shape_Kind_Circle"
         [{ Name := "circle", TypeName := "Pkg_Circle", Arguments := [], Modifiers := 0 }],
       graphql.GType.Object "Pkg_Shape_Kind_Square"
         [{ Name := "square", TypeName := "Pkg_Square", Arguments := [], Modifiers := 0 }]] :=
  ⟨graphqlUnionFromOneof_shape shapesGenerator shape 0 "kind" (by decide) (by decide)
    (by decide), by decide⟩

theorem graphqlInputLoop_spec (g : Generator) (oneofIndex : Int)
    (rest : List FieldDescriptorProto)
    (hlow : ∀ v ∈ rest.filter (fun p => p.OneofIndex = some oneofIndex), Lowerable g v)
    (acc : List graphql.Field) :
    ∃ fields : List graphql.Field,
      List.Forall₂ (fun v field =>
          graphqlField g v { Input := true, NullableScalars := true } = Res.ok field)
        (rest.filter (fun p => p.OneofIndex = some oneofIndex)) fields ∧
      graphqlInputLoop g oneofIndex rest acc = Res.ok (acc ++ fields) := by
  induction rest generalizing acc with
  | nil => exact ⟨[], by simp [graphqlInputLoop]⟩
  | cons p rest ih =>
    unfold graphqlInputLoop
    by_cases hp : p.OneofIndex = some oneofIndex
    · have hskip : ¬ (p.OneofIndex = none ∨ p.OneofIndex ≠ some oneofIndex) := by
        simp [hp]
      have hlow' : ∀ v ∈ rest.filter (fun p => p.OneofIndex = some oneofIndex), Lowerable g v := by
        intro v hv
        apply hlow
        simp only [List.filter_cons, hp, decide_True, if_true]
        exact List.mem_cons_of_mem _ hv
      obtain ⟨field, hfield⟩ := graphqlField_ok g p { Input := true, NullableScalars := true }
        (hlow p (by simp [List.filter_cons, hp]))
      obtain ⟨fields, hall, hloop⟩ := ih hlow' (acc ++ [field])
      refine ⟨field :: fields, ?_, ?_⟩
      · simp only [List.filter_cons, hp, decide_True, if_true]
        exact List.Forall₂.cons hfield hall
      · simp only [hskip, if_false, hfield, hloop]
        simp
    · have hskip : p.OneofIndex = none ∨ p.OneofIndex ≠ some oneofIndex := Or.inr hp
      have hlow' : ∀ v ∈ rest.filter (fun p => p.OneofIndex = some oneofIndex), Lowerable g v := by
        intro v hv
        apply hlow
        simpa [List.filter_cons, hp] using hv
      obtain ⟨fields, hall, hloop⟩ := ih hlow' acc
      refine ⟨fields, ?_, ?_⟩
      · simpa [List.filter_cons, hp] using hall
      · simp only [hskip, if_true, hloop]

/-- The shape of the input-side lowering of a oneof group: one input type, named
message path + group name + `_Input`, whose fields are the variants in
declaration order, each lowered by `graphqlField` with `Input` and
`NullableScalars` set. -/
theorem graphqlInputFromOneof_shape (g : Generator) (message : MessageDescriptor)
    (oneofIndex : Int) (oneof : String) (hindex : 0 ≤ oneofIndex)
    (hgroup : message.OneofDecl.get? oneofIndex.toNat = some oneof)
    (hlow : ∀ v ∈ oneofVariants message oneofIndex, Lowerable g v) :
    ∃ fields : List graphql.Field,
      fields.length = (oneofVariants message oneofIndex).length ∧
      List.Forall₂ (fun v field =>
          graphqlField g v { Input := true, NullableScalars := true } = Res.ok field)
        (oneofVariants message oneofIndex) fields ∧
      graphqlInputFromOneof g message oneofIndex = Res.ok
        (graphql.GType.Input
          (buildGraphqlTypeName
            { Package := message.Package, TypeName := message.TypeName ++ [oneof],
              IsProtoMap := false, Input := true })
          fields) := by
  obtain ⟨fields, hall, hloop⟩ := graphqlInputLoop_spec g oneofIndex message.Field hlow []
  refine ⟨fields, hall.length_eq.symm, hall, ?_⟩
  have hname : oneofName message oneofIndex = Res.ok oneof := by
    unfold oneofName
    rw [if_neg (not_lt.2 hindex), hgroup]
  unfold graphqlInputFromOneof
  simp only [hname, hloop, List.nil_append]

/-- C6 (input-side oneof shape), at the input on which the code departs from
it. `Measure{ oneof value { float ratio; string label } }` is the request of a
method, so it has an input name; `graphqlInputFromOneof` yields the single input
type `Pkg_Measure_Value_Input` with the two variants in declaration order, but
the `float` variant carries the non-null modifier although it was lowered with
`NullableScalars` set, while the `string` variant carries none. -/
theorem graphqlInputFromOneof_float_variant_nonNull :
    measureGenerator.inputNameMap.get? measure.FullName = some "Pkg_Measure_Input" ∧
    graphqlInputFromOneof measureGenerator measure 0 = Res.ok
      (graphql.GType.Input "Pkg_Measure_Value_Input"
        [{ Name := "ratio", TypeName := "Float", Arguments := [],
           Modifiers := graphql.TypeModifierNonNull },
         { Name := "label", TypeName := "String", Arguments := [], Modifiers := 0 }]) := by
  decide

/-! ## Lowering of methods and services -/

/-- C8 (empty-request/response methods). For a method whose request and
response messages are in the lookup index, `graphqlFieldFromMethod` returns a
field named after the method; it has no argument when the request message has
zero fields and otherwise the single argument `input`, non-null, typed by
`inputNameMap[request]`; its type is `Boolean` with no modifier when the
response message has zero fields and otherwise `typeNameMap[response]` with the
non-null modifier. -/
theorem graphqlFieldFromMethod_spec (g : Generator) (method : MethodDescriptorProto)
    (request response : MessageDescriptor)
    (hreq : g.messages.get? method.InputType = some request)
    (hresp : g.messages.get? method.OutputType = some response) :
    graphqlFieldFromMethod g method = Res.ok
      { Name := method.Name,
        TypeName := if response.Field = [] then "Boolean"
                    else g.typeNameMap.getStr method.OutputType,
        Arguments := if request.Field = [] then []
                     else [{ Name := "input",
                             TypeName := g.inputNameMap.getStr method.InputType,
                             Modifiers := graphql.TypeModifierNonNull }],
        Modifiers := if response.Field = [] then 0 else graphql.TypeModifierNonNull } := by
  unfold graphqlFieldFromMethod
  simp only [hreq, hresp, List.length_eq_zero]
  by_cases h1 : request.Field = [] <;> by_cases h2 : response.Field = [] <;>
    simp [h1, h2, graphql.ScalarBoolean]

/-- Witness of C8: `Ping(Empty) returns (Empty)` has no argument and a nullable
`Boolean` result. -/
theorem graphqlFieldFromMethod_spec_witness :
    graphqlFieldFromMethod helloworldGenerator ping =
      Res.ok { Name := "Ping", TypeName := "Boolean", Arguments := [], Modifiers := 0 } :=
  graphqlFieldFromMethod_spec helloworldGenerator ping emptyMessage emptyMessage
    (by decide) (by decide)

theorem graphqlFieldFromMethod_ok (g : Generator) (method : MethodDescriptorProto)
    (h : g.messages.get? method.InputType ≠ none ∧ g.messages.get? method.OutputType ≠ none) :
    ∃ field, graphqlFieldFromMethod g method = Res.ok field := by
  obtain ⟨⟨i, hi⟩, o, ho⟩ :=
    And.intro (Option.ne_none_iff_exists'.1 h.1) (Option.ne_none_iff_exists'.1 h.2)
  unfold graphqlFieldFromMethod
  simp only [hi, ho]
  split
  · exact ⟨_, rfl⟩
  · exact ⟨_, rfl⟩

theorem graphqlServiceLoop_none (g : Generator) (methods : List MethodDescriptorProto)
    (hidx : ∀ m ∈ methods, g.messages.get? m.InputType ≠ none ∧
        g.messages.get? m.OutputType ≠ none)
    (hnone : ∃ m ∈ methods, m.Operation = some "none")
    (queries mutations subscriptions : List graphql.Field) :
    graphqlServiceLoop g methods queries mutations subscriptions = Res.ok none := by
  induction methods generalizing queries mutations subscriptions with
  | nil => simp at hnone
  | cons m rest ih =>
    unfold graphqlServiceLoop
    by_cases hm : m.Operation = some "none"
    · simp [hm]
    · have hrest : ∃ m' ∈ rest, m'.Operation = some "none" := by
        obtain ⟨m', hm', hop⟩ := hnone
        rcases List.mem_cons.1 hm' with rfl | hin
        · exact absurd hop hm
        · exact ⟨m', hin, hop⟩
      have hidx' : ∀ m' ∈ rest, g.messages.get? m'.InputType ≠ none ∧
          g.messages.get? m'.OutputType ≠ none :=
        fun m' hm' => hidx m' (List.mem_cons_of_mem _ hm')
      obtain ⟨field, hfield⟩ := graphqlFieldFromMethod_ok g m (hidx m (List.mem_cons_self _ _))
      have hne : ¬ (m.Operation.getD "" = "none") := by
        cases hop : m.Operation with
        | none => simp
        | some v =>
          simp only [Option.getD_some]
          intro hv
          exact hm (by rw [hop, hv])
      simp only [hne, if_false, hfield]
      split
      · exact ih hidx' hrest _ _ _
      · split
        · exact ih hidx' hrest _ _ _
        · exact ih hidx' hrest _ _ _

/-- C9 (a method tagged `none` cancels the whole service). For a service whose
methods all have their request and response messages in the lookup index, if
at least one method carries the operation annotation `"none"`, wherever it
stands in the method list and whatever the other annotations are,
`graphqlFromService` returns no declaration at all. -/
theorem graphqlFromService_none (g : Generator) (service : ServiceDescriptor)
    (hidx : ∀ m ∈ service.Method, g.messages.get? m.InputType ≠ none ∧
        g.messages.get? m.OutputType ≠ none)
    (hnone : ∃ m ∈ service.Method, m.Operation = some "none") :
    graphqlFromService g service = Res.ok [] := by
  unfold graphqlFromService
  rw [graphqlServiceLoop_none g service.Method hidx hnone]

/-- Witness of C9: the service `Internal` has the methods `SayHello` (query),
`Hidden` (none) and `Ping` (mutation) and yields nothing. -/
theorem graphqlFromService_none_witness :
    (∃ m ∈ greeterWithHidden.Method, m.Operation = some "none") ∧
    graphqlFromService helloworldGenerator greeterWithHidden = Res.ok [] :=
  ⟨⟨hidden, by decide, rfl⟩,
    graphqlFromService_none helloworldGenerator greeterWithHidden (by decide)
      ⟨hidden, by decide, rfl⟩⟩

/-! ## Lowering of single fields -/

/-- C10 (scalar mapping table). For a non-repeated field of scalar kind whose
type name is not one of the well-known names `graphqlSpecialTypes` substitutes
(a scalar field carries no type name), and for every options value,
`graphqlField` returns `Float` with the non-null modifier for float, double,
uint32, sint32, fixed32 and sfixed32, whatever `NullableScalars` is; `String`
for string, bytes and the 64-bit integer kinds; `Int` for int32; `Boolean` for
bool; in the last three groups the modifier is the non-null bit when
`NullableScalars` is false and no modifier otherwise. -/
theorem graphqlField_scalar_table (g : Generator) (proto : FieldDescriptorProto)
    (options : fieldOptions) (hlabel : proto.Label ≠ FieldLabel.LABEL_REPEATED)
    (hname : proto.TypeName ∉ wellKnownTypeNames) :
    (proto.FType ∈ [FieldType.TYPE_FLOAT, FieldType.TYPE_DOUBLE, FieldType.TYPE_UINT32,
        FieldType.TYPE_SINT32, FieldType.TYPE_FIXED32, FieldType.TYPE_SFIXED32] →
      graphqlField g proto options = Res.ok
        { Name := proto.Name, TypeName := "Float", Arguments := [],
          Modifiers := graphql.TypeModifierNonNull }) ∧
    (proto.FType ∈ [FieldType.TYPE_STRING, FieldType.TYPE_BYTES, FieldType.TYPE_INT64,
        FieldType.TYPE_UINT64, FieldType.TYPE_SINT64, FieldType.TYPE_FIXED64,
        FieldType.TYPE_SFIXED64] →
      graphqlField g proto options = Res.ok
        { Name := proto.Name, TypeName := "String", Arguments := [],
          Modifiers := if options.NullableScalars = false then graphql.TypeModifierNonNull
                       else 0 }) ∧
    (proto.FType = FieldType.TYPE_INT32 →
      graphqlField g proto options = Res.ok
        { Name := proto.Name, TypeName := "Int", Arguments := [],
          Modifiers := if options.NullableScalars = false then graphql.TypeModifierNonNull
                       else 0 }) ∧
    (proto.FType = FieldType.TYPE_BOOL →
      graphqlField g proto options = Res.ok
        { Name := proto.Name, TypeName := "Boolean", Arguments := [],
          Modifiers := if options.NullableScalars = false then graphql.TypeModifierNonNull
                       else 0 }) ∧
    graphql.TypeModifierNonNull ≠ 0 := by
  refine ⟨?_, ?_, ?_, ?_, by decide⟩
  · intro h
    simp only [List.mem_cons, List.mem_singleton, List.mem_nil_iff, or_false] at h
    rcases h with h | h | h | h | h | h <;>
      simp [graphqlField, graphqlFieldSwitch, h, hlabel,
        graphqlSpecialTypes_of_not_wellKnown g _ _ hname, graphql.ScalarFloat]
  · intro h
    simp only [List.mem_cons, List.mem_singleton, List.mem_nil_iff, or_false] at h
    rcases h with h | h | h | h | h | h | h <;>
      cases hn : options.NullableScalars <;>
      simp [graphqlField, graphqlFieldSwitch, h, hn, hlabel,
        graphqlSpecialTypes_of_not_wellKnown g _ _ hname, graphql.ScalarString]
  · intro h
    cases hn : options.NullableScalars <;>
      simp [graphqlField, graphqlFieldSwitch, h, hn, hlabel,
        graphqlSpecialTypes_of_not_wellKnown g _ _ hname, graphql.ScalarInt]
  · intro h
    cases hn : options.NullableScalars <;>
      simp [graphqlField, graphqlFieldSwitch, h, hn, hlabel,
        graphqlSpecialTypes_of_not_wellKnown g _ _ hname, graphql.ScalarBoolean]

/-- Witness of C10: a `uint32` field lowered with `NullableScalars` set stays
`Float` and non-null. -/
theorem graphqlField_scalar_table_witness :
    (scalarField "count" FieldType.TYPE_UINT32).Label ≠ FieldLabel.LABEL_REPEATED ∧
    (scalarField "count" FieldType.TYPE_UINT32).TypeName ∉ wellKnownTypeNames ∧
    graphqlField (newGenerator [] defaultParameters) (scalarField "count" FieldType.TYPE_UINT32)
        { Input := true, NullableScalars := true } =
      Res.ok { Name := "count", TypeName := "Float", Arguments := [], Modifiers := 1 } :=
  ⟨by decide, by decide,
    (graphqlField_scalar_table (newGenerator [] defaultParameters)
      (scalarField "count" FieldType.TYPE_UINT32) { Input := true, NullableScalars := true }
      (by decide) (by decide)).1 (by decide)⟩

/-! ## List layering -/

theorem graphqlFieldSwitch_modifiers (g : Generator) (proto : FieldDescriptorProto)
    (options : fieldOptions) (field : graphql.Field)
    (h : graphqlFieldSwitch g proto options = Res.ok field) :
    field.Modifiers = 0 ∨ field.Modifiers = graphql.TypeModifierNonNull := by
  unfold graphqlFieldSwitch at h
  cases hty : proto.FType <;> simp only [hty] at h
  all_goals first
    | (simp only [Res.ok.injEq] at h
       subst h
       by_cases hn : options.NullableScalars = true <;> simp [hn])
    | (split at h
       · simp only [Res.ok.injEq] at h
         subst h
         exact Or.inl rfl
       · split at h
         · exact absurd h (by simp)
         · split at h <;> simp only [Res.ok.injEq] at h <;> subst h
           · exact Or.inr rfl
           · split <;> exact Or.inl rfl)
    | exact absurd h (by simp)

theorem graphqlSpecialTypes_modifiers (g : Generator) (field : graphql.Field) (name : String) :
    (graphqlSpecialTypes g field name).Modifiers = field.Modifiers ∧
    (graphqlSpecialTypes g field name).Name = field.Name ∧
    (graphqlSpecialTypes g field name).Arguments = field.Arguments := by
  unfold graphqlSpecialTypes
  simp only
  split_ifs <;> exact ⟨rfl, rfl, rfl⟩

theorem graphqlSpecialTypes_set_modifiers (g : Generator) (field : graphql.Field) (name : String)
    (mods : Nat) :
    graphqlSpecialTypes g { field with Modifiers := mods } name =
      { graphqlSpecialTypes g field name with Modifiers := mods } := by
  unfold graphqlSpecialTypes
  simp only
  split_ifs <;> rfl

/-- C19 (list layering). For every field, every options value and every
non-repeated label: when `graphqlField` lowers the field with that label to
`field`, it lowers the same field with the repeated label to the same name,
type name and arguments with the modifiers `field.Modifiers ||| list`; the
non-repeated result never carries the list modifier, and the non-null bit of
the repeated result is the one computed for the non-repeated field. When the
lowering panics, it panics alike for both labels. -/
theorem graphqlField_repeated_layer (g : Generator) (proto : FieldDescriptorProto)
    (options : fieldOptions) (label : FieldLabel) (hlabel : label ≠ FieldLabel.LABEL_REPEATED) :
    (∀ field, graphqlField g { proto with Label := label } options = Res.ok field →
      graphqlField g { proto with Label := FieldLabel.LABEL_REPEATED } options =
        Res.ok { field with Modifiers := field.Modifiers ||| graphql.TypeModifierList } ∧
      field.Modifiers &&& graphql.TypeModifierList = 0 ∧
      (field.Modifiers ||| graphql.TypeModifierList) &&& graphql.TypeModifierNonNull =
        field.Modifiers &&& graphql.TypeModifierNonNull) ∧
    (∀ e, graphqlField g { proto with Label := label } options = Res.fault e →
      graphqlField g { proto with Label := FieldLabel.LABEL_REPEATED } options = Res.fault e) := by
  have hsw : ∀ l : FieldLabel, graphqlFieldSwitch g { proto with Label := l } options =
      graphqlFieldSwitch g proto options := fun _ => rfl
  have hrep : graphqlField g { proto with Label := FieldLabel.LABEL_REPEATED } options =
      match graphqlFieldSwitch g proto options with
      | Res.fault e => Res.fault e
      | Res.ok field =>
        Res.ok (graphqlSpecialTypes g
          { field with Modifiers := field.Modifiers ||| graphql.TypeModifierList }
          proto.TypeName) := by
    unfold graphqlField
    rw [hsw]
    rfl
  have hnon : graphqlField g { proto with Label := label } options =
      match graphqlFieldSwitch g proto options with
      | Res.fault e => Res.fault e
      | Res.ok field => Res.ok (graphqlSpecialTypes g field proto.TypeName) := by
    unfold graphqlField
    rw [hsw]
    simp only [hlabel, if_false]
  rw [hrep, hnon]
  cases hs : graphqlFieldSwitch g proto options with
  | fault e =>
    exact ⟨fun field h => absurd h (by simp), fun e' h => h⟩
  | ok f =>
    refine ⟨fun field h => ?_, fun e h => absurd h (by simp)⟩
    simp only [Res.ok.injEq] at h ⊢
    subst h
    have hmods := graphqlFieldSwitch_modifiers g proto options f hs
    have hsp := (graphqlSpecialTypes_modifiers g f proto.TypeName).1
    refine ⟨?_, ?_, ?_⟩
    · rw [graphqlSpecialTypes_set_modifiers, hsp]
    · rw [hsp]
      rcases hmods with h0 | h1
      · rw [h0]; decide
      · rw [h1]; decide
    · rw [hsp]
      rcases hmods with h0 | h1
      · rw [h0]; decide
      · rw [h1]; decide

/-- Witness of C19: the field `books` of `Author`, with the optional and with
the repeated label, on the output side of `library.proto`. -/
theorem graphqlField_repeated_layer_witness :
    FieldLabel.LABEL_OPTIONAL ≠ FieldLabel.LABEL_REPEATED ∧
    graphqlField libraryGenerator (messageField "books" ".lib.Book")
        { Input := false, NullableScalars := false } =
      Res.ok { Name := "books", TypeName := "Lib_Book", Arguments := [], Modifiers := 0 } ∧
    graphqlField libraryGenerator
        { messageField "books" ".lib.Book" with Label := FieldLabel.LABEL_REPEATED }
        { Input := false, NullableScalars := false } =
      Res.ok { Name := "books", TypeName := "Lib_Book", Arguments := [],
               Modifiers := 0 ||| graphql.TypeModifierList } :=
  ⟨by decide, by decide,
    ((graphqlField_repeated_layer libraryGenerator (messageField "books" ".lib.Book")
      { Input := false, NullableScalars := false } FieldLabel.LABEL_OPTIONAL (by decide)).1
      { Name := "books", TypeName := "Lib_Book", Arguments := [], Modifiers := 0 }
      (by decide)).1⟩

/-! ## Grouping of the methods of a service -/

theorem graphqlServiceLoop_spec (g : Generator) (methods : List MethodDescriptorProto)
    (hidx : ∀ m ∈ methods, g.messages.get? m.InputType ≠ none ∧
        g.messages.get? m.OutputType ≠ none)
    (hnone : ∀ m ∈ methods, m.Operation ≠ some "none")
    (q0 m0 s0 : List graphql.Field) :
    ∃ queries mutations subscriptions : List graphql.Field,
      List.Forall₂ (fun m f => graphqlFieldFromMethod g m = Res.ok f)
        (methods.filter (fun m =>
          decide (m.Operation ≠ some "mutation" ∧ m.Operation ≠ some "subscription")))
        queries ∧
      List.Forall₂ (fun m f => graphqlFieldFromMethod g m = Res.ok f)
        (methods.filter (fun m => decide (m.Operation = some "mutation"))) mutations ∧
      List.Forall₂ (fun m f => graphqlFieldFromMethod g m = Res.ok f)
        (methods.filter (fun m => decide (m.Operation = some "subscription"))) subscriptions ∧
      graphqlServiceLoop g methods q0 m0 s0 =
        Res.ok (some (q0 ++ queries, m0 ++ mutations, s0 ++ subscriptions)) ∧
      queries.length + mutations.length + subscriptions.length = methods.length := by
  induction methods generalizing q0 m0 s0 with
  | nil => exact ⟨[], [], [], by simp [graphqlServiceLoop]⟩
  | cons m rest ih =>
    have hidx' : ∀ m' ∈ rest, g.messages.get? m'.InputType ≠ none ∧
        g.messages.get? m'.OutputType ≠ none :=
      fun m' hm' => hidx m' (List.mem_cons_of_mem _ hm')
    have hnone' : ∀ m' ∈ rest, m'.Operation ≠ some "none" :=
      fun m' hm' => hnone m' (List.mem_cons_of_mem _ hm')
    obtain ⟨field, hfield⟩ := graphqlFieldFromMethod_ok g m (hidx m (List.mem_cons_self _ _))
    have hop : ∀ v : String, v ≠ "" → (m.Operation.getD "" = v ↔ m.Operation = some v) := by
      intro v hv
      cases hO : m.Operation with
      | none => simp [Ne.symm hv]
      | some w => simp
    have hne : ¬ (m.Operation.getD "" = "none") := by
      rw [hop "none" (by decide)]
      exact hnone m (List.mem_cons_self _ _)
    unfold graphqlServiceLoop
    simp only [hne, if_false, hfield]
    by_cases hmut : m.Operation = some "mutation"
    · have hsub : ¬ m.Operation = some "subscription" := by rw [hmut]; decide
      obtain ⟨qs, ms, ss, hq, hm, hs, hloop, hlen⟩ := ih hidx' hnone' q0 (m0 ++ [field]) s0
      refine ⟨qs, field :: ms, ss, ?_, ?_, ?_, ?_, ?_⟩
      · simpa [List.filter_cons, hmut] using hq
      · simp only [List.filter_cons, hmut, decide_True, if_true]
        exact List.Forall₂.cons hfield hm
      · simpa [List.filter_cons, hsub] using hs
      · rw [if_pos ((hop "mutation" (by decide)).2 hmut), hloop]
        simp
      · simp only [List.length_cons] at hlen ⊢
        omega
    · by_cases hsub : m.Operation = some "subscription"
      · obtain ⟨qs, ms, ss, hq, hm, hs, hloop, hlen⟩ := ih hidx' hnone' q0 m0 (s0 ++ [field])
        refine ⟨qs, ms, field :: ss, ?_, ?_, ?_, ?_, ?_⟩
        · simpa [List.filter_cons, hsub] using hq
        · simpa [List.filter_cons, hmut] using hm
        · simp only [List.filter_cons, hsub, decide_True, if_true]
          exact List.Forall₂.cons hfield hs
        · rw [if_neg (fun h => hmut ((hop "mutation" (by decide)).1 h)),
            if_pos ((hop "subscription" (by decide)).2 hsub), hloop]
          simp
        · simp only [List.length_cons] at hlen ⊢
          omega
      · obtain ⟨qs, ms, ss, hq, hm, hs, hloop, hlen⟩ := ih hidx' hnone' (q0 ++ [field]) m0 s0
        refine ⟨field :: qs, ms, ss, ?_, ?_, ?_, ?_, ?_⟩
        · simp only [List.filter_cons, hmut, hsub, ne_eq, not_false_eq_true, and_self,
            decide_True, if_true]
          exact List.Forall₂.cons hfield hq
        · simpa [List.filter_cons, hmut] using hm
        · simpa [List.filter_cons, hsub] using hs
        · rw [if_neg (fun h => hmut ((hop "mutation" (by decide)).1 h)),
            if_neg (fun h => hsub ((hop "subscription" (by decide)).1 h)), hloop]
          simp
        · simp only [List.length_cons] at hlen ⊢
          omega

/-- C20 (service grouping). For a service none of whose methods is tagged
`none` and whose methods have their request and response in the lookup index,
`graphqlFromService` emits, in the order Query, Mutation, Subscription, one
object per non-empty group and nothing else, named `typeNameMap[service]`
followed by `_Query`, `_Mutation` or `_Subscription`. The fields of the
Mutation (Subscription) object are `graphqlFieldFromMethod` of the methods
tagged `mutation` (`subscription`), those of the Query object of all other
methods, tagged otherwise or not at all, each in method declaration order; so
every method gives exactly one field and the field counts sum to the number of
methods. -/
theorem graphqlFromService_groups (g : Generator) (service : ServiceDescriptor)
    (hidx : ∀ m ∈ service.Method, g.messages.get? m.InputType ≠ none ∧
        g.messages.get? m.OutputType ≠ none)
    (hnone : ∀ m ∈ service.Method, m.Operation ≠ some "none") :
    ∃ queries mutations subscriptions : List graphql.Field,
      List.Forall₂ (fun m f => graphqlFieldFromMethod g m = Res.ok f)
        (service.Method.filter (fun m =>
          decide (m.Operation ≠ some "mutation" ∧ m.Operation ≠ some "subscription")))
        queries ∧
      List.Forall₂ (fun m f => graphqlFieldFromMethod g m = Res.ok f)
        (service.Method.filter (fun m => decide (m.Operation = some "mutation"))) mutations ∧
      List.Forall₂ (fun m f => graphqlFieldFromMethod g m = Res.ok f)
        (service.Method.filter (fun m => decide (m.Operation = some "subscription")))
        subscriptions ∧
      graphqlFromService g service = Res.ok
        ((if queries = [] then []
          else [graphql.GType.Object (g.typeNameMap.getStr service.FullName ++ "_Query")
                  queries]) ++
         (if mutations = [] then []
          else [graphql.GType.Object (g.typeNameMap.getStr service.FullName ++ "_Mutation")
                  mutations]) ++
         (if subscriptions = [] then []
          else [graphql.GType.Object
                  (g.typeNameMap.getStr service.FullName ++ "_Subscription") subscriptions])) ∧
      queries.length + mutations.length + subscriptions.length = service.Method.length := by
  obtain ⟨qs, ms, ss, hq, hm, hs, hloop, hlen⟩ :=
    graphqlServiceLoop_spec g service.Method hidx hnone [] [] []
  refine ⟨qs, ms, ss, hq, hm, hs, ?_, hlen⟩
  unfold graphqlFromService
  simp only [hloop, List.nil_append]
  cases qs <;> cases ms <;> cases ss <;> simp

/-- Witness of C20: the service `Greeter` of `helloworld.proto` with `SayHello`
(no tag) and `Ping` (mutation) gives the objects `Helloworld_Greeter_Query` and
`Helloworld_Greeter_Mutation`, one field each. -/
theorem graphqlFromService_groups_witness :
    (∀ m ∈ greeter.Method, m.Operation ≠ some "none") ∧
    (∃ queries mutations subscriptions : List graphql.Field,
      List.Forall₂ (fun m f => graphqlFieldFromMethod helloworldGenerator m = Res.ok f)
        (greeter.Method.filter (fun m =>
          decide (m.Operation ≠ some "mutation" ∧ m.Operation ≠ some "subscription")))
        queries ∧
      List.Forall₂ (fun m f => graphqlFieldFromMethod helloworldGenerator m = Res.ok f)
        (greeter.Method.filter (fun m => decide (m.Operation = some "mutation"))) mutations ∧
      List.Forall₂ (fun m f => graphqlFieldFromMethod helloworldGenerator m = Res.ok f)
        (greeter.Method.filter (fun m => decide (m.Operation = some "subscription")))
        subscriptions ∧
      graphqlFromService helloworldGenerator greeter = Res.ok
        ((if queries = [] then []
          else [graphql.GType.Object
                  (helloworldGenerator.typeNameMap.getStr greeter.FullName ++ "_Query")
                  queries]) ++
         (if mutations = [] then []
          else [graphql.GType.Object
                  (helloworldGenerator.typeNameMap.getStr greeter.FullName ++ "_Mutation")
                  mutations]) ++
         (if subscriptions = [] then []
          else [graphql.GType.Object
                  (helloworldGenerator.typeNameMap.getStr greeter.FullName ++ "_Subscription")
                  subscriptions])) ∧
      queries.length + mutations.length + subscriptions.length = greeter.Method.length) ∧
    graphqlFromService helloworldGenerator greeter = Res.ok
      [graphql.GType.Object "Helloworld_Greeter_Query"
         [{ Name := "SayHello", TypeName := "Helloworld_HelloReply",
            Arguments := [{ Name := "input", TypeName := "Helloworld_HelloRequest_Input",
                            Modifiers := 1 }],
            Modifiers := 1 }],
       graphql.GType.Object "Helloworld_Greeter_Mutation"
         [{ Name := "Ping", TypeName := "Boolean", Arguments := [], Modifiers := 0 }]] :=
  ⟨by decide, graphqlFromService_groups helloworldGenerator greeter (by decide) (by decide),
    by decide⟩

/-! ## The field list of a message -/

theorem oneofName_ok (message : MessageDescriptor) (index : Int) (h0 : 0 ≤ index)
    (hlt : index.toNat < message.OneofDecl.length) :
    ∃ oneof, message.OneofDecl.get? index.toNat = some oneof ∧
      oneofName message index = Res.ok oneof := by
  obtain ⟨oneof, ho⟩ : ∃ oneof, message.OneofDecl.get? index.toNat = some oneof := by
    cases hget : message.OneofDecl.get? index.toNat with
    | none =>
      rw [List.get?_eq_none] at hget
      omega
    | some v => exact ⟨v, rfl⟩
  refine ⟨oneof, ho, ?_⟩
  unfold oneofName
  rw [if_neg (not_lt.2 h0), ho]

theorem graphqlFieldsLoop_spec (g : Generator) (message : MessageDescriptor) (input : Bool)
    (rest : List FieldDescriptorProto) :
    ∀ (earlier : List FieldDescriptorProto) (seenOneofs : List Int) (acc : List graphql.Field),
      (∀ i, i ∈ seenOneofs ↔ ∃ e ∈ earlier, e.OneofIndex = some i) →
      (∀ f ∈ rest, f.OneofIndex = none → Lowerable g f) →
      (∀ f ∈ rest, ∀ i, f.OneofIndex = some i →
        0 ≤ i ∧ i.toNat < message.OneofDecl.length) →
      ∃ entries : List graphql.Field,
        graphqlFieldsLoop g message input rest seenOneofs acc = Res.ok (acc ++ entries) ∧
        List.Forall₂ (fun f entry =>
            (f.OneofIndex = none ∧
              graphqlField g f { Input := input, NullableScalars := false } = Res.ok entry) ∨
            (∃ i oneof, f.OneofIndex = some i ∧
              message.OneofDecl.get? i.toNat = some oneof ∧
              entry = oneofEntry message input oneof))
          (entryFields earlier rest) entries := by
  induction rest with
  | nil =>
    intro earlier seen acc _ _ _
    exact ⟨[], by simp [graphqlFieldsLoop], by simp [entryFields]⟩
  | cons f rest ih =>
    intro earlier seen acc hseen hlow hidx
    have hlow' : ∀ f' ∈ rest, f'.OneofIndex = none → Lowerable g f' :=
      fun f' hf' => hlow f' (List.mem_cons_of_mem _ hf')
    have hidx' : ∀ f' ∈ rest, ∀ i, f'.OneofIndex = some i →
        0 ≤ i ∧ i.toNat < message.OneofDecl.length :=
      fun f' hf' => hidx f' (List.mem_cons_of_mem _ hf')
    unfold graphqlFieldsLoop
    cases hoi : f.OneofIndex with
    | none =>
      have hseen' : ∀ i, i ∈ seen ↔ ∃ e ∈ earlier ++ [f], e.OneofIndex = some i := by
        intro i
        rw [hseen i]
        constructor
        · rintro ⟨e, he, hei⟩
          exact ⟨e, List.mem_append_left _ he, hei⟩
        · rintro ⟨e, he, hei⟩
          rcases List.mem_append.1 he with h1 | h1
          · exact ⟨e, h1, hei⟩
          · rw [List.mem_singleton.1 h1, hoi] at hei
            exact absurd hei (by simp)
      obtain ⟨field, hfield⟩ := graphqlField_ok g f { Input := input, NullableScalars := false }
        (hlow f (List.mem_cons_self _ _) hoi)
      obtain ⟨entries, hloop, hall⟩ := ih (earlier ++ [f]) seen (acc ++ [field]) hseen' hlow' hidx'
      refine ⟨field :: entries, ?_, ?_⟩
      · simp only [hfield, hloop]
        simp
      · simp only [entryFields, hoi, true_or, if_true]
        exact List.Forall₂.cons (Or.inl ⟨hoi, hfield⟩) hall
    | some index =>
      have hseen' : ∀ i, i ∈ index :: seen ↔ ∃ e ∈ earlier ++ [f], e.OneofIndex = some i := by
        intro i
        rw [List.mem_cons, hseen i]
        constructor
        · rintro (h1 | ⟨e, he, hei⟩)
          · exact ⟨f, by simp, by rw [hoi, h1]⟩
          · exact ⟨e, List.mem_append_left _ he, hei⟩
        · rintro ⟨e, he, hei⟩
          rcases List.mem_append.1 he with h1 | h1
          · exact Or.inr ⟨e, h1, hei⟩
          · rw [List.mem_singleton.1 h1, hoi] at hei
            exact Or.inl (Option.some.inj hei).symm
      by_cases hin : index ∈ seen
      · have hseen'' : ∀ i, i ∈ seen ↔ ∃ e ∈ earlier ++ [f], e.OneofIndex = some i := by
          intro i
          rw [← hseen' i, List.mem_cons]
          constructor
          · exact Or.inr
          · rintro (h1 | h1)
            · rw [h1]; exact hin
            · exact h1
        obtain ⟨entries, hloop, hall⟩ := ih (earlier ++ [f]) seen acc hseen'' hlow' hidx'
        refine ⟨entries, ?_, ?_⟩
        · simp only [hin, if_true, hloop]
        · have hnot : ¬ (f.OneofIndex = none ∨ ∀ e ∈ earlier, e.OneofIndex ≠ f.OneofIndex) := by
            rintro (h1 | h1)
            · rw [hoi] at h1
              exact absurd h1 (by simp)
            · obtain ⟨e, he, hei⟩ := (hseen index).1 hin
              exact h1 e he (by rw [hei, hoi])
          simp only [entryFields, hnot, if_false]
          exact hall
      · obtain ⟨h0, hlt⟩ := hidx f (List.mem_cons_self _ _) index hoi
        obtain ⟨oneof, hget, hname⟩ := oneofName_ok message index h0 hlt
        obtain ⟨entries, hloop, hall⟩ := ih (earlier ++ [f]) (index :: seen)
          (acc ++ [oneofEntry message input oneof]) hseen' hlow' hidx'
        refine ⟨oneofEntry message input oneof :: entries, ?_, ?_⟩
        · simp only [hin, if_false, hname]
          have hloop' := hloop
          simp only [oneofEntry] at hloop'
          simp only [hloop']
          simp [oneofEntry]
        · have hfirst : f.OneofIndex = none ∨ ∀ e ∈ earlier, e.OneofIndex ≠ f.OneofIndex := by
            right
            intro e he hei
            exact hin ((hseen index).2 ⟨e, he, by rw [hei, hoi]⟩)
          simp only [entryFields, hfirst, if_true]
          exact List.Forall₂.cons (Or.inr ⟨index, oneof, hoi, hget, rfl⟩) hall
theorem entryFields_sublist (rest : List FieldDescriptorProto) :
    ∀ earlier, (entryFields earlier rest).Sublist rest := by
  induction rest with
  | nil => intro earlier; simp [entryFields]
  | cons f rest ih =>
    intro earlier
    unfold entryFields
    split
    · exact List.Sublist.cons₂ _ (ih _)
    · exact List.Sublist.cons _ (ih _)

theorem entryFields_plain (rest : List FieldDescriptorProto) :
    ∀ earlier, (entryFields earlier rest).filter (fun f => decide (f.OneofIndex = none)) =
      rest.filter (fun f => decide (f.OneofIndex = none)) := by
  induction rest with
  | nil => intro earlier; simp [entryFields]
  | cons f rest ih =>
    intro earlier
    unfold entryFields
    by_cases hnone : f.OneofIndex = none
    · simp only [hnone, true_or, if_true, List.filter_cons, decide_True, ih]
    · by_cases hfirst : ∀ e ∈ earlier, e.OneofIndex ≠ f.OneofIndex
      · rw [if_pos (Or.inr hfirst)]
        simp [List.filter_cons, hnone, ih]
      · rw [if_neg (by rintro (h | h); exact hnone h; exact hfirst h)]
        simp [List.filter_cons, hnone, ih]

theorem entryFields_group (i : Int) (rest : List FieldDescriptorProto) :
    ∀ earlier, (entryFields earlier rest).filter (fun f => decide (f.OneofIndex = some i)) =
      if ∃ e ∈ earlier, e.OneofIndex = some i then []
      else (rest.find? (fun f => decide (f.OneofIndex = some i))).toList := by
  induction rest with
  | nil => intro earlier; simp [entryFields]
  | cons f rest ih =>
    intro earlier
    unfold entryFields
    by_cases hi : f.OneofIndex = some i
    · have hlater : ∃ e ∈ earlier ++ [f], e.OneofIndex = some i := ⟨f, by simp, hi⟩
      by_cases hseen : ∃ e ∈ earlier, e.OneofIndex = some i
      · have hnot : ¬ (f.OneofIndex = none ∨ ∀ e ∈ earlier, e.OneofIndex ≠ f.OneofIndex) := by
          rintro (h | h)
          · rw [hi] at h; exact absurd h (by simp)
          · obtain ⟨e, he, hei⟩ := hseen
            exact h e he (by rw [hei, hi])
        rw [if_neg hnot, ih, if_pos hlater, if_pos hseen]
      · have hfirst : f.OneofIndex = none ∨ ∀ e ∈ earlier, e.OneofIndex ≠ f.OneofIndex := by
          right
          intro e he hei
          exact hseen ⟨e, he, by rw [hei, hi]⟩
        rw [if_pos hfirst, if_neg hseen, List.filter_cons, ih, if_pos hlater]
        simp [hi]
    · have hiff : (∃ e ∈ earlier ++ [f], e.OneofIndex = some i) ↔
          ∃ e ∈ earlier, e.OneofIndex = some i := by
        constructor
        · rintro ⟨e, he, hei⟩
          rcases List.mem_append.1 he with h1 | h1
          · exact ⟨e, h1, hei⟩
          · rw [List.mem_singleton.1 h1] at hei
            exact absurd hei hi
        · rintro ⟨e, he, hei⟩
          exact ⟨e, List.mem_append_left _ he, hei⟩
      have hfind : (f :: rest).find? (fun f => decide (f.OneofIndex = some i)) =
          rest.find? (fun f => decide (f.OneofIndex = some i)) := by
        rw [List.find?_cons]
        simp [hi]
      rw [hfind]
      split
      · rw [List.filter_cons]
        simp only [hi, decide_False]
        rw [ih]
        simp only [hiff]
        simp
      · rw [ih]
        simp only [hiff]

/-- C18: when every field outside a oneof can be lowered and every oneof index
names a declared group, `graphqlFields` returns, for either value of `input`,
one entry per field of `entryFields` in declaration order: a field outside a
oneof gives its `graphqlField` lowering, the first field of a oneof group gives
the group entry (named after the group, no modifier, typed by the name built
from the message path plus the group name). Those fields are a sublist of the
declared ones holding every field outside a oneof and, for each group index,
exactly the first field of that group. -/
theorem graphqlFields_collapses_oneofs (g : Generator) (message : MessageDescriptor)
    (input : Bool)
    (hlow : ∀ f ∈ message.Field, f.OneofIndex = none → Lowerable g f)
    (hidx : ∀ f ∈ message.Field, ∀ i ∈ f.OneofIndex,
      0 ≤ i ∧ i.toNat < message.OneofDecl.length) :
    ∃ entries : List graphql.Field,
      graphqlFields g message input = Res.ok entries ∧
      List.Forall₂ (fun f entry =>
          (f.OneofIndex = none ∧
            graphqlField g f { Input := input, NullableScalars := false } = Res.ok entry) ∨
          (∃ i oneof, f.OneofIndex = some i ∧
            message.OneofDecl.get? i.toNat = some oneof ∧
            entry = oneofEntry message input oneof ∧
            entry.Name = oneof ∧ entry.Modifiers = 0 ∧ entry.Arguments = [] ∧
            entry.TypeName = buildGraphqlTypeName
              { Package := message.Package, TypeName := message.TypeName ++ [oneof],
                IsProtoMap := false, Input := input }))
        (entryFields [] message.Field) entries ∧
      (entryFields [] message.Field).Sublist message.Field ∧
      (entryFields [] message.Field).filter (fun f => decide (f.OneofIndex = none)) =
        message.Field.filter (fun f => decide (f.OneofIndex = none)) ∧
      ∀ i, (entryFields [] message.Field).filter (fun f => decide (f.OneofIndex = some i)) =
        (message.Field.find? (fun f => decide (f.OneofIndex = some i))).toList := by
  obtain ⟨entries, hrun, hall⟩ := graphqlFieldsLoop_spec g message input message.Field [] [] []
    (by intro i; simp) hlow (fun f hf i hi => hidx f hf i hi)
  refine ⟨entries, by simpa [graphqlFields] using hrun, ?_, entryFields_sublist _ _,
    entryFields_plain _ _, ?_⟩
  · refine List.Forall₂.imp ?_ hall
    rintro f entry (h | ⟨i, oneof, h1, h2, h3⟩)
    · exact Or.inl h
    · exact Or.inr ⟨i, oneof, h1, h2, h3, by rw [h3]; rfl, by rw [h3]; rfl, by rw [h3]; rfl,
        by rw [h3]; rfl⟩
  · intro i
    rw [entryFields_group i message.Field []]
    simp

theorem graphqlFields_collapses_oneofs_witness :
    (∀ f ∈ drawing.Field, f.OneofIndex = none → Lowerable shapesGenerator f) ∧
    (∀ f ∈ drawing.Field, ∀ i ∈ f.OneofIndex,
      0 ≤ i ∧ i.toNat < drawing.OneofDecl.length) ∧
    graphqlFields shapesGenerator drawing true = Res.ok
      [⟨"title", "String", [], 1⟩, ⟨"kind", "Pkg_Drawing_Kind_Input", [], 0⟩,
       ⟨"scale", "Float", [], 1⟩] ∧
    ∃ entries : List graphql.Field,
      graphqlFields shapesGenerator drawing true = Res.ok entries ∧
      List.Forall₂ (fun f entry =>
          (f.OneofIndex = none ∧
            graphqlField shapesGenerator f { Input := true, NullableScalars := false } =
              Res.ok entry) ∨
          (∃ i oneof, f.OneofIndex = some i ∧
            drawing.OneofDecl.get? i.toNat = some oneof ∧
            entry = oneofEntry drawing true oneof ∧
            entry.Name = oneof ∧ entry.Modifiers = 0 ∧ entry.Arguments = [] ∧
            entry.TypeName = buildGraphqlTypeName
              { Package := drawing.Package, TypeName := drawing.TypeName ++ [oneof],
                IsProtoMap := false, Input := true }))
        (entryFields [] drawing.Field) entries ∧
      (entryFields [] drawing.Field).Sublist drawing.Field ∧
      (entryFields [] drawing.Field).filter (fun f => decide (f.OneofIndex = none)) =
        drawing.Field.filter (fun f => decide (f.OneofIndex = none)) ∧
      ∀ i, (entryFields [] drawing.Field).filter (fun f => decide (f.OneofIndex = some i)) =
        (drawing.Field.find? (fun f => decide (f.OneofIndex = some i))).toList :=
  ⟨by decide, by decide, by decide,
    graphqlFields_collapses_oneofs shapesGenerator drawing true (by decide) (by decide)⟩

/-! ## The Point scenario -/

/-- C12: for the file of package `pkg` declaring `Point{ double x; double y; }`
and no service, with `ServiceTypesOnly` off (whatever the other options and
whatever positive recursion budget), the resolution pass returns a state in
which `Point` has the output name `Pkg_Point` and no input name, and
`graphqlFromMessage` emits exactly one declaration, the object `Pkg_Point` with
the fields `x` and `y` in that order, each `Float` with the non-null modifier. -/
theorem point_scenario (params : Parameters) (fuel : Nat)
    (hoff : params.ServiceTypesOnly = false) :
    ∃ g, buildTypeMaps (fuel + 1) (wrapFiles (newGenerator [pointFile] params)) = Res.ok g ∧
      g.typeNameMap.get? point.FullName = some "Pkg_Point" ∧
      g.inputNameMap.get? point.FullName = none ∧
      graphqlFromMessage g point = Res.ok
        [graphql.GType.Object "Pkg_Point"
          [{ Name := "x", TypeName := graphql.ScalarFloat, Arguments := [],
             Modifiers := graphql.TypeModifierNonNull },
           { Name := "y", TypeName := graphql.ScalarFloat, Arguments := [],
             Modifiers := graphql.TypeModifierNonNull }]] := by
  obtain ⟨sto, ts, du, wr⟩ := params
  simp only at hoff
  subst hoff
  refine ⟨_, rfl, ?_, ?_, ?_⟩
  · rfl
  · rfl
  · cases wr <;> rfl

theorem point_scenario_witness :
    defaultParameters.ServiceTypesOnly = false ∧
    ∃ g, buildTypeMaps (3 + 1) (wrapFiles (newGenerator [pointFile] defaultParameters)) =
        Res.ok g ∧
      g.typeNameMap.get? point.FullName = some "Pkg_Point" ∧
      g.inputNameMap.get? point.FullName = none ∧
      graphqlFromMessage g point = Res.ok
        [graphql.GType.Object "Pkg_Point"
          [{ Name := "x", TypeName := graphql.ScalarFloat, Arguments := [],
             Modifiers := graphql.TypeModifierNonNull },
           { Name := "y", TypeName := graphql.ScalarFloat, Arguments := [],
             Modifiers := graphql.TypeModifierNonNull }]] :=
  ⟨rfl, point_scenario defaultParameters 3 rfl⟩

/-! ## Exhaustive marking for the output table -/

/-- C14: when `ServiceTypesOnly` is not set, `buildTypeMaps` returns (given an
internally consistent graph and enough fuel), and in its final state every
message declared in a supplied file that has at least one field is a key of
`typeNameMap` whose value is `buildGraphqlTypeName` of its package, nested-name
path and map-entry flag with `Input` false, and every declared enum is a key of
`typeNameMap` whose value is `buildGraphqlTypeName` of its package and path. -/
theorem exhaustive_output_marking (g : Generator) (fuel : Nat) (hrun : RunOK g fuel)
    (hoff : g.params.ServiceTypesOnly = false) :
    ∃ g', buildTypeMaps fuel g = Res.ok g' ∧
      (∀ m ∈ allMessages g.reqFiles, m.Field ≠ [] →
        g'.typeNameMap.get? m.FullName = some (buildGraphqlTypeName
          { Package := m.Package, TypeName := m.TypeName, IsProtoMap := m.IsMap,
            Input := false })) ∧
      (∀ e ∈ allEnums g.reqFiles,
        g'.typeNameMap.get? e.FullName = some (buildGraphqlTypeName
          { Package := e.Package, TypeName := e.TypeName, IsProtoMap := false,
            Input := false })) := by
  obtain ⟨g', hok, _, hsound, _, _, hach, hparams⟩ := final_state_facts g fuel hrun
  have hnames : NamesDistinct g.reqFiles := hrun.2.1.1
  have hoff' : g'.params.ServiceTypesOnly = false := by rw [hparams]; exact hoff
  obtain ⟨hmsgs, henums⟩ := hach.2.2 hoff'
  refine ⟨g', hok, ?_, ?_⟩
  · intro m hm hfields
    obtain ⟨B, hB, hBn, hset⟩ := hmsgs m hm
    have hBm : B = m := hnames.1 B hB m hm hBn
    subst hBm
    rcases hset with hp | ⟨hzero, _⟩
    · obtain ⟨n, hn⟩ := Option.ne_none_iff_exists'.1 hp
      have hval := (message_key_sound hnames hsound hm false hn).2.1
      have hn' : g'.typeNameMap.get? B.FullName = some n := hn
      rw [hn', hval]
      rfl
    · exact absurd hzero hfields
  · intro e he
    obtain ⟨n, hn⟩ := Option.ne_none_iff_exists'.1 (henums e he)
    have hn' : g'.typeNameMap.get? e.FullName = some n := hn
    have hval := enum_key_sound hnames hsound he hn'
    rw [hn', hval]
    rfl

theorem exhaustive_output_marking_witness :
    RunOK libraryRequest 4 ∧ libraryRequest.params.ServiceTypesOnly = false ∧
    (∃ g', buildTypeMaps 4 libraryRequest = Res.ok g' ∧
      (∀ m ∈ allMessages libraryRequest.reqFiles, m.Field ≠ [] →
        g'.typeNameMap.get? m.FullName = some (buildGraphqlTypeName
          { Package := m.Package, TypeName := m.TypeName, IsProtoMap := m.IsMap,
            Input := false })) ∧
      (∀ e ∈ allEnums libraryRequest.reqFiles,
        g'.typeNameMap.get? e.FullName = some (buildGraphqlTypeName
          { Package := e.Package, TypeName := e.TypeName, IsProtoMap := false,
            Input := false }))) ∧
    buildTypeMaps 4 libraryRequest = Res.ok libraryGenerator ∧
    libraryGenerator.typeNameMap.get? ".lib.Book" = some "Lib_Book" ∧
    libraryGenerator.typeNameMap.get? ".lib.Author" = some "Lib_Author" ∧
    libraryGenerator.typeNameMap.get? ".lib.Genre" = some "Lib_Genre" ∧
    libraryGenerator.typeNameMap.get? ".lib.Empty" = none :=
  ⟨by decide, by decide, exhaustive_output_marking libraryRequest 4 (by decide) (by decide),
    by decide, by decide, by decide, by decide, by decide⟩

/-! ## Frame rules of the resolution pass -/

/-- Frame rule of a visit: a reflexive and transitive relation that holds across
each write of a visit (the naming of a key in the table selected by `input`,
an erasure, the naming of an indexed enum) holds across the whole visit. -/
theorem buildTypesFromMessage_frame (input : Bool) (R : Generator → Generator → Prop)
    (hrefl : ∀ g, R g g) (htrans : ∀ a b c, R a b → R b c → R a c)
    (hname : ∀ g k v, R g (g.setName input k v))
    (herase : ∀ g k, R g { g with emptyMessages := g.emptyMessages.set k true })
    (henum : ∀ g name e, g.enums.get? name = some e → R g (buildTypesFromEnum g e))
    (fuel : Nat) :
    ∀ (g g' : Generator) (m : MessageDescriptor),
      buildTypesFromMessage fuel g m input = Res.ok g' → R g g' := by
  induction fuel with
  | zero =>
    intro g g' m hrun
    simp [buildTypesFromMessage] at hrun
  | succ fuel ih =>
    intro g g' m hrun
    unfold buildTypesFromMessage at hrun
    by_cases hnamed : (g.nameMap input).getStr m.FullName ≠ ""
    · rw [if_pos hnamed] at hrun
      simp only [Res.ok.injEq] at hrun
      subst hrun
      exact hrefl g
    · rw [if_neg hnamed] at hrun
      by_cases hlen : m.Field.length = 0
      · rw [if_pos hlen] at hrun
        simp only [Res.ok.injEq] at hrun
        subst hrun
        exact herase g _
      · rw [if_neg hlen] at hrun
        obtain ⟨_, hR, _⟩ := forEach_partial
          (visitField (fun h name =>
            match h.messages.get? name with
            | none => Res.fault Fault.nilDereference
            | some referenced => buildTypesFromMessage fuel h referenced input))
          (fun _ => True) R (fun _ _ => True)
          hrefl htrans (fun _ _ _ _ _ => trivial)
          m.Field
          (by
            intro f _ h h' _ hbody
            refine ⟨trivial, ?_, trivial⟩
            unfold visitField at hbody
            by_cases hty : f.FType = FieldType.TYPE_MESSAGE
            · have hne : ¬ f.FType = FieldType.TYPE_ENUM := by rw [hty]; decide
              rw [if_pos hty] at hbody
              cases hB : h.messages.get? f.TypeName with
              | none => simp [hB] at hbody
              | some B =>
                simp only [hB] at hbody
                cases hv : buildTypesFromMessage fuel h B input with
                | fault e => simp [hv] at hbody
                | ok h1 =>
                  simp only [hv, hne, if_false, Res.ok.injEq] at hbody
                  subst hbody
                  exact ih h h1 B hv
            · rw [if_neg hty] at hbody
              by_cases hen : f.FType = FieldType.TYPE_ENUM
              · simp only [hen, if_true] at hbody
                unfold buildTypesFromEnumRef at hbody
                cases hE : h.enums.get? f.TypeName with
                | none => simp [hE] at hbody
                | some E =>
                  simp only [hE, Res.ok.injEq] at hbody
                  subst hbody
                  exact henum h _ E hE
              · simp only [hen, if_false, Res.ok.injEq] at hbody
                subst hbody
                exact hrefl h)
          _ g' trivial hrun
        exact htrans _ _ _ (hname g _ _) hR
/-- C16: a visit of an indexed message returns (in a consistent index, with
enough fuel); with `input` false it leaves `inputNameMap` unchanged; with
`input` true it leaves the `typeNameMap` entry of every indexed message
unchanged, and every entry of `typeNameMap` it changes is the entry of an indexed
enum, set to the name built for that enum. Accordingly a message with fields can
be a key of neither table, of `inputNameMap` only, of `typeNameMap` only, or of
both, as the four messages of `deskFile` are after the pass. -/
theorem name_tables_independent (fuel : Nat) (g : Generator) (m : MessageDescriptor)
    (input : Bool) (hg : Consistent g) (hm : m ∈ g.messages.map Prod.snd)
    (hfuel : unnamedCount g input < fuel) :
    (∃ g', buildTypesFromMessage fuel g m input = Res.ok g' ∧
      (input = false → g'.inputNameMap = g.inputNameMap) ∧
      (input = true →
        (∀ q ∈ g.messages.map Prod.snd,
          g'.typeNameMap.get? q.FullName = g.typeNameMap.get? q.FullName) ∧
        (∀ k, g'.typeNameMap.get? k ≠ g.typeNameMap.get? k →
          ∃ p ∈ g.enums, p.2.FullName = k ∧
            g'.typeNameMap.get? k = some (enumTypeName p.2)))) ∧
    (buildTypeMaps 5 deskRequest = Res.ok deskGenerator ∧
      (∀ q ∈ deskFile.Messages, q.Field ≠ []) ∧
      (deskGenerator.typeNameMap.get? ".desk.Spare" = none ∧
        deskGenerator.inputNameMap.get? ".desk.Spare" = none) ∧
      (deskGenerator.typeNameMap.get? ".desk.Ask" = none ∧
        deskGenerator.inputNameMap.get? ".desk.Ask" = some "Desk_Ask_Input") ∧
      (deskGenerator.typeNameMap.get? ".desk.Answer" = some "Desk_Answer" ∧
        deskGenerator.inputNameMap.get? ".desk.Answer" = none) ∧
      (deskGenerator.typeNameMap.get? ".desk.Echo" = some "Desk_Echo" ∧
        deskGenerator.inputNameMap.get? ".desk.Echo" = some "Desk_Echo_Input")) := by
  refine ⟨?_, by decide⟩
  obtain ⟨g', hrun, _, _, _⟩ := buildTypesFromMessage_total input fuel g m hg hm hfuel
  refine ⟨g', hrun, ?_, ?_⟩
  · intro hin
    subst hin
    exact buildTypesFromMessage_frame false (fun a b => b.inputNameMap = a.inputNameMap)
      (fun _ => rfl) (fun _ _ _ h1 h2 => h2.trans h1) (fun _ _ _ => rfl) (fun _ _ => rfl)
      (fun _ _ _ _ => rfl) fuel g g' m hrun
  · intro hin
    subst hin
    have hframe := buildTypesFromMessage_frame true
      (fun a b => b.enums = a.enums ∧ ∀ k, b.typeNameMap.get? k = a.typeNameMap.get? k ∨
        ∃ p ∈ a.enums, p.2.FullName = k ∧ b.typeNameMap.get? k = some (enumTypeName p.2))
      (fun _ => ⟨rfl, fun _ => Or.inl rfl⟩)
      (by
        intro a b c ⟨hab, habk⟩ ⟨hbc, hbck⟩
        refine ⟨hbc.trans hab, ?_⟩
        intro k
        rcases hbck k with h1 | ⟨p, hp, hpk, hv⟩
        · rcases habk k with h2 | ⟨p, hp, hpk, hv⟩
          · exact Or.inl (h1.trans h2)
          · exact Or.inr ⟨p, hp, hpk, h1.trans hv⟩
        · exact Or.inr ⟨p, hab ▸ hp, hpk, hv⟩)
      (fun _ _ _ => ⟨rfl, fun _ => Or.inl rfl⟩)
      (fun _ _ => ⟨rfl, fun _ => Or.inl rfl⟩)
      (by
        intro a name e he
        refine ⟨rfl, ?_⟩
        intro k
        have htable : (buildTypesFromEnum a e).typeNameMap =
            a.typeNameMap.set e.FullName (enumTypeName e) := rfl
        rw [htable, GoMap.get?_set]
        by_cases hk : e.FullName = k
        · rw [if_pos hk]
          exact Or.inr ⟨(name, e), GoMap.mem_of_get? _ _ _ he, hk, rfl⟩
        · rw [if_neg hk]
          exact Or.inl rfl)
      fuel g g' m hrun
    refine ⟨?_, ?_⟩
    · intro q hq
      rcases hframe.2 q.FullName with h1 | ⟨p, hp, hpk, _⟩
      · exact h1
      · obtain ⟨q', hq', hqq⟩ := List.mem_map.1 hq
        exact absurd (by rw [hpk, ← hqq]) (hg.2.2.2 p hp q' hq')
    · intro k hk
      rcases hframe.2 k with h1 | h2
      · exact absurd h1 hk
      · exact h2

theorem name_tables_independent_witness :
    Consistent libraryRegistered ∧ book ∈ libraryRegistered.messages.map Prod.snd ∧
    unnamedCount libraryRegistered true < 4 ∧
    buildTypesFromMessage 4 libraryRegistered book true = Res.ok
      { libraryRegistered with
        typeNameMap := [(".lib.Genre", "Lib_Genre")],
        emptyMessages := [(".lib.Empty", true), (".lib.Empty", true)],
        inputNameMap := [(".lib.Author", "Lib_Author_Input"), (".lib.Book", "Lib_Book_Input")] } ∧
    ((∃ g', buildTypesFromMessage 4 libraryRegistered book true = Res.ok g' ∧
      (true = false → g'.inputNameMap = libraryRegistered.inputNameMap) ∧
      (true = true →
        (∀ q ∈ libraryRegistered.messages.map Prod.snd,
          g'.typeNameMap.get? q.FullName = libraryRegistered.typeNameMap.get? q.FullName) ∧
        (∀ k, g'.typeNameMap.get? k ≠ libraryRegistered.typeNameMap.get? k →
          ∃ p ∈ libraryRegistered.enums, p.2.FullName = k ∧
            g'.typeNameMap.get? k = some (enumTypeName p.2)))) ∧
    (buildTypeMaps 5 deskRequest = Res.ok deskGenerator ∧
      (∀ q ∈ deskFile.Messages, q.Field ≠ []) ∧
      (deskGenerator.typeNameMap.get? ".desk.Spare" = none ∧
        deskGenerator.inputNameMap.get? ".desk.Spare" = none) ∧
      (deskGenerator.typeNameMap.get? ".desk.Ask" = none ∧
        deskGenerator.inputNameMap.get? ".desk.Ask" = some "Desk_Ask_Input") ∧
      (deskGenerator.typeNameMap.get? ".desk.Answer" = some "Desk_Answer" ∧
        deskGenerator.inputNameMap.get? ".desk.Answer" = none) ∧
      (deskGenerator.typeNameMap.get? ".desk.Echo" = some "Desk_Echo" ∧
        deskGenerator.inputNameMap.get? ".desk.Echo" = some "Desk_Echo_Input"))) :=
  ⟨by decide, by decide, by decide, by decide,
    name_tables_independent 4 libraryRegistered book true (by decide) (by decide) (by decide)⟩

/-! ## Names are assigned once -/

theorem entriesKept_refl (g : Generator) : EntriesKept g g := fun _ _ _ h => h

theorem entriesKept_trans {a b c : Generator} (h1 : EntriesKept a b) (h2 : EntriesKept b c) :
    EntriesKept a c := fun i k v h => h2 i k v (h1 i k v h)

theorem service_key_sound {fs : List FileDescriptor} {g : Generator}
    (hnames : NamesDistinct fs) (hserv : ServicesDistinct fs) (hs : TablesSound fs g)
    {f : FileDescriptor} {s : ServiceDescriptor} (hf : f ∈ fs) (hsf : s ∈ f.Services)
    {n : String} (hn : g.typeNameMap.get? s.FullName = some n) :
    n = serviceTypeName f.Package s := by
  have hmem := mem_allServices_of_mem hf hsf
  rcases hs.1 _ _ hn with ⟨m, h1, h2, _⟩ | ⟨e, h1, h2, _⟩ | ⟨s', h1, h2, h3⟩
  · exact absurd h2 (hnames.2.2.2.1 m h1 _ hmem)
  · exact absurd h2 (hnames.2.2.2.2 e h1 _ hmem)
  · have heq := hserv s' h1 _ hmem h2
    rw [heq] at h3
    exact h3

/-- One write of the pass from a sound state keeps every entry of both tables. -/
theorem entriesKept_step {fs : List FileDescriptor} {roots : Roots} {g h : Generator}
    (hnames : NamesDistinct fs) (hserv : ServicesDistinct fs) (hs : TablesSound fs g)
    (hstep : Step fs roots g h) : EntriesKept g h := by
  cases hstep with
  | registerMessage m hm => exact fun _ _ _ hk => hk
  | registerEnum e he => exact fun _ _ _ hk => hk
  | erase m hm hzero => exact fun _ _ _ hk => hk
  | nameMessage m input hm hfields hindexed hfresh horigin =>
    intro input' k v hk
    by_cases hsame : input' = input ∧ k = m.FullName
    · obtain ⟨h1, h2⟩ := hsame
      subst h1
      subst h2
      have hval := (message_key_sound hnames hs hm input' hk).2.1
      rw [hval]
      cases input' <;> simp [Generator.setName, Generator.nameMap, GoMap.get?_set]
    · cases input <;> cases input' <;>
        simp_all [Generator.setName, Generator.nameMap, GoMap.get?_set]
      · intro heq
        exact absurd heq.symm hsame
      · intro heq
        exact absurd heq.symm hsame
  | nameEnum e he horigin =>
    intro input' k v hk
    cases input'
    · have htable : (buildTypesFromEnum g e).typeNameMap =
          g.typeNameMap.set e.FullName (enumTypeName e) := rfl
      show (buildTypesFromEnum g e).typeNameMap.get? k = some v
      rw [htable, GoMap.get?_set]
      by_cases heq : e.FullName = k
      · rw [if_pos heq]
        subst heq
        rw [enum_key_sound hnames hs he hk]
      · rw [if_neg heq]
        exact hk
    · exact hk
  | nameService f s hf hsf =>
    intro input' k v hk
    cases input'
    · show (g.typeNameMap.set s.FullName (serviceTypeName f.Package s)).get? k = some v
      rw [GoMap.get?_set]
      by_cases heq : s.FullName = k
      · rw [if_pos heq]
        subst heq
        rw [service_key_sound hnames hserv hs hf hsf hk]
      · rw [if_neg heq]
        exact hk
    · exact hk

theorem entriesKept_reach {fs : List FileDescriptor} {roots : Roots} {g h : Generator}
    (hnames : NamesDistinct fs) (hserv : ServicesDistinct fs) (hs : TablesSound fs g)
    (hreach : Reach fs roots g h) : EntriesKept g h := by
  induction hreach with
  | refl => exact entriesKept_refl g
  | tail hgb hstep ih =>
    exact entriesKept_trans ih (entriesKept_step hnames hserv (tablesSound_reach hgb hs) hstep)

/-- C15: over a graph whose messages, enums and services have pairwise distinct
full names, in every sound state of the pass (every table entry written for a
declared descriptor, the index holding declared descriptors) each step keeps every
entry present in `typeNameMap` and in `inputNameMap` with its value: a call of
`buildTypesFromMessage` on an indexed message that returns, a call of
`buildTypesFromEnum` on a declared enum, the assignment of a service name, and
more generally every sequence of writes of the pass. -/
theorem names_assigned_once (fs : List FileDescriptor) (hnames : NamesDistinct fs)
    (hserv : ServicesDistinct fs) (g : Generator) (hsound : TablesSound fs g)
    (hidx : IndexSound fs g) :
    (∀ (fuel : Nat) (m : MessageDescriptor) (input : Bool) (g' : Generator),
      g.messages.get? m.FullName = some m →
      buildTypesFromMessage fuel g m input = Res.ok g' → EntriesKept g g') ∧
    (∀ e ∈ allEnums fs, EntriesKept g (buildTypesFromEnum g e)) ∧
    (∀ f ∈ fs, ∀ s ∈ f.Services,
      EntriesKept g
        { g with typeNameMap := g.typeNameMap.set s.FullName (buildGraphqlTypeName
            { Package := f.Package, TypeName := s.TypeName, IsProtoMap := false,
              Input := false }) }) ∧
    (∀ (roots : Roots) (h : Generator), Reach fs roots g h → EntriesKept g h) := by
  refine ⟨?_, ?_, ?_, ?_⟩
  · intro fuel m input g' hget hrun
    have hspec := buildTypesFromMessage_spec fs anyRoots input fuel g g' m [] [] hidx hget
      (Or.inl trivial) hrun
    exact entriesKept_reach hnames hserv hsound hspec.1.2
  · intro e he
    have hstep : Step fs anyRoots g (buildTypesFromEnum g e) :=
      Step.nameEnum g e he (Or.inl trivial)
    exact entriesKept_step hnames hserv hsound hstep
  · intro f hf s hs
    have hstep : Step fs anyRoots g (g.setName false s.FullName (serviceTypeName f.Package s)) :=
      Step.nameService g f s hf hs
    exact entriesKept_step hnames hserv hsound hstep
  · intro roots h hreach
    exact entriesKept_reach hnames hserv hsound hreach

theorem names_assigned_once_witness :
    NamesDistinct [libraryFile] ∧ ServicesDistinct [libraryFile] ∧
    TablesSound [libraryFile] libraryGenerator ∧ IndexSound [libraryFile] libraryGenerator ∧
    libraryGenerator.typeNameMap.get? ".lib.Book" = some "Lib_Book" ∧
    buildTypesFromMessage 4 libraryGenerator book true = Res.ok libraryGenerator ∧
    ((∀ (fuel : Nat) (m : MessageDescriptor) (input : Bool) (g' : Generator),
      libraryGenerator.messages.get? m.FullName = some m →
      buildTypesFromMessage fuel libraryGenerator m input = Res.ok g' →
        EntriesKept libraryGenerator g') ∧
    (∀ e ∈ allEnums [libraryFile], EntriesKept libraryGenerator
      (buildTypesFromEnum libraryGenerator e)) ∧
    (∀ f ∈ [libraryFile], ∀ s ∈ f.Services,
      EntriesKept libraryGenerator
        { libraryGenerator with
          typeNameMap := libraryGenerator.typeNameMap.set s.FullName (buildGraphqlTypeName
            { Package := f.Package, TypeName := s.TypeName, IsProtoMap := false,
              Input := false }) }) ∧
    (∀ (roots : Roots) (h : Generator), Reach [libraryFile] roots libraryGenerator h →
      EntriesKept libraryGenerator h)) := by
  obtain ⟨g', hok, hidx, hsound, _⟩ := final_state_facts libraryRequest 4 (by decide)
  have hrun : buildTypeMaps 4 libraryRequest = Res.ok libraryGenerator := by decide
  rw [hrun] at hok
  injection hok with hok
  subst hok
  have hfs : libraryRequest.reqFiles = [libraryFile] := by decide
  rw [hfs] at hidx hsound
  exact ⟨by decide, by decide, hsound, hidx, by decide, by decide,
    names_assigned_once [libraryFile] (by decide) (by decide) libraryGenerator hsound hidx⟩

/-! ## Services are keys of the output table -/

theorem carries_refl (g : Generator) : Carries g g := ⟨rfl, fun _ _ h => h⟩

theorem carries_trans {a b c : Generator} (h1 : Carries a b) (h2 : Carries b c) : Carries a c :=
  ⟨h2.1.trans h1.1, fun i k h => h2.2 i k (h1.2 i k h)⟩

theorem carries_setName (g : Generator) (input : Bool) (k v : String) :
    Carries g (g.setName input k v) :=
  ⟨by cases input <;> rfl, (extends_setName g input k v).2.2.1⟩

theorem carries_visit (input : Bool) (fuel : Nat) (g g' : Generator) (m : MessageDescriptor)
    (hrun : buildTypesFromMessage fuel g m input = Res.ok g') : Carries g g' :=
  buildTypesFromMessage_frame input Carries carries_refl (fun _ _ _ h1 h2 => carries_trans h1 h2)
    (carries_setName · input) (fun _ _ => ⟨rfl, fun _ _ h => h⟩)
    (fun a _ e _ => (⟨rfl, (extends_enum a e).2.2.1⟩ : Carries a (buildTypesFromEnum a e)))
    fuel g g' m hrun

theorem carries_visitRef (input : Bool) (fuel : Nat) (g g' : Generator) (name : String)
    (hrun : buildTypesFromMessageRef fuel input g name = Res.ok g') : Carries g g' := by
  unfold buildTypesFromMessageRef at hrun
  cases hm : g.messages.get? name with
  | none => simp [hm] at hrun
  | some m =>
    simp only [hm] at hrun
    exact carries_visit input fuel g g' m hrun

theorem carries_method (fuel : Nat) (g g' : Generator) (method : MethodDescriptorProto)
    (hrun : buildTypesFromMethod fuel g method = Res.ok g') : Carries g g' := by
  unfold buildTypesFromMethod at hrun
  by_cases hsto : g.params.ServiceTypesOnly = true
  · simp only [hsto, if_true] at hrun
    cases h1 : buildTypesFromMessageRef fuel false g method.OutputType with
    | fault e => simp [h1] at hrun
    | ok g1 =>
      simp only [h1] at hrun
      exact carries_trans (carries_visitRef false fuel g g1 _ h1)
        (carries_visitRef true fuel g1 g' _ hrun)
  · simp only [hsto] at hrun
    exact carries_visitRef true fuel g g' _ hrun

theorem carries_service (fuel : Nat) (pkg : String) (g g' : Generator)
    (service : ServiceDescriptor)
    (hrun : buildTypesFromService fuel pkg g service = Res.ok g') :
    Carries g g' ∧ Present g' false service.FullName := by
  unfold buildTypesFromService at hrun
  obtain ⟨_, hR, _⟩ := forEach_partial (buildTypesFromMethod fuel)
    (fun _ => True) Carries (fun _ _ => True) carries_refl
    (fun _ _ _ h1 h2 => carries_trans h1 h2) (fun _ _ _ _ _ => trivial) service.Method
    (fun method _ a b _ hb => ⟨trivial, carries_method fuel a b method hb, trivial⟩)
    _ g' trivial hrun
  have hset := carries_setName g false service.FullName (serviceTypeName pkg service)
  refine ⟨carries_trans hset hR, hR.2 false _ ?_⟩
  exact (present_setName_iff g false false service.FullName service.FullName _).2
    (Or.inl ⟨rfl, rfl⟩)

theorem carries_enums (enums : List EnumDescriptor) (g : Generator) :
    Carries g (enums.foldl buildTypesFromEnum g) := by
  induction enums generalizing g with
  | nil => exact carries_refl g
  | cons e rest ih =>
    rw [List.foldl_cons]
    have hone : Carries g (buildTypesFromEnum g e) := ⟨rfl, (extends_enum g e).2.2.1⟩
    exact carries_trans hone (ih _)

theorem carries_file (fuel : Nat) (g g' : Generator) (f : FileDescriptor)
    (hrun : buildTypesFromFile fuel g f = Res.ok g') :
    Carries g g' ∧ ∀ s ∈ f.Services, Present g' false s.FullName := by
  unfold buildTypesFromFile at hrun
  have hreg : Carries g (registerFile g f) := by
    rw [registerFile_eq]
    exact ⟨rfl, fun _ _ h => h⟩
  have hservices : ∀ g3, Carries g g3 →
      forEach (buildTypesFromService fuel f.Package) f.Services g3 = Res.ok g' →
      Carries g g' ∧ ∀ s ∈ f.Services, Present g' false s.FullName := by
    intro g3 h3 hloop
    obtain ⟨_, hR, hQ⟩ := forEach_partial (buildTypesFromService fuel f.Package)
      (fun _ => True) Carries (fun s h => Present h false s.FullName) carries_refl
      (fun _ _ _ h1 h2 => carries_trans h1 h2) (fun _ _ _ hq hab => hab.2 false _ hq)
      f.Services
      (fun s _ a b _ hb =>
        ⟨trivial, (carries_service fuel f.Package a b s hb).1,
          (carries_service fuel f.Package a b s hb).2⟩)
      g3 g' trivial hloop
    exact ⟨carries_trans h3 hR, hQ⟩
  by_cases hsto : (registerFile g f).params.ServiceTypesOnly = true
  · simp only [hsto, not_true_eq_false, if_false] at hrun
    exact hservices _ hreg hrun
  · simp only [hsto, not_false_eq_true, if_true] at hrun
    cases hmsgs : forEach (fun h message => buildTypesFromMessage fuel h message false)
        f.Messages (registerFile g f) with
    | fault e => simp [hmsgs] at hrun
    | ok g2 =>
      simp only [hmsgs] at hrun
      obtain ⟨_, hR, _⟩ := forEach_partial
        (fun h message => buildTypesFromMessage fuel h message false)
        (fun _ => True) Carries (fun _ _ => True) carries_refl
        (fun _ _ _ h1 h2 => carries_trans h1 h2) (fun _ _ _ _ _ => trivial) f.Messages
        (fun m _ a b _ hb => ⟨trivial, carries_visit false fuel a b m hb, trivial⟩)
        _ g2 trivial hmsgs
      exact hservices _ (carries_trans hreg (carries_trans hR (carries_enums f.Enums g2))) hrun

/-- After the pass every service of a walked file is a key of `typeNameMap`. -/
theorem services_present (fuel : Nat) (g g' : Generator)
    (hrun : buildTypeMaps fuel g = Res.ok g') :
    ∀ f ∈ g.reqFiles, ∀ s ∈ f.Services, Present g' false s.FullName := by
  unfold buildTypeMaps at hrun
  obtain ⟨_, _, hQ⟩ := forEach_partial (buildTypesFromFileRef fuel)
    (fun h => h.files = g.files) Carries
    (fun fileDescriptor h => ∀ f, g.files.get? fileDescriptor.Name = some f →
      ∀ s ∈ f.Services, Present h false s.FullName)
    carries_refl (fun _ _ _ h1 h2 => carries_trans h1 h2)
    (fun _ _ _ hq hab f hf s hs => hab.2 false _ (hq f hf s hs))
    g.req
    (by
      intro fileDescriptor _ a b ha hb
      unfold buildTypesFromFileRef at hb
      cases hfile : a.files.get? fileDescriptor.Name with
      | none => simp [hfile] at hb
      | some file =>
        simp only [hfile] at hb
        obtain ⟨hc, hp⟩ := carries_file fuel a b file hb
        refine ⟨hc.1.trans ha, hc, ?_⟩
        intro f hf
        rw [← ha, hfile] at hf
        injection hf with hf
        subst hf
        exact hp)
    g.reset g' rfl hrun
  intro f hf s hs
  obtain ⟨fileDescriptor, hfd, hget⟩ := List.mem_filterMap.1 hf
  exact hQ fileDescriptor hfd f hget s hs

/-! ## The Greeter scenario -/

/-- C11 (as stated, refuted): for the service `Greeter` with the single method
`SayHello(HelloRequest) returns (HelloReply)`, declared without package, both
messages having a field and the method carrying no operation option, the pass
followed by `graphqlFromService` emits the one object `_Greeter_Query` with the
one field `SayHello`, argument `input` of type `_HelloRequest_Input` and result
`_HelloReply`: the names carry the package part and its underscore, the field
keeps the name of the method as declared. It is not the object `Greeter_Query`
with a field `sayHello`. -/
theorem greeter_scenario_differs :
    RunOK plainGreeterRequest 3 ∧
    buildTypeMaps 3 plainGreeterRequest = Res.ok plainGreeterGenerator ∧
    graphqlFromService plainGreeterGenerator plainGreeter = Res.ok
      [graphql.GType.Object "_Greeter_Query"
        [{ Name := "SayHello", TypeName := "_HelloReply",
           Arguments := [{ Name := "input", TypeName := "_HelloRequest_Input",
                           Modifiers := graphql.TypeModifierNonNull }],
           Modifiers := graphql.TypeModifierNonNull }]] ∧
    graphqlFromService plainGreeterGenerator plainGreeter ≠ Res.ok
      [graphql.GType.Object "Greeter_Query"
        [{ Name := "sayHello", TypeName := "HelloReply",
           Arguments := [{ Name := "input", TypeName := "HelloRequest_Input",
                           Modifiers := graphql.TypeModifierNonNull }],
           Modifiers := graphql.TypeModifierNonNull }]] := by
  decide

/-- C11 (amended): over an internally consistent graph whose services have
distinct full names, for a service of a walked file with exactly one method, that
carries no operation option and whose request and response are declared messages
with at least one field, the pass returns and `graphqlFromService` emits exactly
one object, named by the name built for the service (package part, underscore,
service name) followed by `_Query`, with exactly one field: it bears the name of
the method unchanged, has the one argument `input` typed by the input name built
for the request with the non-null modifier, and the result type is the output
name built for the response with the non-null modifier. -/
theorem greeter_scenario (g : Generator) (fuel : Nat) (hrun : RunOK g fuel)
    (hserv : ServicesDistinct g.reqFiles)
    (file : FileDescriptor) (hfile : file ∈ g.reqFiles)
    (service : ServiceDescriptor) (hservice : service ∈ file.Services)
    (method : MethodDescriptorProto) (hmethod : service.Method = [method])
    (hkind : method.Operation = none)
    (request response : MessageDescriptor)
    (hreq : request ∈ allMessages g.reqFiles) (hresp : response ∈ allMessages g.reqFiles)
    (hin : method.InputType = request.FullName) (hout : method.OutputType = response.FullName)
    (hreqf : request.Field ≠ []) (hrespf : response.Field ≠ []) :
    ∃ g', buildTypeMaps fuel g = Res.ok g' ∧
      graphqlFromService g' service = Res.ok
        [graphql.GType.Object
          (buildGraphqlTypeName
            { Package := file.Package, TypeName := service.TypeName, IsProtoMap := false,
              Input := false } ++ "_Query")
          [{ Name := method.Name,
             TypeName := buildGraphqlTypeName
               { Package := response.Package, TypeName := response.TypeName,
                 IsProtoMap := response.IsMap, Input := false },
             Arguments := [{ Name := "input",
                             TypeName := buildGraphqlTypeName
                               { Package := request.Package, TypeName := request.TypeName,
                                 IsProtoMap := request.IsMap, Input := true },
                             Modifiers := graphql.TypeModifierNonNull }],
             Modifiers := graphql.TypeModifierNonNull }]] := by
  obtain ⟨g', hok, _, hsound, hget, _, hach, hparams⟩ := final_state_facts g fuel hrun
  have hnames : NamesDistinct g.reqFiles := hrun.2.1.1
  have hpaths : PathsNonempty g.reqFiles := hrun.2.1.2.1
  refine ⟨g', hok, ?_⟩
  have hmeth : method ∈ allMethods g.reqFiles :=
    mem_allMethods_of_mem hfile hservice (by rw [hmethod]; exact List.mem_singleton.2 rfl)
  -- the service name
  have hsname : g'.typeNameMap.getStr service.FullName = serviceTypeName file.Package service := by
    obtain ⟨n, hn⟩ := Option.ne_none_iff_exists'.1
      (services_present fuel g g' hok file hfile service hservice)
    have hn' : g'.typeNameMap.get? service.FullName = some n := hn
    have hval := service_key_sound hnames hserv hsound hfile hservice hn'
    simp [GoMap.getStr, hn', hval]
  -- the request
  have hreqName : g'.inputNameMap.getStr request.FullName = messageTypeName request true := by
    obtain ⟨B, hB, hBn, hset⟩ := hach.1 method hmeth
    have hBm : B = request := hnames.1 B hB request hreq (hBn.trans hin)
    subst hBm
    rcases hset with hp | ⟨hzero, _⟩
    · rw [hin] at hp
      exact (message_getStr_of_present hnames hpaths hsound hreq true hp).1
    · exact absurd hzero hreqf
  -- the response
  have hrespSettled : NameSettled g.reqFiles g' false response.FullName := by
    by_cases hsto : g'.params.ServiceTypesOnly = true
    · have := hach.2.1 hsto method hmeth
      rw [hout] at this
      exact this
    · exact (hach.2.2 (by simpa using hsto)).1 response hresp
  have hrespName : g'.typeNameMap.getStr response.FullName = messageTypeName response false := by
    obtain ⟨B, hB, hBn, hset⟩ := hrespSettled
    have hBm : B = response := hnames.1 B hB response hresp hBn
    subst hBm
    rcases hset with hp | ⟨hzero, _⟩
    · exact (message_getStr_of_present hnames hpaths hsound hresp false hp).1
    · exact absurd hzero hrespf
  have hreqLen : request.Field.length ≠ 0 := fun h => hreqf (List.length_eq_zero.1 h)
  have hrespLen : response.Field.length ≠ 0 := fun h => hrespf (List.length_eq_zero.1 h)
  have hfield : graphqlFieldFromMethod g' method = Res.ok
      { Name := method.Name, TypeName := messageTypeName response false,
        Arguments := [{ Name := "input", TypeName := messageTypeName request true,
                        Modifiers := graphql.TypeModifierNonNull }],
        Modifiers := graphql.TypeModifierNonNull } := by
    unfold graphqlFieldFromMethod
    rw [hin, hout, hget request hreq, hget response hresp]
    simp only [hreqLen, hrespLen, ne_eq, not_false_eq_true, if_true, if_false, hreqName,
      hrespName]
  unfold graphqlFromService
  rw [hmethod]
  simp only [graphqlServiceLoop, hkind, Option.getD_none, hfield, hsname]
  simp [serviceTypeName, messageTypeName]

theorem greeter_scenario_witness :
    RunOK soloGreeterRequest 3 ∧ ServicesDistinct soloGreeterRequest.reqFiles ∧
    soloGreeterFile ∈ soloGreeterRequest.reqFiles ∧ soloGreeter ∈ soloGreeterFile.Services ∧
    soloGreeter.Method = [sayHello] ∧ sayHello.Operation = none ∧
    helloRequest ∈ allMessages soloGreeterRequest.reqFiles ∧
    helloReply ∈ allMessages soloGreeterRequest.reqFiles ∧
    sayHello.InputType = helloRequest.FullName ∧ sayHello.OutputType = helloReply.FullName ∧
    helloRequest.Field ≠ [] ∧ helloReply.Field ≠ [] ∧
    buildGraphqlTypeName
      { Package := soloGreeterFile.Package, TypeName := soloGreeter.TypeName,
        IsProtoMap := false, Input := false } ++ "_Query" = "Helloworld_Greeter_Query" ∧
    ∃ g', buildTypeMaps 3 soloGreeterRequest = Res.ok g' ∧
      graphqlFromService g' soloGreeter = Res.ok
        [graphql.GType.Object
          (buildGraphqlTypeName
            { Package := soloGreeterFile.Package, TypeName := soloGreeter.TypeName,
              IsProtoMap := false, Input := false } ++ "_Query")
          [{ Name := sayHello.Name,
             TypeName := buildGraphqlTypeName
               { Package := helloReply.Package, TypeName := helloReply.TypeName,
                 IsProtoMap := helloReply.IsMap, Input := false },
             Arguments := [{ Name := "input",
                             TypeName := buildGraphqlTypeName
                               { Package := helloRequest.Package,
                                 TypeName := helloRequest.TypeName,
                                 IsProtoMap := helloRequest.IsMap, Input := true },
                             Modifiers := graphql.TypeModifierNonNull }],
             Modifiers := graphql.TypeModifierNonNull }]] :=
  ⟨by decide, by decide, by decide, by decide, rfl, rfl, by decide, by decide, rfl, rfl,
    by decide, by decide, by decide,
    greeter_scenario soloGreeterRequest 3 (by decide) (by decide) soloGreeterFile (by decide)
      soloGreeter (by decide) sayHello rfl rfl helloRequest helloReply (by decide) (by decide)
      rfl rfl (by decide) (by decide)⟩

/-! ## Reachable types under `ServiceTypesOnly` -/

theorem reachableOnly_step {fs : List FileDescriptor} {params : Parameters} {g h : Generator}
    (hnames : NamesDistinct fs) (hsto : params.ServiceTypesOnly = true)
    (hstep : Step fs (serviceRoots params fs) g h) (hinv : ReachableOnly fs g) :
    ReachableOnly fs h := by
  obtain ⟨hout, hin, hen⟩ := hinv
  cases hstep with
  | registerMessage m hm => exact ⟨hout, hin, hen⟩
  | registerEnum e he => exact ⟨hout, hin, hen⟩
  | erase m hm hzero => exact ⟨hout, hin, hen⟩
  | nameMessage m input hm hfields hindexed hfresh horigin =>
    have hnew : (if input then FromRequest fs m.FullName else FromResponse fs m.FullName) := by
      rcases horigin with hroot | ⟨m0, hm0, hp0, p, hp, hty, hpn⟩
      · cases input
        · simp only [serviceRoots, Bool.false_eq_true, if_false] at hroot ⊢
          rcases hroot with hoff | ⟨method, hmeth, heq⟩
          · rw [hsto] at hoff
            exact absurd hoff (by decide)
          · exact ⟨method, hmeth, heq ▸ FieldReach.start _⟩
        · simp only [serviceRoots, if_true] at hroot ⊢
          obtain ⟨method, hmeth, heq⟩ := hroot
          exact ⟨method, hmeth, heq ▸ FieldReach.start _⟩
      · cases input
        · simp only [Bool.false_eq_true, if_false]
          obtain ⟨method, hmeth, hreach⟩ := hout m0 hm0 hp0
          exact ⟨method, hmeth, FieldReach.field _ _ _ hreach m0 hm0 rfl p hp hty hpn⟩
        · simp only [if_true]
          obtain ⟨method, hmeth, hreach⟩ := hin m0 hm0 hp0
          exact ⟨method, hmeth, FieldReach.field _ _ _ hreach m0 hm0 rfl p hp hty hpn⟩
    refine ⟨?_, ?_, ?_⟩
    · intro m' hm' hp'
      rcases (present_setName_iff g input false m.FullName m'.FullName _).1 hp' with
        ⟨hi, hk⟩ | hold
      · subst hi
        rw [hk]
        simpa using hnew
      · exact hout m' hm' hold
    · intro m' hm' hp'
      rcases (present_setName_iff g input true m.FullName m'.FullName _).1 hp' with
        ⟨hi, hk⟩ | hold
      · subst hi
        rw [hk]
        simpa using hnew
      · exact hin m' hm' hold
    · intro e he hp'
      rcases (present_setName_iff g input false m.FullName e.FullName _).1 hp' with
        ⟨_, hk⟩ | hold
      · exact absurd hk.symm (hnames.2.2.1 m hm e he)
      · exact hen e he hold
  | nameEnum e he horigin =>
    refine ⟨?_, ?_, ?_⟩
    · intro m' hm' hp'
      rcases (present_enum_iff g e false m'.FullName).1 hp' with ⟨_, hk⟩ | hold
      · exact absurd hk (hnames.2.2.1 m' hm' e he)
      · exact hout m' hm' hold
    · intro m' hm' hp'
      rcases (present_enum_iff g e true m'.FullName).1 hp' with ⟨hi, _⟩ | hold
      · exact absurd hi (by decide)
      · exact hin m' hm' hold
    · intro e' he' hp'
      rcases (present_enum_iff g e false e'.FullName).1 hp' with ⟨_, hk⟩ | hold
      · rcases horigin with hroot | ⟨input, m0, hm0, hp0, p, hp, hty, hpn⟩
        · simp only [serviceRoots] at hroot
          rw [hsto] at hroot
          exact absurd hroot (by decide)
        · refine ⟨m0, hm0, p, hp, hty, hpn.trans hk.symm, ?_⟩
          cases input
          · exact Or.inl (hout m0 hm0 hp0)
          · exact Or.inr (hin m0 hm0 hp0)
      · exact hen e' he' hold
  | nameService f s hf hs =>
    have hmem := mem_allServices_of_mem hf hs
    have hpres : ∀ k, Present (g.setName false s.FullName (serviceTypeName f.Package s)) false k →
        k = s.FullName ∨ Present g false k := by
      intro k hk
      rcases (present_setName_iff g false false s.FullName k _).1 hk with ⟨_, h1⟩ | h1
      · exact Or.inl h1
      · exact Or.inr h1
    refine ⟨?_, ?_, ?_⟩
    · intro m' hm' hp'
      rcases hpres _ hp' with hk | hold
      · exact absurd hk (hnames.2.2.2.1 m' hm' _ hmem)
      · exact hout m' hm' hold
    · intro m' hm' hp'
      exact hin m' hm' hp'
    · intro e he hp'
      rcases hpres _ hp' with hk | hold
      · exact absurd hk (hnames.2.2.2.2 e he _ hmem)
      · exact hen e he hold

theorem reachableOnly_reach {fs : List FileDescriptor} {params : Parameters} {g h : Generator}
    (hnames : NamesDistinct fs) (hsto : params.ServiceTypesOnly = true)
    (hreach : Reach fs (serviceRoots params fs) g h) (hinv : ReachableOnly fs g) :
    ReachableOnly fs h := by
  induction hreach with
  | refl => exact hinv
  | tail _ hstep ih => exact reachableOnly_step hnames hsto hstep ih

theorem reachableOnly_reset (fs : List FileDescriptor) (g : Generator) :
    ReachableOnly fs g.reset := by
  refine ⟨?_, ?_, ?_⟩ <;> intro x _ hp <;>
    simp [Present, Generator.reset, Generator.nameMap, GoMap.get?] at hp

/-- C13: when `ServiceTypesOnly` is set, `buildTypeMaps` returns (given an
internally consistent graph and enough fuel) and in its final state every
declared message that is a key of `typeNameMap` is reachable through
message-typed fields from the response of some method, every declared message
that is a key of `inputNameMap` is reachable through message-typed fields from
the request of some method, and every declared enum that is a key of
`typeNameMap` is the type of a field of a message reachable in one of these two
ways; when no service is declared, both tables have no key at all. -/
theorem service_types_only_reachable (g : Generator) (fuel : Nat) (hrun : RunOK g fuel)
    (hsto : g.params.ServiceTypesOnly = true) :
    ∃ g', buildTypeMaps fuel g = Res.ok g' ∧
      (∀ m ∈ allMessages g.reqFiles, g'.typeNameMap.get? m.FullName ≠ none →
        ∃ method ∈ allMethods g.reqFiles,
          FieldReach g.reqFiles method.OutputType m.FullName) ∧
      (∀ m ∈ allMessages g.reqFiles, g'.inputNameMap.get? m.FullName ≠ none →
        ∃ method ∈ allMethods g.reqFiles,
          FieldReach g.reqFiles method.InputType m.FullName) ∧
      (∀ e ∈ allEnums g.reqFiles, g'.typeNameMap.get? e.FullName ≠ none →
        ∃ m ∈ allMessages g.reqFiles, ∃ p ∈ m.Field, p.FType = FieldType.TYPE_ENUM ∧
          p.TypeName = e.FullName ∧
          ((∃ method ∈ allMethods g.reqFiles,
              FieldReach g.reqFiles method.OutputType m.FullName) ∨
            (∃ method ∈ allMethods g.reqFiles,
              FieldReach g.reqFiles method.InputType m.FullName))) ∧
      (allServices g.reqFiles = [] →
        ∀ k, g'.typeNameMap.get? k = none ∧ g'.inputNameMap.get? k = none) := by
  obtain ⟨g', hok, hinv⟩ := buildTypeMaps_spec g fuel hrun
  obtain ⟨_, _, _, _, hsound, _, _, _, hreach⟩ := hinv
  have hnames : NamesDistinct g.reqFiles := hrun.2.1.1
  obtain ⟨hout, hin, hen⟩ :=
    reachableOnly_reach hnames hsto hreach (reachableOnly_reset g.reqFiles g)
  refine ⟨g', hok, hout, hin, hen, ?_⟩
  intro hnone k
  have hmethods : allMethods g.reqFiles = [] := by simp [allMethods, hnone]
  have hno : ∀ x, ¬ (∃ method ∈ allMethods g.reqFiles, FieldReach g.reqFiles method.OutputType x) ∧
      ¬ (∃ method ∈ allMethods g.reqFiles, FieldReach g.reqFiles method.InputType x) := by
    intro x
    rw [hmethods]
    simp
  constructor
  · cases hk : g'.typeNameMap.get? k with
    | none => rfl
    | some n =>
      have hpres : g'.typeNameMap.get? k ≠ none := by rw [hk]; simp
      rcases hsound.1 k n hk with ⟨m, hm, hmk, _⟩ | ⟨e, he, hek, _⟩ | ⟨s, hs, _⟩
      · subst hmk
        exact absurd (hout m hm hpres) (hno _).1
      · subst hek
        obtain ⟨m, _, _, _, _, _, hfrom⟩ := hen e he hpres
        rcases hfrom with h1 | h1
        · exact absurd h1 (hno _).1
        · exact absurd h1 (hno _).2
      · rw [hnone] at hs
        exact absurd hs (List.not_mem_nil _)
  · cases hk : g'.inputNameMap.get? k with
    | none => rfl
    | some n =>
      have hpres : g'.inputNameMap.get? k ≠ none := by rw [hk]; simp
      obtain ⟨m, hm, hmk, _⟩ := hsound.2.1 k n hk
      subst hmk
      exact absurd (hin m hm hpres) (hno _).2

theorem service_types_only_reachable_witness :
    RunOK deskRequest 5 ∧ deskRequest.params.ServiceTypesOnly = true ∧
    buildTypeMaps 5 deskRequest = Res.ok deskGenerator ∧
    deskGenerator.typeNameMap =
      [(".desk.Echo", "Desk_Echo"), (".desk.Answer", "Desk_Answer"), (".desk.Desk", "Desk_Desk")] ∧
    deskGenerator.inputNameMap =
      [(".desk.Echo", "Desk_Echo_Input"), (".desk.Ask", "Desk_Ask_Input")] ∧
    (resolved 2 (newGenerator [pointFile]
      { defaultParameters with ServiceTypesOnly := true })).messages = [(".pkg.Point", point)] ∧
    (resolved 2 (newGenerator [pointFile]
      { defaultParameters with ServiceTypesOnly := true })).typeNameMap = [] ∧
    ∃ g', buildTypeMaps 5 deskRequest = Res.ok g' ∧
      (∀ m ∈ allMessages deskRequest.reqFiles, g'.typeNameMap.get? m.FullName ≠ none →
        ∃ method ∈ allMethods deskRequest.reqFiles,
          FieldReach deskRequest.reqFiles method.OutputType m.FullName) ∧
      (∀ m ∈ allMessages deskRequest.reqFiles, g'.inputNameMap.get? m.FullName ≠ none →
        ∃ method ∈ allMethods deskRequest.reqFiles,
          FieldReach deskRequest.reqFiles method.InputType m.FullName) ∧
      (∀ e ∈ allEnums deskRequest.reqFiles, g'.typeNameMap.get? e.FullName ≠ none →
        ∃ m ∈ allMessages deskRequest.reqFiles, ∃ p ∈ m.Field,
          p.FType = FieldType.TYPE_ENUM ∧ p.TypeName = e.FullName ∧
          ((∃ method ∈ allMethods deskRequest.reqFiles,
              FieldReach deskRequest.reqFiles method.OutputType m.FullName) ∨
            (∃ method ∈ allMethods deskRequest.reqFiles,
              FieldReach deskRequest.reqFiles method.InputType m.FullName))) ∧
      (allServices deskRequest.reqFiles = [] →
        ∀ k, g'.typeNameMap.get? k = none ∧ g'.inputNameMap.get? k = none) :=
  ⟨by decide, by decide, by decide, by decide, by decide, by decide, by decide,
    service_types_only_reachable deskRequest 5 (by decide) (by decide)⟩

/-! ## Configuration errors -/

theorem error_of_ite_ok {P : Prop} [Decidable P] {params : parameters.Parameters}
    {other : parameters.Outcome} {message : String}
    (h : (if P then parameters.Outcome.ok params else other) = parameters.Outcome.error message) :
    other = parameters.Outcome.error message := by
  split at h
  · cases h
  · exact h

theorem applyPart_error_iff (params : parameters.Parameters) (part : String) :
    (∃ message, parameters.applyPart params part = parameters.Outcome.error message) ↔
      parameters.partKey part = "map_wellknown_type" ∧
        (parameters.split '=' (parameters.partValue part)).length ≠ 2 := by
  unfold parameters.applyPart
  by_cases hempty : part = ""
  · subst hempty
    rw [if_pos rfl]
    have hkey : parameters.partKey "" ≠ "map_wellknown_type" := by decide
    simp [hkey]
  · rw [if_neg hempty]
    dsimp only
    generalize parameters.partKey part = key
    generalize parameters.partValue part = value
    by_cases hk : key = "map_wellknown_type"
    · subst hk
      by_cases hlen : (parameters.split '=' value).length = 2
      · simp [hlen]
      · simp [hlen]
    · simp only [hk, false_and, iff_false, if_false]
      rintro ⟨message, h⟩
      iterate 9 (replace h := error_of_ite_ok h)
      cases h

theorem parseParts_error_iff (parts : List String) :
    ∀ params : parameters.Parameters,
      (∃ message, parameters.parseParts parts params = parameters.Outcome.error message) ↔
        ∃ part ∈ parts, parameters.partKey part = "map_wellknown_type" ∧
          (parameters.split '=' (parameters.partValue part)).length ≠ 2 := by
  induction parts with
  | nil =>
    intro params
    simp [parameters.parseParts]
  | cons part rest ih =>
    intro params
    unfold parameters.parseParts
    cases hpart : parameters.applyPart params part with
    | error message =>
      have hbad := (applyPart_error_iff params part).1 ⟨message, hpart⟩
      simp only [List.mem_cons, exists_eq_or_imp]
      exact ⟨fun _ => Or.inl hbad, fun _ => ⟨message, rfl⟩⟩
    | ok params1 =>
      have hgood : ¬ (parameters.partKey part = "map_wellknown_type" ∧
          (parameters.split '=' (parameters.partValue part)).length ≠ 2) := by
        intro hbad
        obtain ⟨message, hm⟩ := (applyPart_error_iff params part).2 hbad
        rw [hpart] at hm
        cases hm
      simp only [List.mem_cons, exists_eq_or_imp]
      rw [ih params1]
      exact ⟨fun h => Or.inr h, fun h => h.resolve_left hgood⟩

/-- C17: `NewParameters` returns an error (and no value) exactly when some part
of the parameter string between commas has the key `map_wellknown_type` and a
value that `strings.Split` on `=` does not cut into exactly two pieces, as when
the separator is missing; for every other parameter string it returns a value.
`New` returns the error of its parameter parser exactly when the parser fails,
and a generator otherwise. -/
theorem configuration_errors (parameter : String) :
    ((∃ message, parameters.NewParameters parameter = parameters.Outcome.error message) ↔
      ∃ part ∈ parameters.split ',' parameter,
        parameters.partKey part = "map_wellknown_type" ∧
          (parameters.split '=' (parameters.partValue part)).length ≠ 2) ∧
    ((∃ params, parameters.NewParameters parameter = parameters.Outcome.ok params) ↔
      ¬ ∃ part ∈ parameters.split ',' parameter,
        parameters.partKey part = "map_wellknown_type" ∧
          (parameters.split '=' (parameters.partValue part)).length ≠ 2) ∧
    (∀ (newParameters : String → Except String Parameters) (req : List FileDescriptor),
      ((∃ err, New newParameters req parameter = Except.error err) ↔
        ∃ err, newParameters parameter = Except.error err) ∧
      ((∃ g, New newParameters req parameter = Except.ok g) ↔
        ∃ params, newParameters parameter = Except.ok params)) ∧
    parameters.NewParameters "null_wrappers,map_wellknown_type=Timestamp" =
      parameters.Outcome.error "maps of well-known type must be in the format of 'key=value'" ∧
    parameters.NewParameters "null_wrappers,,map_wellknown_type=a.B=C,x=1" =
      parameters.Outcome.ok
        { parameters.zeroParameters with
          WrappersAsNull := true, InputMode := "service",
          MapWellKnownTypes := [(".a.B", "C")] } := by
  have herr : (∃ message, parameters.NewParameters parameter =
      parameters.Outcome.error message) ↔
      ∃ message, parameters.parseParts (parameters.split ',' parameter)
        parameters.zeroParameters = parameters.Outcome.error message := by
    unfold parameters.NewParameters
    cases parameters.parseParts (parameters.split ',' parameter) parameters.zeroParameters with
    | ok params => simp
    | error message => simp
  have hiff := herr.trans (parseParts_error_iff (parameters.split ',' parameter)
    parameters.zeroParameters)
  refine ⟨hiff, ?_, ?_, by decide, by decide⟩
  · rw [← hiff]
    cases parameters.NewParameters parameter with
    | ok params => simp
    | error message => simp
  · intro newParameters req
    unfold New
    cases newParameters parameter with
    | ok params => simp
    | error err => simp

end ProtocGenGraphql
